import Mathlib

/-!
SampleConverter plan construction.

A shallow embedding of `source/converter/inc/SampleConverter.hpp`
(`SampleConverter::Open`, `CreateBlockInterpreter`, `CreateChunkInterpreter`)
and the properties of the plan it builds.

Conventions of the embedding.

* C++ unsigned integers are natural numbers; every conversion to a narrower
  type is written out as `uint16_t`, `uint32_t` or `size_t` (reduction modulo
  `2^16`, `2^32`, `2^64`).  The descriptor getters (`SizeWord`, `CountWords`,
  `RateFactor`, `Packedbits`, `Quantization`, `Cycles`, ...) return `size_t`.
  The factory function `BitWidth` is a parameter; its result is a `uint32_t`.
  The 16-bit call-order arithmetic of lines 200-222 is carried out modulo
  `2^16`.
* Undefined behaviour of the C++ code (integer division by zero, `front()` of
  an empty container) is the result `none`.
* A `throw` is an explicit outcome that carries the state reached so far.
* Frequencies are exact rational numbers.
-/

set_option autoImplicit false

namespace GnssMetadata

/-! ## Format descriptor model (read-only input) -/

/-- Word shift direction of a chunk, `Chunk::Shift()`. -/
inductive ChunkShift where
  | Left | Right
  deriving DecidableEq, Repr

/-- Chunk padding policy, `Chunk::Padding()`. -/
inductive ChunkPadding where
  | None | Head | Tail
  deriving DecidableEq, Repr

/-- Byte order of the words of a chunk, `Chunk::Endian()`. -/
inductive WordEndian where
  | Big | Little | Undefined
  deriving DecidableEq, Repr

/-- Shift direction of a lump, `Lump::Shift()`. -/
inductive LumpShift where
  | shiftLeft | shiftRight
  deriving DecidableEq, Repr

/-- Shift direction of a stream, `IonStream::Shift()`. -/
inductive StreamShift where
  | shiftLeft | shiftRight
  deriving DecidableEq, Repr

/-- Placement of stream-local padding, `IonStream::Alignment()`. -/
inductive StreamAlignment where
  | Undefined | Left | Right
  deriving DecidableEq, Repr

/-- Modelled from the spec: the enumeration `IonStream::SampleFormat` is declared
outside this file; the spec lists real IF, real IFn and the complex IQ family. -/
inductive SampleFormat where
  | IF | IFn | IQ | IQn | InQ | InQn | QI | QIn | QnI | QnIn
  deriving DecidableEq, Repr

/-- Band node: only the attributes the converter reads. -/
structure Band where
  Id : String
  CenterFrequency : ℚ
  TranslatedFrequency : ℚ
  DelayBias : ℚ
  deriving DecidableEq, Repr

/-- System node: only the attributes the converter reads. -/
structure System where
  Id : String
  BaseFrequency : ℚ
  deriving DecidableEq, Repr

/-- Stream node.  `toString` is the identity under which sinks and stream
metadata are looked up. -/
structure IonStream where
  toString : String
  RateFactor : Nat
  Packedbits : Nat
  Quantization : Nat
  Format : SampleFormat
  Encoding : String
  Shift : StreamShift
  Alignment : StreamAlignment
  Bands : List Band
  deriving DecidableEq, Repr

/-- Lump node. -/
structure Lump where
  Shift : LumpShift
  Streams : List IonStream
  deriving DecidableEq, Repr

/-- Chunk node. -/
structure Chunk where
  SizeWord : Nat
  CountWords : Nat
  Endian : WordEndian
  Shift : ChunkShift
  Padding : ChunkPadding
  Lumps : List Lump
  deriving DecidableEq, Repr

/-- Block node. -/
structure Block where
  Cycles : Nat
  SizeHeader : Nat
  SizeFooter : Nat
  Chunks : List Chunk
  deriving DecidableEq, Repr

/-- Lane node. -/
structure Lane where
  Id : String
  Systems : List System
  Blocks : List Block
  deriving DecidableEq, Repr

/-- File node: its URL and the id of the lane it references. -/
structure File where
  Url : String
  Lane : String
  deriving DecidableEq, Repr

/-- The descriptor tree.  `Systems` and `Bands` are the objects that the
attributed-object search can reach. -/
structure Metadata where
  Files : List File
  Lanes : List Lane
  Systems : List System
  Bands : List Band
  deriving DecidableEq, Repr

/-- Modelled from the spec: `AttributedObject::Search<System>` is defined outside
this file.  It looks the id up in the descriptor; when nothing is found the
object passed in (default constructed by the caller) is left as it was. -/
def SearchSystem (system : System) (md : Metadata) (id : String) : System :=
  match md.Systems.find? (fun s => s.Id == id) with
  | some s => s
  | none => system

/-- Modelled from the spec: `AttributedObject::Search<Band>`, as `SearchSystem`. -/
def SearchBand (band : Band) (md : Metadata) (id : String) : Band :=
  match md.Bands.find? (fun b => b.Id == id) with
  | some b => b
  | none => band

end GnssMetadata

open GnssMetadata

/-! ## Machine integers -/

/-- Conversion to `uint16_t`. -/
def uint16_t (x : Nat) : Nat := x % 2 ^ 16

/-- Conversion to `uint32_t`. -/
def uint32_t (x : Nat) : Nat := x % 2 ^ 32

/-- Conversion to `size_t` (64 bit). -/
def size_t (x : Nat) : Nat := x % 2 ^ 64

/-- Subtraction `a - b` carried out in `size_t`. -/
def size_t_sub (a b : Nat) : Nat := (((a : Int) - (b : Int)) % (2 : Int) ^ 64).toNat

/-! ## Interpreters built by the converter -/

/-- A sample-unit interpreter: its bit width, its call order and the sink it
feeds.  Modelled from the spec: the class and the factory that creates the
sample units are declared outside this file; a padding unit has no sink. -/
structure SampleInterpreter where
  bitWidth : Nat
  callOrder : Nat
  sink : Option String
  deriving DecidableEq, Repr

/-- Padding units are the ones built by `new SampleInterpreter(bits, 0)`. -/
def SampleInterpreter.isPadding (i : SampleInterpreter) : Bool := i.sink.isNone

/-- Per-stream metadata record, `SampleStreamInfo`. -/
structure SampleStreamInfo where
  mBaseFrequency : ℚ
  mSampleFrequency : ℚ
  mQuantization : Nat
  mIsComplexSamples : Bool
  mCenterFrequency : ℚ
  mTranslatedFrequency : ℚ
  mDelayBias : ℚ
  deriving DecidableEq, Repr

/-- A default-constructed `SampleStreamInfo`. -/
def SampleStreamInfo.default : SampleStreamInfo := ⟨0, 0, 0, false, 0, 0, 0⟩

/-- The sink registry `mSampleSinkFactory`: the sinks created so far and the
metadata records, both keyed by stream identity. -/
structure SampleSinkFactory where
  sinks : List String
  infos : List (String × SampleStreamInfo)
  deriving DecidableEq, Repr

/-- Modelled from the spec: `GetSampleSink` creates the sink on first use. -/
def SampleSinkFactory.GetSampleSink (f : SampleSinkFactory) (name : String) : SampleSinkFactory :=
  if name ∈ f.sinks then f else ⟨f.sinks ++ [name], f.infos⟩

/-- Modelled from the spec: the record `GetSampleStreamInfo` points to. -/
def SampleSinkFactory.GetSampleStreamInfo (f : SampleSinkFactory) (name : String) :
    Option SampleStreamInfo :=
  (f.infos.find? (fun e => e.1 == name)).map Prod.snd

/-- Writing through the pointer returned by `GetSampleStreamInfo`; the record is
created when the stream identity is new. -/
def SampleSinkFactory.setInfo (f : SampleSinkFactory) (name : String) (info : SampleStreamInfo) :
    SampleSinkFactory :=
  if f.infos.any (fun e => e.1 == name) then
    ⟨f.sinks, f.infos.map (fun e => if e.1 == name then (e.1, info) else e)⟩
  else ⟨f.sinks, f.infos ++ [(name, info)]⟩

/-- The chunk interpreter `ChunkInterpreter<chunk_t, sample_base_t>`:
`wordBytes` is `sizeof(chunk_t)`. -/
structure ChunkInterpreter where
  wordBytes : Nat
  mCountWords : Nat
  mRightShiftWord : Bool
  mSourceEndianness : WordEndian
  mSampleInterpreters : List SampleInterpreter
  deriving DecidableEq, Repr

/-- Modelled from the spec: `ChunkInterpreter::AddSampleInterpreter(i, front)`
puts the unit at the front of the plan when `front` is set and at the back
otherwise (the default). -/
def ChunkInterpreter.AddSampleInterpreter (c : ChunkInterpreter) (i : SampleInterpreter)
    (front : Bool) : ChunkInterpreter :=
  if front then ⟨c.wordBytes, c.mCountWords, c.mRightShiftWord, c.mSourceEndianness,
      i :: c.mSampleInterpreters⟩
  else ⟨c.wordBytes, c.mCountWords, c.mRightShiftWord, c.mSourceEndianness,
      c.mSampleInterpreters ++ [i]⟩

/-- The call `chkInterp->SetSourceEndianness(chunk.Endian())`. -/
def ChunkInterpreter.SetSourceEndianness (c : ChunkInterpreter) (e : WordEndian) :
    ChunkInterpreter :=
  ⟨c.wordBytes, c.mCountWords, c.mRightShiftWord, e, c.mSampleInterpreters⟩

/-! ## `SampleConverter::CreateChunkInterpreter` -/

/-- Line 196: `uint16_t numSmpInterp = static_cast<uint32_t>(stream.RateFactor())`. -/
def numSmpInterp (stream : IonStream) : Nat :=
  uint16_t (uint32_t stream.RateFactor)

/-- The width the factory gives to a sample unit of the stream: the external
`BitWidth(Format, Quantization)`, a `uint32_t`. -/
def unitBitWidth (BitWidth : SampleFormat → Nat → Nat) (stream : IonStream) : Nat :=
  uint32_t (BitWidth stream.Format stream.Quantization)

/-- Lines 197-198: the stream-local padding, an unsigned subtraction stored in a
`uint16_t`. -/
def numPaddingBits (BitWidth : SampleFormat → Nat → Nat) (stream : IonStream) : Nat :=
  uint16_t (uint32_t (size_t_sub stream.Packedbits
    (uint32_t (numSmpInterp stream * unitBitWidth BitWidth stream))))

/-- Lines 200-205: the call order before the stream shift is applied, that is the
units placed earlier in this repetition plus the offset of the repetition. -/
def baseCallOrder (lump : Lump) (lnLumpRepeat lr numSampleInterpretersPerLump
    totalNumSampleInterpreters : Nat) : Nat :=
  if lump.Shift = LumpShift.shiftRight then
    uint16_t (totalNumSampleInterpreters + (lnLumpRepeat - lr) * numSampleInterpretersPerLump)
  else
    uint16_t (totalNumSampleInterpreters + lr * numSampleInterpretersPerLump)

/-- Lines 200-208: the call order handed to the first sample unit of the stream. -/
def firstCallOrder (lump : Lump) (lnLumpRepeat lr numSampleInterpretersPerLump
    totalNumSampleInterpreters : Nat) (stream : IonStream) : Nat :=
  let nextCallOrder :=
    baseCallOrder lump lnLumpRepeat lr numSampleInterpretersPerLump totalNumSampleInterpreters
  if stream.Shift = StreamShift.shiftRight then uint16_t (nextCallOrder + numSmpInterp stream)
  else nextCallOrder

/-- Lines 211-223: the loop that creates the sample units of one stream; the first
argument is the number of iterations left, the second is `nextCallOrder`. -/
def createSampleInterpreters (BitWidth : SampleFormat → Nat → Nat) (stream : IonStream) :
    Nat → Nat → List SampleInterpreter
  | 0, _ => []
  | n + 1, nextCallOrder =>
    ⟨unitBitWidth BitWidth stream, nextCallOrder, some stream.toString⟩ ::
      createSampleInterpreters BitWidth stream n
        (if stream.Shift = StreamShift.shiftRight then uint16_t (nextCallOrder + 2 ^ 16 - 1)
         else uint16_t (nextCallOrder + 1))

/-- Lines 196-234: the deque `streamSplIntrps` of one stream in one lump
repetition, padding unit included. -/
def streamSplIntrps (BitWidth : SampleFormat → Nat → Nat) (lump : Lump)
    (lnLumpRepeat lr numSampleInterpretersPerLump totalNumSampleInterpreters : Nat)
    (stream : IonStream) : List SampleInterpreter :=
  let samples := createSampleInterpreters BitWidth stream (numSmpInterp stream)
    (firstCallOrder lump lnLumpRepeat lr numSampleInterpretersPerLump
      totalNumSampleInterpreters stream)
  if 0 < numPaddingBits BitWidth stream ∧ stream.Alignment ≠ StreamAlignment.Undefined then
    if stream.Alignment = StreamAlignment.Right then
      ⟨numPaddingBits BitWidth stream, 0, none⟩ :: samples
    else
      samples ++ [⟨numPaddingBits BitWidth stream, 0, none⟩]
  else samples

/-- Lines 246-262: the metadata record written for a stream whose first band is
`bandRef`. -/
def streamInfo (md : Metadata) (commonSampleInfo : SampleStreamInfo) (stream : IonStream)
    (bandRef : Band) : SampleStreamInfo :=
  let band := SearchBand ⟨"", 0, 0, 0⟩ md bandRef.Id
  ⟨commonSampleInfo.mBaseFrequency,
   (stream.RateFactor : ℚ) * commonSampleInfo.mBaseFrequency,
   stream.Quantization,
   decide (stream.Format ≠ SampleFormat.IF ∧ stream.Format ≠ SampleFormat.IFn),
   band.CenterFrequency,
   band.TranslatedFrequency,
   band.DelayBias⟩

/-- The variables that live across the loops of `CreateChunkInterpreter`. -/
structure ChunkBuild where
  chunkIntrp : ChunkInterpreter
  totalOccupiedBitsInChunk : Nat
  factory : SampleSinkFactory
  deriving DecidableEq, Repr

/-- Lines 189-265: the body of the loop over the streams of a lump.  The loop
state is `totalNumSampleInterpreters` and the chunk-wide variables.
`stream.Bands().front()` on a stream without band is undefined. -/
def streamBody (BitWidth : SampleFormat → Nat → Nat) (md : Metadata)
    (commonSampleInfo : SampleStreamInfo) (lump : Lump)
    (lnLumpRepeat lr numSampleInterpretersPerLump : Nat)
    (st : Nat × ChunkBuild) (stream : IonStream) : Option (Nat × ChunkBuild) :=
  let totalNumSampleInterpreters := st.1
  let b := st.2
  let factory := b.factory.GetSampleSink stream.toString
  let units := streamSplIntrps BitWidth lump lnLumpRepeat lr numSampleInterpretersPerLump
    totalNumSampleInterpreters stream
  let chunkIntrp := units.foldl (fun c i => c.AddSampleInterpreter i false) b.chunkIntrp
  let totalOccupiedBitsInChunk := uint32_t (b.totalOccupiedBitsInChunk + uint32_t stream.Packedbits)
  match stream.Bands.head? with
  | none => none
  | some bandRef =>
    some (uint16_t (totalNumSampleInterpreters + numSmpInterp stream),
      ⟨chunkIntrp, totalOccupiedBitsInChunk,
        factory.setInfo stream.toString (streamInfo md commonSampleInfo stream bandRef)⟩)

/-- Lines 173-181: `numSampleInterpretersPerLump` after the pre-pass. -/
def numSampleInterpretersPerLump (lump : Lump) : Nat :=
  lump.Streams.foldl (fun n stream => uint16_t (n + uint32_t stream.RateFactor)) 0

/-- Lines 175-181: `numBitsInLump` after the pre-pass. -/
def numBitsInLump (lump : Lump) : Nat :=
  lump.Streams.foldl (fun n stream => uint16_t (size_t (n + stream.Packedbits))) 0

/-- Line 183: `lnLumpRepeat`; the `size_t` product is divided by `numBitsInLump`
and stored in a `uint16_t`. -/
def lnLumpRepeat (chunk : Chunk) (lump : Lump) : Nat :=
  uint16_t (size_t (size_t (chunk.SizeWord * chunk.CountWords) * 8) / numBitsInLump lump)

/-- Lines 185-266: one lump repetition, the loop over the streams started with
`totalNumSampleInterpreters = 0`. -/
def lumpRepeatBody (BitWidth : SampleFormat → Nat → Nat) (md : Metadata)
    (commonSampleInfo : SampleStreamInfo) (chunk : Chunk) (lump : Lump)
    (b : ChunkBuild) (lr : Nat) : Option ChunkBuild :=
  (lump.Streams.foldlM (streamBody BitWidth md commonSampleInfo lump (lnLumpRepeat chunk lump) lr
    (numSampleInterpretersPerLump lump)) (0, b)).map Prod.snd

/-- Lines 171-267: the body of the loop over the lumps.  The division of line 183
by a zero `numBitsInLump` is undefined. -/
def lumpBody (BitWidth : SampleFormat → Nat → Nat) (md : Metadata)
    (commonSampleInfo : SampleStreamInfo) (chunk : Chunk)
    (b : ChunkBuild) (lump : Lump) : Option ChunkBuild :=
  if numBitsInLump lump = 0 then none
  else (List.range (lnLumpRepeat chunk lump)).foldlM
    (lumpRepeatBody BitWidth md commonSampleInfo chunk lump) b

/-- Line 270: `numChunkPaddingBits` for `sizeof(chunk_t) = wordBytes`. -/
def numChunkPaddingBits (wordBytes : Nat) (chunk : Chunk) (totalOccupiedBitsInChunk : Nat) : Nat :=
  uint32_t (size_t_sub (size_t (size_t (8 * wordBytes) * uint32_t chunk.CountWords))
    totalOccupiedBitsInChunk)

/-- `SampleConverter::CreateChunkInterpreter<chunk_t, sample_base_t>` with
`sizeof(chunk_t) = wordBytes`, run on the registry `factory`.  The result is the
returned flag, the chunk interpreter stored in `*chunkInterp` and the registry;
`none` stands for undefined behaviour.  The endianness of a fresh chunk
interpreter is a placeholder: the caller sets it right after the build. -/
def CreateChunkInterpreter (BitWidth : SampleFormat → Nat → Nat) (wordBytes : Nat)
    (factory : SampleSinkFactory) (md : Metadata) (commonSampleInfo : SampleStreamInfo)
    (chunk : Chunk) : Option (Bool × ChunkInterpreter × SampleSinkFactory) :=
  let chunkIntrp : ChunkInterpreter :=
    ⟨wordBytes, uint32_t chunk.CountWords, decide (chunk.Shift = ChunkShift.Right),
      WordEndian.Undefined, []⟩
  match chunk.Lumps.foldlM (lumpBody BitWidth md commonSampleInfo chunk) ⟨chunkIntrp, 0, factory⟩ with
  | none => none
  | some b =>
    let pad := numChunkPaddingBits wordBytes chunk b.totalOccupiedBitsInChunk
    if 0 < pad ∧ chunk.Padding ≠ ChunkPadding.None then
      some (true, b.chunkIntrp.AddSampleInterpreter ⟨pad, 0, none⟩
        (decide (chunk.Padding = ChunkPadding.Head)), b.factory)
    else some (true, b.chunkIntrp, b.factory)

/-- The plan of a chunk: the units of the built chunk interpreter in list order. -/
def chunkPlan (BitWidth : SampleFormat → Nat → Nat) (wordBytes : Nat)
    (factory : SampleSinkFactory) (md : Metadata) (commonSampleInfo : SampleStreamInfo)
    (chunk : Chunk) : Option (List SampleInterpreter) :=
  (CreateChunkInterpreter BitWidth wordBytes factory md commonSampleInfo chunk).map
    (fun r => r.2.1.mSampleInterpreters)

/-! ## `SampleConverter::CreateBlockInterpreter` -/

/-- The block interpreter `BlockInterpreter(cycles, sizeHeader, sizeFooter)` with
the chunk interpreters added to it, in order. -/
structure BlockInterpreter where
  Cycles : Nat
  SizeHeader : Nat
  SizeFooter : Nat
  Chunks : List ChunkInterpreter
  deriving DecidableEq, Repr

/-- Modelled from the spec: `BlockInterpreter::AddChunk` appends to the ordered
sequence of chunk plans. -/
def BlockInterpreter.AddChunk (b : BlockInterpreter) (c : ChunkInterpreter) : BlockInterpreter :=
  ⟨b.Cycles, b.SizeHeader, b.SizeFooter, b.Chunks ++ [c]⟩

/-- Lines 128-145: the word type the `switch` selects, `none` for the `default`
branch. -/
def chunkWordBytes (sizeWord : Nat) : Option Nat :=
  if sizeWord = 1 then some 1
  else if sizeWord = 2 then some 2
  else if sizeWord = 4 then some 4
  else if sizeWord = 8 then some 8
  else none

/-- Lines 123-156: the loop over the chunks of a block, with its early
`return false`. -/
def blockChunks (BitWidth : SampleFormat → Nat → Nat) (md : Metadata)
    (commonSampleInfo : SampleStreamInfo) :
    List Chunk → BlockInterpreter → SampleSinkFactory →
      Option (Bool × BlockInterpreter × SampleSinkFactory)
  | [], blockInterp, factory => some (true, blockInterp, factory)
  | chunk :: rest, blockInterp, factory =>
    match chunkWordBytes chunk.SizeWord with
    | none => some (false, blockInterp, factory)
    | some wordBytes =>
      match CreateChunkInterpreter BitWidth wordBytes factory md commonSampleInfo chunk with
      | none => none
      | some r =>
        blockChunks BitWidth md commonSampleInfo rest
          (blockInterp.AddChunk (r.2.1.SetSourceEndianness chunk.Endian)) r.2.2

/-- `SampleConverter::CreateBlockInterpreter<sample_base_t>`: the returned flag,
the block interpreter stored in `*blockInterp` and the registry; `none` stands
for undefined behaviour. -/
def CreateBlockInterpreter (BitWidth : SampleFormat → Nat → Nat) (factory : SampleSinkFactory)
    (md : Metadata) (commonSampleInfo : SampleStreamInfo) (block : Block) :
    Option (Bool × BlockInterpreter × SampleSinkFactory) :=
  blockChunks BitWidth md commonSampleInfo block.Chunks
    ⟨uint32_t block.Cycles, uint32_t block.SizeHeader, uint32_t block.SizeFooter, []⟩ factory

/-! ## `SampleConverter::Open` -/

/-- The lane interpreter `LaneInterpreter(fileURL)` with the blocks added to it. -/
structure LaneInterpreter where
  FileURL : String
  Blocks : List BlockInterpreter
  deriving DecidableEq, Repr

/-- Modelled from the spec: `LaneInterpreter::AddBlock` appends the block. -/
def LaneInterpreter.AddBlock (l : LaneInterpreter) (b : BlockInterpreter) : LaneInterpreter :=
  ⟨l.FileURL, l.Blocks ++ [b]⟩

/-- A byte source after `Open(path)`: the path it was opened at and `IsOpen()`. -/
structure BinaryFileSource where
  path : String
  IsOpen : Bool
  deriving DecidableEq, Repr

/-- The converter.  `mLaneFiles` maps a lane interpreter (a pointer in the code,
here its position in `mLaneInterps`) to its byte source. -/
structure SampleConverter where
  mIsOpen : Bool
  mLaneInterps : List LaneInterpreter
  mLaneFiles : List (Nat × BinaryFileSource)
  mSampleSinkFactory : SampleSinkFactory
  deriving DecidableEq, Repr

/-- How a call of `Open` ends: it returns a flag, it throws a
`std::runtime_error`, or its behaviour is undefined.  The first two carry the
converter as the call leaves it. -/
inductive OpenResult where
  | returned (flag : Bool) (c : SampleConverter)
  | threw (what : String) (c : SampleConverter)
  | undefined
  deriving DecidableEq, Repr

/-- Lines 50-61: the search for the file of a lane; every file is visited and a
later match overwrites an earlier one. -/
def findFileForLane (md : Metadata) (laneID : String) : Bool × String :=
  md.Files.foldl (fun acc file => if file.Lane = laneID then (true, file.Url) else acc)
    (false, "")

/-- Lines 80-86: the loop over the blocks of a lane; the flag returned by
`CreateBlockInterpreter` is dropped. -/
def laneBlocks (BitWidth : SampleFormat → Nat → Nat) (md : Metadata)
    (commonSampleInfo : SampleStreamInfo) (st : LaneInterpreter × SampleSinkFactory)
    (block : Block) : Option (LaneInterpreter × SampleSinkFactory) :=
  (CreateBlockInterpreter BitWidth st.2 md commonSampleInfo block).map
    (fun r => (st.1.AddBlock r.2.1, r.2.2))

/-- Lines 46-108: the loop over the lanes and, once the lanes are exhausted, the
tail of `Open` that flags the converter open and returns.  `canOpen` tells
whether the byte source opens at a path; the loop state is `commonSampleInfo`
and the converter. -/
def openLanes (BitWidth : SampleFormat → Nat → Nat) (canOpen : String → Bool) (md : Metadata)
    ( path_prefix : String) : List Lane → SampleStreamInfo → SampleConverter → OpenResult
  | [], _, c => OpenResult.returned true ⟨true, c.mLaneInterps, c.mLaneFiles, c.mSampleSinkFactory⟩
  | lane :: rest, commonSampleInfo, c =>
    let found := findFileForLane md lane.Id
    if found.1 = false then OpenResult.threw "SampleConverter: No file found for Lane" c
    else
      match lane.Systems.head? with
      | none => OpenResult.undefined
      | some sysRef =>
        let system := SearchSystem ⟨"", 0⟩ md sysRef.Id
        let commonSampleInfo : SampleStreamInfo :=
          ⟨system.BaseFrequency, commonSampleInfo.mSampleFrequency,
            commonSampleInfo.mQuantization, commonSampleInfo.mIsComplexSamples,
            commonSampleInfo.mCenterFrequency, commonSampleInfo.mTranslatedFrequency,
            commonSampleInfo.mDelayBias⟩
        match lane.Blocks.foldlM (laneBlocks BitWidth md commonSampleInfo)
            (⟨found.2, []⟩, c.mSampleSinkFactory) with
        | none => OpenResult.undefined
        | some r =>
          let fullpath := path_prefix ++ r.1.FileURL
          let c1 : SampleConverter :=
            ⟨c.mIsOpen, c.mLaneInterps ++ [r.1],
              c.mLaneFiles ++ [(c.mLaneInterps.length, ⟨fullpath, canOpen fullpath⟩)], r.2⟩
          if canOpen fullpath = false then
            OpenResult.threw "SampleConverter: Could not open file" c1
          else openLanes BitWidth canOpen md path_prefix rest commonSampleInfo c1

/-- `SampleConverter::Open<sample_base_t>(md, path_prefix)` run on the converter
`c`. -/
def Open (BitWidth : SampleFormat → Nat → Nat) (canOpen : String → Bool) (c : SampleConverter)
    (md : Metadata) ( path_prefix : String) : OpenResult :=
  if c.mIsOpen then OpenResult.threw "Error: Already open" c
  else openLanes BitWidth canOpen md path_prefix md.Lanes SampleStreamInfo.default c

/-! ## Auxiliary definitions for the statements -/

/-- The units that the loop over `streams` of one lump repetition appends to
the plan when it starts with `totalNumSampleInterpreters = t`. -/
def streamsUnits (BitWidth : SampleFormat → Nat → Nat) (lump : Lump)
    (lnLumpRepeat lr numSampleInterpretersPerLump : Nat) :
    List IonStream → Nat → List SampleInterpreter
  | [], _ => []
  | s :: rest, t =>
    streamSplIntrps BitWidth lump lnLumpRepeat lr numSampleInterpretersPerLump t s ++
      streamsUnits BitWidth lump lnLumpRepeat lr numSampleInterpretersPerLump rest
        (uint16_t (t + numSmpInterp s))

/-- The units of lump repetition `lr`. -/
def lumpRepeatUnits (BitWidth : SampleFormat → Nat → Nat) (chunk : Chunk) (lump : Lump)
    (lr : Nat) : List SampleInterpreter :=
  streamsUnits BitWidth lump (lnLumpRepeat chunk lump) lr (numSampleInterpretersPerLump lump)
    lump.Streams 0

/-- The units of all repetitions of a lump, in construction order. -/
def lumpUnits (BitWidth : SampleFormat → Nat → Nat) (chunk : Chunk) (lump : Lump) :
    List SampleInterpreter :=
  (List.range (lnLumpRepeat chunk lump)).flatMap (lumpRepeatUnits BitWidth chunk lump)

/-- The units of all lumps of a chunk, in construction order. -/
def lumpsUnits (BitWidth : SampleFormat → Nat → Nat) (chunk : Chunk) : List SampleInterpreter :=
  chunk.Lumps.flatMap (lumpUnits BitWidth chunk)

/-- Sum of the `Packedbits` of the streams of a lump. -/
def lumpPackedbits (lump : Lump) : Nat := (lump.Streams.map IonStream.Packedbits).sum

/-- The bits that the lumps of a chunk occupy: each lump is counted once per
repetition the code performs. -/
def bitsConsumed (chunk : Chunk) : Nat :=
  (chunk.Lumps.map (fun lump => lnLumpRepeat chunk lump * lumpPackedbits lump)).sum

/-- The chunk capacity in bits, `SizeWord * CountWords * 8`. -/
def chunkBitCapacity (chunk : Chunk) : Nat := chunk.SizeWord * chunk.CountWords * 8

/-- Sum of the bit widths of the units of a plan. -/
def planBits (plan : List SampleInterpreter) : Nat := (plan.map SampleInterpreter.bitWidth).sum

/-- The build of a chunk runs into no undefined behaviour: no lump has a zero
16-bit bit count and every stream has a band. -/
def ChunkDefined (chunk : Chunk) : Prop :=
  ∀ lump ∈ chunk.Lumps, numBitsInLump lump ≠ 0 ∧ ∀ s ∈ lump.Streams, s.Bands ≠ []

/-- The state `b1` is `b0` with `units` appended to the plan and `bits` added to
the 32-bit counter of occupied bits. -/
def ChunkBuild.Grows (b0 b1 : ChunkBuild) (units : List SampleInterpreter) (bits : Nat) : Prop :=
  b1.chunkIntrp = ⟨b0.chunkIntrp.wordBytes, b0.chunkIntrp.mCountWords,
      b0.chunkIntrp.mRightShiftWord, b0.chunkIntrp.mSourceEndianness,
      b0.chunkIntrp.mSampleInterpreters ++ units⟩ ∧
    b1.totalOccupiedBitsInChunk = uint32_t (b0.totalOccupiedBitsInChunk + bits)

/-- The width of the chunk-level padding: line 270 evaluated on the counter of
occupied bits that the loops leave behind. -/
def chunkPaddingBits (wordBytes : Nat) (chunk : Chunk) : Nat :=
  numChunkPaddingBits wordBytes chunk (uint32_t (bitsConsumed chunk))

/-- The plan of a chunk in closed form: the units of the lumps with the
chunk-level padding unit put in front of or behind them. -/
def planOf (BitWidth : SampleFormat → Nat → Nat) (wordBytes : Nat) (chunk : Chunk) :
    List SampleInterpreter :=
  if 0 < chunkPaddingBits wordBytes chunk ∧ chunk.Padding ≠ ChunkPadding.None then
    if chunk.Padding = ChunkPadding.Head then
      ⟨chunkPaddingBits wordBytes chunk, 0, none⟩ :: lumpsUnits BitWidth chunk
    else lumpsUnits BitWidth chunk ++ [⟨chunkPaddingBits wordBytes chunk, 0, none⟩]
  else lumpsUnits BitWidth chunk

/-- The samples of a stream fit into its `Packedbits` without any wrap-around
and what is left over is emitted as a padding unit. -/
def StreamFills (BitWidth : SampleFormat → Nat → Nat) (s : IonStream) : Prop :=
  s.RateFactor < 2 ^ 16 ∧ BitWidth s.Format s.Quantization < 2 ^ 32 ∧
    s.RateFactor * BitWidth s.Format s.Quantization ≤ s.Packedbits ∧
    s.Packedbits < s.RateFactor * BitWidth s.Format s.Quantization + 2 ^ 16 ∧
    (s.Packedbits = s.RateFactor * BitWidth s.Format s.Quantization ∨
      s.Alignment ≠ StreamAlignment.Undefined)

/-- The sample units of a plan: every unit that is not padding, in plan order. -/
def sampleUnits (plan : List SampleInterpreter) : List SampleInterpreter :=
  plan.filter (fun u => !u.isPadding)

/-- The number of sample units the code creates per repetition of a lump. -/
def lumpSampleCount (lump : Lump) : Nat := (lump.Streams.map numSmpInterp).sum

/-- The result of the subtraction `Packedbits - RateFactor * BitWidth` after it
has wrapped around modulo `2^16`. -/
def wrappedPadding (BitWidth : SampleFormat → Nat → Nat) (s : IonStream) : Nat :=
  (((s.Packedbits : Int) - (s.RateFactor : Int) * (BitWidth s.Format s.Quantization : Int))
    % 65536).toNat

/-- The chunk interpreter that `CreateBlockInterpreter` adds for a chunk with a
supported `SizeWord`, in closed form. -/
def chunkInterpOf (BitWidth : SampleFormat → Nat → Nat) (chunk : Chunk) : ChunkInterpreter :=
  ⟨chunk.SizeWord, uint32_t chunk.CountWords, decide (chunk.Shift = ChunkShift.Right),
    chunk.Endian, planOf BitWidth chunk.SizeWord chunk⟩

/-- No chunk build of the block runs into undefined behaviour. -/
def BlockDefined (block : Block) : Prop := ∀ chunk ∈ block.Chunks, ChunkDefined chunk

/-- The block interpreter `bi` carries the attributes of `block`, converted
to `uint32_t` by the casts of lines 118-120. -/
def BlockBuilt (block : Block) (bi : BlockInterpreter) : Prop :=
  bi.Cycles = uint32_t block.Cycles ∧ bi.SizeHeader = uint32_t block.SizeHeader ∧
    bi.SizeFooter = uint32_t block.SizeFooter

/-- The lane interpreter `li` is bound to the file URL found for `lane` and holds
one block interpreter per block of the lane, in order. -/
def LaneBuilt (md : Metadata) (lane : Lane) (li : LaneInterpreter) : Prop :=
  li.FileURL = (findFileForLane md lane.Id).2 ∧ List.Forall₂ BlockBuilt lane.Blocks li.Blocks

/-- `Open` throws at this lane: no file references it, or its byte source does
not open at the prefixed URL. -/
def LaneFails (canOpen : String → Bool) (md : Metadata) ( path_prefix : String) (lane : Lane) :
    Prop :=
  (∀ file ∈ md.Files, file.Lane ≠ lane.Id) ∨
    canOpen ( path_prefix ++ (findFileForLane md lane.Id).2) = false

/-- The build of a lane runs into no undefined behaviour: the lane cites a
system and all its chunk builds are defined. -/
def LaneDefined (lane : Lane) : Prop :=
  lane.Systems ≠ [] ∧ ∀ block ∈ lane.Blocks, BlockDefined block

/-- The offset that lines 202-205 add for lump repetition `lr`. -/
def lumpOffset (lump : Lump) (lnLumpRepeat lr numSampleInterpretersPerLump : Nat) : Nat :=
  if lump.Shift = LumpShift.shiftRight then (lnLumpRepeat - lr) * numSampleInterpretersPerLump
  else lr * numSampleInterpretersPerLump

/-- The displacement of the units of a stream: one for a right-shifted stream,
whose units are numbered downwards from `base + RateFactor`, zero otherwise. -/
def shiftDelta (shift : StreamShift) : Nat :=
  if shift = StreamShift.shiftRight then 1 else 0

/-- The smallest call order in a single-lump chunk whose streams all have the
shift `shift`: a right-shifted lump starts one repetition up, right-shifted
streams one position up. -/
def callOrderOffset (lump : Lump) (shift : StreamShift) : Nat :=
  (if lump.Shift = LumpShift.shiftRight then (lump.Streams.map IonStream.RateFactor).sum else 0) +
    shiftDelta shift

/-- The converter a call of `Open` leaves behind when it returns or throws. -/
def OpenResult.converter : OpenResult → Option SampleConverter
  | OpenResult.returned _ c => some c
  | OpenResult.threw _ c => some c
  | OpenResult.undefined => none


/-! ## Fixtures -/

/-- A bit-width table for the fixtures: real formats take `Quantization` bits per
sample, complex formats twice as many. -/
def fixtureBitWidth : SampleFormat → Nat → Nat :=
  fun fmt q => if fmt = SampleFormat.IF ∨ fmt = SampleFormat.IFn then q else 2 * q

/-- The band of the fixture streams. -/
def fixtureBand : Band := ⟨"L1", 1575420000, 38400, 0⟩

/-- The system of the fixture lanes. -/
def fixtureSystem : System := ⟨"rx", 16368000⟩

/-- A real-valued fixture stream. -/
def fixtureStream (name : String) (rateFactor packedbits quantization : Nat)
    (shift : StreamShift) (alignment : StreamAlignment) : IonStream :=
  ⟨name, rateFactor, packedbits, quantization, SampleFormat.IF, "INT", shift, alignment,
    [fixtureBand]⟩

/-- A fixture chunk with a single lump. -/
def fixtureChunk (sizeWord countWords : Nat) (padding : ChunkPadding) (lump : Lump) : Chunk :=
  ⟨sizeWord, countWords, WordEndian.Little, ChunkShift.Left, padding, [lump]⟩

/-- A registry without sinks and records. -/
def emptyFactory : SampleSinkFactory := ⟨[], []⟩

/-- The descriptor in which the fixture bands and systems are found. -/
def fixtureMd : Metadata := ⟨[], [], [fixtureSystem], [fixtureBand]⟩

/-- A 16-bit stream with rate factor 1. -/
def wordStream (name : String) (shift : StreamShift) : IonStream :=
  fixtureStream name 1 16 16 shift StreamAlignment.Undefined

/-- A left-shifted lump of two 16-bit streams with rate factor 1; the arguments
are the shifts of the first and of the second stream. -/
def twoStreamLump (shift0 shift1 : StreamShift) : Lump :=
  ⟨LumpShift.shiftLeft, [wordStream "s0" shift0, wordStream "s1" shift1]⟩

/-- Two 16-bit streams in one 32-bit word (Scenarios A and B). -/
def twoStreamChunk (shift0 shift1 : StreamShift) : Chunk :=
  fixtureChunk 4 1 ChunkPadding.None (twoStreamLump shift0 shift1)

/-- A lump of one 10-bit stream. -/
def tenBitLump : Lump :=
  ⟨LumpShift.shiftLeft,
    [fixtureStream "s0" 1 10 10 StreamShift.shiftLeft StreamAlignment.Undefined]⟩

/-- One 10-bit stream in one 16-bit word (Scenario D) under a padding policy. -/
def tenBitChunk (padding : ChunkPadding) : Chunk := fixtureChunk 2 1 padding tenBitLump

/-- A stream whose two 8-bit samples need 16 bits but whose `Packedbits` is 8. -/
def underflowStream : IonStream :=
  fixtureStream "s0" 2 8 8 StreamShift.shiftLeft StreamAlignment.Left

/-- The lump of the underflowing stream. -/
def underflowLump : Lump := ⟨LumpShift.shiftLeft, [underflowStream]⟩

/-- The underflowing stream in one 8-bit word. -/
def underflowChunk : Chunk := fixtureChunk 1 1 ChunkPadding.None underflowLump

/-- A stream of 8192 8-bit samples: `65536` bits per lump repetition. -/
def wideStream : IonStream :=
  fixtureStream "s0" 8192 65536 8 StreamShift.shiftLeft StreamAlignment.Undefined

/-- The lump of the wide stream. -/
def wideLump : Lump := ⟨LumpShift.shiftLeft, [wideStream]⟩

/-- A chunk of 1024 64-bit words whose single lump is the wide stream: the lump
has `65536` bits, the capacity of the chunk. -/
def wideLumpChunk : Chunk := fixtureChunk 8 1024 ChunkPadding.None wideLump

/-- A chunk with the unsupported word size 3. -/
def threeByteChunk : Chunk :=
  fixtureChunk 3 1 ChunkPadding.None
    ⟨LumpShift.shiftLeft,
      [fixtureStream "s0" 1 24 24 StreamShift.shiftLeft StreamAlignment.Undefined]⟩

/-- A converter on which `Open` has not been called. -/
def closedConverter : SampleConverter := ⟨false, [], [], emptyFactory⟩

/-- A converter that is open on one lane. -/
def openConverter : SampleConverter :=
  ⟨true, [⟨"l0.dat", []⟩], [(0, ⟨"dir/l0.dat", true⟩)], emptyFactory⟩

/-- A descriptor with one lane, its file, and one block holding `chunks`. -/
def laneMd (chunks : List Chunk) : Metadata :=
  ⟨[⟨"l0.dat", "lane0"⟩], [⟨"lane0", [fixtureSystem], [⟨1, 0, 0, chunks⟩]⟩], [fixtureSystem],
    [fixtureBand]⟩

/-- A file system on which every byte source opens. -/
def everyPathOpens : String → Bool := fun _ => true

/-- The state in which `CreateChunkInterpreter` enters the loop over the lumps:
the fresh chunk interpreter of lines 163-167, no occupied bits, the registry as
it is handed over. -/
def chunkBuildStart (wordBytes : Nat) (factory : SampleSinkFactory) (chunk : Chunk) : ChunkBuild :=
  ⟨⟨wordBytes, uint32_t chunk.CountWords, decide (chunk.Shift = ChunkShift.Right),
    WordEndian.Undefined, []⟩, 0, factory⟩

/-- A stream of two 8-bit samples whose `Packedbits` leave `65536` bits of
padding, right-aligned. -/
def widePaddingStream : IonStream :=
  fixtureStream "s0" 2 65552 8 StreamShift.shiftLeft StreamAlignment.Right

/-- The stream with `65536` bits of padding in one 16-bit word. -/
def widePaddingChunk : Chunk :=
  fixtureChunk 2 1 ChunkPadding.None ⟨LumpShift.shiftLeft, [widePaddingStream]⟩

/-- A stream of two 8-bit samples in 20 `Packedbits`, right-aligned
(Scenario C). -/
def scenarioCStream : IonStream :=
  fixtureStream "s0" 2 20 8 StreamShift.shiftLeft StreamAlignment.Right

/-- The lump of the Scenario C stream. -/
def scenarioCLump : Lump := ⟨LumpShift.shiftLeft, [scenarioCStream]⟩

/-- A chunk of `2^26` 64-bit words without lumps and with tail padding: its
capacity is `2^32` bits. -/
def hugePaddingChunk : Chunk :=
  ⟨8, 2 ^ 26, WordEndian.Little, ChunkShift.Left, ChunkPadding.Tail, []⟩

/-- A lump of one 8-bit stream with rate factor 1. -/
def byteLump : Lump :=
  ⟨LumpShift.shiftLeft,
    [fixtureStream "s0" 1 8 8 StreamShift.shiftLeft StreamAlignment.Undefined]⟩

/-- A chunk of `countWords` 8-bit words filled with the one-byte lump. -/
def byteChunk (countWords : Nat) : Chunk := fixtureChunk 1 countWords ChunkPadding.None byteLump

/-- A 16-bit stream in one 8-bit word: the lump does not fit and is repeated
zero times. -/
def oversizedLumpChunk : Chunk :=
  fixtureChunk 1 1 ChunkPadding.None ⟨LumpShift.shiftLeft, [wordStream "s0" StreamShift.shiftLeft]⟩

/-- The common sample information `Open` hands over for a lane of the fixture
system. -/
def fixtureInfo : SampleStreamInfo := ⟨16368000, 0, 0, false, 0, 0, 0⟩

/-- The streams with identity `name` all write the record `v`. -/
def WritesAgree (md : Metadata) (info : SampleStreamInfo) (name : String) (v : SampleStreamInfo)
    (streams : List IonStream) : Prop :=
  ∀ x ∈ streams, x.toString = name →
    ∀ bandRef, x.Bands.head? = some bandRef → streamInfo md info x bandRef = v

/-- The call order the specification gives to the `i`-th sample unit of the
stream `s` in repetition `lr`: `pre` are the streams declared before `s` in the
lump, all arithmetic is modulo `2^16`. -/
def claimedCallOrder (chunk : Chunk) (lump : Lump) (pre : List IonStream) (s : IonStream)
    (lr i : Nat) : Nat :=
  let unitsPerLumpRepeat := (lump.Streams.map IonStream.RateFactor).sum
  let T := (pre.map IonStream.RateFactor).sum
  let offset :=
    if lump.Shift = LumpShift.shiftRight then (lnLumpRepeat chunk lump - lr) * unitsPerLumpRepeat
    else lr * unitsPerLumpRepeat
  if s.Shift = StreamShift.shiftRight then (offset + T + s.RateFactor - i) % 2 ^ 16
  else (offset + T + i) % 2 ^ 16

/-- The stream with its shift set to `Left`. -/
def GnssMetadata.IonStream.eraseShift (s : IonStream) : IonStream :=
  ⟨s.toString, s.RateFactor, s.Packedbits, s.Quantization, s.Format, s.Encoding,
    StreamShift.shiftLeft, s.Alignment, s.Bands⟩

/-- The lump with its shift and the shifts of its streams set to `Left`. -/
def GnssMetadata.Lump.eraseShifts (l : Lump) : Lump :=
  ⟨LumpShift.shiftLeft, l.Streams.map IonStream.eraseShift⟩

/-- The chunk with every `Lump.Shift` and `Stream.Shift` set to `Left`: two
chunks differ only in these values when their images are equal. -/
def GnssMetadata.Chunk.eraseShifts (c : Chunk) : Chunk :=
  ⟨c.SizeWord, c.CountWords, c.Endian, c.Shift, c.Padding, c.Lumps.map Lump.eraseShifts⟩

/-- What a unit is apart from its call order: its kind (padding or sample), its
bit width and its sink. -/
def unitShape (u : SampleInterpreter) : Bool × Nat × Option String :=
  (u.isPadding, u.bitWidth, u.sink)

/-- The shapes of the units of a stream in one lump repetition. -/
def streamShape (BitWidth : SampleFormat → Nat → Nat) (s : IonStream) :
    List (Bool × Nat × Option String) :=
  if 0 < numPaddingBits BitWidth s ∧ s.Alignment ≠ StreamAlignment.Undefined then
    if s.Alignment = StreamAlignment.Right then
      (true, numPaddingBits BitWidth s, none) ::
        List.replicate (numSmpInterp s) (false, unitBitWidth BitWidth s, some s.toString)
    else
      List.replicate (numSmpInterp s) (false, unitBitWidth BitWidth s, some s.toString) ++
        [(true, numPaddingBits BitWidth s, none)]
  else List.replicate (numSmpInterp s) (false, unitBitWidth BitWidth s, some s.toString)

/-- The build of a lump completes: its 16-bit bit count is not zero, and its
streams have a band unless the lump is not repeated at all. -/
def LumpRuns (chunk : Chunk) (lump : Lump) : Prop :=
  numBitsInLump lump ≠ 0 ∧ (lnLumpRepeat chunk lump = 0 ∨ ∀ s ∈ lump.Streams, s.Bands ≠ [])

/-- A right-shifted lump with a right-shifted and a left-shifted 16-bit stream,
in one 32-bit word. -/
def mixedShiftChunk : Chunk :=
  fixtureChunk 4 1 ChunkPadding.None
    ⟨LumpShift.shiftRight,
      [wordStream "s0" StreamShift.shiftRight, wordStream "s1" StreamShift.shiftLeft]⟩

/-- The stream of Scenario C (two 8-bit samples in 20 bits, padding first) in
one 32-bit word with the chunk padding at the tail. -/
def paddedChunk : Chunk := fixtureChunk 4 1 ChunkPadding.Tail scenarioCLump

/-- The last file, in descriptor order, that references the lane `laneID`. -/
def lastFileFor (md : Metadata) (laneID : String) : Option File :=
  (md.Files.filter (fun file => decide (file.Lane = laneID))).getLast?

/-- The entries that lines 92-95 add to `mLaneFiles` for the lane interpreters
`L` when the first of them is stored at position `n` of `mLaneInterps`: the byte
source of each is opened at the prefixed file URL. -/
def laneFileEntries (canOpen : String → Bool) ( path_prefix : String) :
    Nat → List LaneInterpreter → List (Nat × BinaryFileSource)
  | _, [] => []
  | n, li :: rest =>
    (n, ⟨ path_prefix ++ li.FileURL, canOpen ( path_prefix ++ li.FileURL)⟩) ::
      laneFileEntries canOpen path_prefix (n + 1) rest

/-- The file URL of the lane interpreter `li` is the one the search of lines
54-61 finds for `lane`. -/
def LaneBound (md : Metadata) (lane : Lane) (li : LaneInterpreter) : Prop :=
  (findFileForLane md lane.Id).1 = true ∧ li.FileURL = (findFileForLane md lane.Id).2

/-- A descriptor whose two files both reference its only lane. -/
def twoFileMd : Metadata :=
  ⟨[⟨"a.dat", "lane0"⟩, ⟨"b.dat", "lane0"⟩], [⟨"lane0", [fixtureSystem], []⟩], [fixtureSystem],
    [fixtureBand]⟩

/-- A descriptor with two lanes and a file for the first lane only. -/
def missingFileMd : Metadata :=
  ⟨[⟨"l0.dat", "lane0"⟩], [⟨"lane0", [fixtureSystem], []⟩, ⟨"lane1", [fixtureSystem], []⟩],
    [fixtureSystem], [fixtureBand]⟩

/-- The converter that a failed `Open` on `missingFileMd` leaves behind: closed,
with the first lane registered. -/
def leftoverConverter : SampleConverter :=
  ⟨false, [⟨"l0.dat", []⟩], [(0, ⟨"dir/l0.dat", true⟩)], emptyFactory⟩

/-- A stream with rate factor `65536` and one bit per sample. -/
def wideRateStream : IonStream :=
  fixtureStream "s0" 65536 65536 1 StreamShift.shiftLeft StreamAlignment.Undefined

/-- The lump of `wideRateStream` and one 8-bit stream: its `Packedbits` sum is
`65544`, which the 16-bit bit count stores as `8`. -/
def wideRateLump : Lump :=
  ⟨LumpShift.shiftLeft,
    [wideRateStream, fixtureStream "s1" 1 8 8 StreamShift.shiftLeft StreamAlignment.Undefined]⟩

/-- The lump `wideRateLump` in a chunk of one 8-bit word. -/
def wideRateChunk : Chunk := fixtureChunk 1 1 ChunkPadding.None wideRateLump

/-- The sample unit that the specification's formula describes: the `i`-th unit
of the stream `s` in repetition `lr`. -/
def claimedUnit (BitWidth : SampleFormat → Nat → Nat) (chunk : Chunk) (lump : Lump)
    (pre : List IonStream) (s : IonStream) (lr i : Nat) : SampleInterpreter :=
  ⟨unitBitWidth BitWidth s, claimedCallOrder chunk lump pre s lr i, some s.toString⟩

/-- The number of sample units that the plan holds before the units of the
repetition `lr` of `lump` reach the stream declared after `pre`: the units of the
lumps `preL`, of the repetitions before `lr`, and of the streams `pre`. -/
def unitsBefore (chunk : Chunk) (preL : List Lump) (lump : Lump) (pre : List IonStream)
    (lr : Nat) : Nat :=
  (preL.map (fun l => lnLumpRepeat chunk l * lumpSampleCount l)).sum +
    lr * lumpSampleCount lump + (pre.map numSmpInterp).sum

/-- The identities of the streams of a chunk. -/
def GnssMetadata.Chunk.streamNames (chunk : Chunk) : List String :=
  chunk.Lumps.flatMap (fun lump => lump.Streams.map IonStream.toString)

/-- The identities of the streams of a block. -/
def GnssMetadata.Block.streamNames (block : Block) : List String :=
  block.Chunks.flatMap Chunk.streamNames

/-- The identities of the streams of a lane. -/
def GnssMetadata.Lane.streamNames (lane : Lane) : List String :=
  lane.Blocks.flatMap Block.streamNames

/-! ## The plan as a function of the descriptor -/

theorem uint32_t_lt (x : Nat) : uint32_t x < 2 ^ 32 := Nat.mod_lt _ (by norm_num)

theorem uint16_t_lt (x : Nat) : uint16_t x < 2 ^ 16 := Nat.mod_lt _ (by norm_num)

theorem foldl_AddSampleInterpreter (units : List SampleInterpreter) (c : ChunkInterpreter) :
    units.foldl (fun c i => c.AddSampleInterpreter i false) c =
      ⟨c.wordBytes, c.mCountWords, c.mRightShiftWord, c.mSourceEndianness,
        c.mSampleInterpreters ++ units⟩ := by
  induction units generalizing c with
  | nil => simp
  | cons u us ih =>
    rw [List.foldl_cons, ih]
    simp [ChunkInterpreter.AddSampleInterpreter]

theorem ChunkBuild.Grows.refl (b : ChunkBuild) (hb : b.totalOccupiedBitsInChunk < 2 ^ 32) :
    b.Grows b [] 0 := by
  refine ⟨by simp, ?_⟩
  simp only [uint32_t]; omega

theorem ChunkBuild.Grows.trans {b0 b1 b2 : ChunkBuild} {u1 u2 : List SampleInterpreter}
    {n1 n2 : Nat} (h1 : b0.Grows b1 u1 n1) (h2 : b1.Grows b2 u2 n2) :
    b0.Grows b2 (u1 ++ u2) (n1 + n2) := by
  obtain ⟨h1a, h1b⟩ := h1
  obtain ⟨h2a, h2b⟩ := h2
  refine ⟨?_, ?_⟩
  · rw [h2a, h1a]; simp
  · rw [h2b, h1b]; simp only [uint32_t]; omega

theorem ChunkBuild.Grows.lt {b0 b1 : ChunkBuild} {u : List SampleInterpreter} {n : Nat}
    (h : b0.Grows b1 u n) : b1.totalOccupiedBitsInChunk < 2 ^ 32 := by
  rw [h.2]; exact uint32_t_lt _

theorem streamBody_eq_some {BitWidth : SampleFormat → Nat → Nat} {md : Metadata}
    {info : SampleStreamInfo} {lump : Lump} {R lr per t : Nat} {b : ChunkBuild} {s : IonStream}
    {r : Nat × ChunkBuild} (h : streamBody BitWidth md info lump R lr per (t, b) s = some r) :
    r.1 = uint16_t (t + numSmpInterp s) ∧
      b.Grows r.2 (streamSplIntrps BitWidth lump R lr per t s) s.Packedbits := by
  unfold streamBody at h
  cases hb : s.Bands.head? with
  | none => simp [hb] at h
  | some band =>
    simp only [hb, Option.some.injEq] at h
    subst h
    refine ⟨rfl, ?_, ?_⟩
    · simp [foldl_AddSampleInterpreter]
    · simp only [uint32_t]; omega

theorem streamBody_isSome (BitWidth : SampleFormat → Nat → Nat) (md : Metadata)
    (info : SampleStreamInfo) (lump : Lump) (R lr per : Nat) (st : Nat × ChunkBuild)
    (s : IonStream) (hs : s.Bands ≠ []) :
    (streamBody BitWidth md info lump R lr per st s).isSome = true := by
  unfold streamBody
  cases hb : s.Bands with
  | nil => exact absurd hb hs
  | cons band rest => simp

theorem streams_foldlM_eq_some {BitWidth : SampleFormat → Nat → Nat} {md : Metadata}
    {info : SampleStreamInfo} {lump : Lump} {R lr per : Nat} (streams : List IonStream)
    {t : Nat} {b : ChunkBuild} {r : Nat × ChunkBuild}
    (hb : b.totalOccupiedBitsInChunk < 2 ^ 32)
    (h : streams.foldlM (streamBody BitWidth md info lump R lr per) (t, b) = some r) :
    b.Grows r.2 (streamsUnits BitWidth lump R lr per streams t)
      (streams.map IonStream.Packedbits).sum := by
  induction streams generalizing t b with
  | nil =>
    simp only [List.foldlM_nil, pure, Option.some.injEq] at h
    subst h
    simpa [streamsUnits] using ChunkBuild.Grows.refl b hb
  | cons s rest ih =>
    rw [List.foldlM_cons] at h
    cases h1 : streamBody BitWidth md info lump R lr per (t, b) s with
    | none => simp [h1] at h
    | some r1 =>
      obtain ⟨t1, b1⟩ := r1
      simp only [h1, Option.bind_eq_bind, Option.some_bind] at h
      obtain ⟨ht, hg⟩ := streamBody_eq_some h1
      simp only at ht hg
      subst ht
      have := ih hg.lt h
      simpa [streamsUnits] using hg.trans this

theorem streams_foldlM_isSome (BitWidth : SampleFormat → Nat → Nat) (md : Metadata)
    (info : SampleStreamInfo) (lump : Lump) (R lr per : Nat) (streams : List IonStream)
    (st : Nat × ChunkBuild) (hs : ∀ s ∈ streams, s.Bands ≠ []) :
    (streams.foldlM (streamBody BitWidth md info lump R lr per) st).isSome = true := by
  induction streams generalizing st with
  | nil => simp [pure]
  | cons s rest ih =>
    rw [List.foldlM_cons]
    have h1 := streamBody_isSome BitWidth md info lump R lr per st s (hs s (by simp))
    obtain ⟨r1, hr1⟩ := Option.isSome_iff_exists.mp h1
    simp only [hr1, Option.bind_eq_bind, Option.some_bind]
    exact ih r1 (fun s hs1 => hs s (by simp [hs1]))

theorem lumpRepeatBody_eq_some {BitWidth : SampleFormat → Nat → Nat} {md : Metadata}
    {info : SampleStreamInfo} {chunk : Chunk} {lump : Lump} {lr : Nat} {b b1 : ChunkBuild}
    (hb : b.totalOccupiedBitsInChunk < 2 ^ 32)
    (h : lumpRepeatBody BitWidth md info chunk lump b lr = some b1) :
    b.Grows b1 (lumpRepeatUnits BitWidth chunk lump lr) (lumpPackedbits lump) := by
  unfold lumpRepeatBody at h
  obtain ⟨r, hr, hr1⟩ := Option.map_eq_some'.mp h
  subst hr1
  exact streams_foldlM_eq_some lump.Streams hb hr

theorem lumpRepeatBody_isSome (BitWidth : SampleFormat → Nat → Nat) (md : Metadata)
    (info : SampleStreamInfo) (chunk : Chunk) (lump : Lump) (b : ChunkBuild) (lr : Nat)
    (hs : ∀ s ∈ lump.Streams, s.Bands ≠ []) :
    (lumpRepeatBody BitWidth md info chunk lump b lr).isSome = true := by
  unfold lumpRepeatBody
  rw [Option.isSome_map']
  exact streams_foldlM_isSome BitWidth md info lump _ lr _ lump.Streams _ hs

theorem repeats_foldlM_eq_some {BitWidth : SampleFormat → Nat → Nat} {md : Metadata}
    {info : SampleStreamInfo} {chunk : Chunk} {lump : Lump} (lrs : List Nat)
    {b b1 : ChunkBuild} (hb : b.totalOccupiedBitsInChunk < 2 ^ 32)
    (h : lrs.foldlM (lumpRepeatBody BitWidth md info chunk lump) b = some b1) :
    b.Grows b1 (lrs.flatMap (lumpRepeatUnits BitWidth chunk lump))
      (lrs.length * lumpPackedbits lump) := by
  induction lrs generalizing b with
  | nil =>
    simp only [List.foldlM_nil, pure, Option.some.injEq] at h
    subst h
    simpa using ChunkBuild.Grows.refl b hb
  | cons lr rest ih =>
    rw [List.foldlM_cons] at h
    cases h1 : lumpRepeatBody BitWidth md info chunk lump b lr with
    | none => simp [h1] at h
    | some b2 =>
      simp only [h1, Option.bind_eq_bind, Option.some_bind] at h
      have hg := lumpRepeatBody_eq_some hb h1
      have := hg.trans (ih hg.lt h)
      have e : lumpPackedbits lump + rest.length * lumpPackedbits lump =
          (rest.length + 1) * lumpPackedbits lump := by ring
      simpa [e] using this

theorem repeats_foldlM_isSome (BitWidth : SampleFormat → Nat → Nat) (md : Metadata)
    (info : SampleStreamInfo) (chunk : Chunk) (lump : Lump) (lrs : List Nat) (b : ChunkBuild)
    (hs : ∀ s ∈ lump.Streams, s.Bands ≠ []) :
    (lrs.foldlM (lumpRepeatBody BitWidth md info chunk lump) b).isSome = true := by
  induction lrs generalizing b with
  | nil => simp [pure]
  | cons lr rest ih =>
    rw [List.foldlM_cons]
    obtain ⟨b2, hb2⟩ := Option.isSome_iff_exists.mp
      (lumpRepeatBody_isSome BitWidth md info chunk lump b lr hs)
    simp only [hb2, Option.bind_eq_bind, Option.some_bind]
    exact ih b2

theorem lumpBody_eq_some {BitWidth : SampleFormat → Nat → Nat} {md : Metadata}
    {info : SampleStreamInfo} {chunk : Chunk} {lump : Lump} {b b1 : ChunkBuild}
    (hb : b.totalOccupiedBitsInChunk < 2 ^ 32)
    (h : lumpBody BitWidth md info chunk b lump = some b1) :
    b.Grows b1 (lumpUnits BitWidth chunk lump) (lnLumpRepeat chunk lump * lumpPackedbits lump) := by
  unfold lumpBody at h
  split at h
  · simp at h
  · simpa [lumpUnits] using repeats_foldlM_eq_some _ hb h

theorem lumpBody_isSome (BitWidth : SampleFormat → Nat → Nat) (md : Metadata)
    (info : SampleStreamInfo) (chunk : Chunk) (b : ChunkBuild) (lump : Lump)
    (h0 : numBitsInLump lump ≠ 0) (hs : ∀ s ∈ lump.Streams, s.Bands ≠ []) :
    (lumpBody BitWidth md info chunk b lump).isSome = true := by
  unfold lumpBody
  rw [if_neg h0]
  exact repeats_foldlM_isSome BitWidth md info chunk lump _ b hs

theorem lumps_foldlM_eq_some {BitWidth : SampleFormat → Nat → Nat} {md : Metadata}
    {info : SampleStreamInfo} {chunk : Chunk} (lumps : List Lump) {b b1 : ChunkBuild}
    (hb : b.totalOccupiedBitsInChunk < 2 ^ 32)
    (h : lumps.foldlM (lumpBody BitWidth md info chunk) b = some b1) :
    b.Grows b1 (lumps.flatMap (lumpUnits BitWidth chunk))
      (lumps.map (fun lump => lnLumpRepeat chunk lump * lumpPackedbits lump)).sum := by
  induction lumps generalizing b with
  | nil =>
    simp only [List.foldlM_nil, pure, Option.some.injEq] at h
    subst h
    simpa using ChunkBuild.Grows.refl b hb
  | cons lump rest ih =>
    rw [List.foldlM_cons] at h
    cases h1 : lumpBody BitWidth md info chunk b lump with
    | none => simp [h1] at h
    | some b2 =>
      simp only [h1, Option.bind_eq_bind, Option.some_bind] at h
      have hg := lumpBody_eq_some hb h1
      simpa using hg.trans (ih hg.lt h)

theorem lumps_foldlM_isSome (BitWidth : SampleFormat → Nat → Nat) (md : Metadata)
    (info : SampleStreamInfo) (chunk : Chunk) (lumps : List Lump) (b : ChunkBuild)
    (hd : ∀ lump ∈ lumps, numBitsInLump lump ≠ 0 ∧ ∀ s ∈ lump.Streams, s.Bands ≠ []) :
    (lumps.foldlM (lumpBody BitWidth md info chunk) b).isSome = true := by
  induction lumps generalizing b with
  | nil => simp [pure]
  | cons lump rest ih =>
    rw [List.foldlM_cons]
    obtain ⟨h0, hs⟩ := hd lump (by simp)
    obtain ⟨b2, hb2⟩ := Option.isSome_iff_exists.mp
      (lumpBody_isSome BitWidth md info chunk b lump h0 hs)
    simp only [hb2, Option.bind_eq_bind, Option.some_bind]
    exact ih b2 (fun l hl => hd l (by simp [hl]))

/-- Whenever `CreateChunkInterpreter` completes it returns `true` and the chunk
interpreter holds the closed-form plan. -/
theorem CreateChunkInterpreter_eq_some {BitWidth : SampleFormat → Nat → Nat} {wordBytes : Nat}
    {factory : SampleSinkFactory} {md : Metadata} {info : SampleStreamInfo} {chunk : Chunk}
    {r : Bool × ChunkInterpreter × SampleSinkFactory}
    (h : CreateChunkInterpreter BitWidth wordBytes factory md info chunk = some r) :
    r.1 = true ∧
      r.2.1 = ⟨wordBytes, uint32_t chunk.CountWords, decide (chunk.Shift = ChunkShift.Right),
        WordEndian.Undefined, planOf BitWidth wordBytes chunk⟩ := by
  unfold CreateChunkInterpreter at h
  simp only at h
  split at h
  · simp at h
  · rename_i b hb
    have hg := lumps_foldlM_eq_some chunk.Lumps (by simp) hb
    obtain ⟨hc, ht⟩ := hg
    simp only [Nat.zero_add] at ht
    have hpad : numChunkPaddingBits wordBytes chunk b.totalOccupiedBitsInChunk =
        chunkPaddingBits wordBytes chunk := by
      rw [ht]; rfl
    rw [hpad] at h
    unfold planOf
    split at h
    · rename_i hp
      simp only [Option.some.injEq] at h
      subst h
      refine ⟨rfl, ?_⟩
      rw [if_pos hp]
      by_cases hh : chunk.Padding = ChunkPadding.Head
      · simp [ChunkInterpreter.AddSampleInterpreter, hh, hc, lumpsUnits]
      · simp [ChunkInterpreter.AddSampleInterpreter, hh, hc, lumpsUnits]
    · rename_i hp
      simp only [Option.some.injEq] at h
      subst h
      refine ⟨rfl, ?_⟩
      rw [if_neg hp]
      simp [hc, lumpsUnits]

/-- A chunk without undefined behaviour is built. -/
theorem CreateChunkInterpreter_isSome (BitWidth : SampleFormat → Nat → Nat) (wordBytes : Nat)
    (factory : SampleSinkFactory) (md : Metadata) (info : SampleStreamInfo) (chunk : Chunk)
    (hd : ChunkDefined chunk) :
    (CreateChunkInterpreter BitWidth wordBytes factory md info chunk).isSome = true := by
  unfold CreateChunkInterpreter
  simp only
  obtain ⟨b, hb⟩ := Option.isSome_iff_exists.mp
    (lumps_foldlM_isSome BitWidth md info chunk chunk.Lumps
      ⟨⟨wordBytes, uint32_t chunk.CountWords, decide (chunk.Shift = ChunkShift.Right),
        WordEndian.Undefined, []⟩, 0, factory⟩ hd)
  rw [hb]
  simp only
  split <;> rfl

theorem chunkPlan_eq_some {BitWidth : SampleFormat → Nat → Nat} {wordBytes : Nat}
    {factory : SampleSinkFactory} {md : Metadata} {info : SampleStreamInfo} {chunk : Chunk}
    {plan : List SampleInterpreter}
    (h : chunkPlan BitWidth wordBytes factory md info chunk = some plan) :
    plan = planOf BitWidth wordBytes chunk := by
  unfold chunkPlan at h
  obtain ⟨r, hr, hr1⟩ := Option.map_eq_some'.mp h
  rw [← hr1, (CreateChunkInterpreter_eq_some hr).2]

theorem chunkPlan_of_defined (BitWidth : SampleFormat → Nat → Nat) (wordBytes : Nat)
    (factory : SampleSinkFactory) (md : Metadata) (info : SampleStreamInfo) (chunk : Chunk)
    (hd : ChunkDefined chunk) :
    chunkPlan BitWidth wordBytes factory md info chunk = some (planOf BitWidth wordBytes chunk) := by
  obtain ⟨r, hr⟩ := Option.isSome_iff_exists.mp
    (CreateChunkInterpreter_isSome BitWidth wordBytes factory md info chunk hd)
  have hp : chunkPlan BitWidth wordBytes factory md info chunk = some r.2.1.mSampleInterpreters := by
    simp [chunkPlan, hr]
  rw [hp, chunkPlan_eq_some hp]

/-! ## Bit accounting -/

theorem planBits_nil : planBits [] = 0 := rfl

theorem planBits_cons (u : SampleInterpreter) (us : List SampleInterpreter) :
    planBits (u :: us) = u.bitWidth + planBits us := by
  simp [planBits]

theorem planBits_append (us vs : List SampleInterpreter) :
    planBits (us ++ vs) = planBits us + planBits vs := by
  simp [planBits]

theorem planBits_createSampleInterpreters (BitWidth : SampleFormat → Nat → Nat) (s : IonStream)
    (n c : Nat) : planBits (createSampleInterpreters BitWidth s n c) = n * unitBitWidth BitWidth s := by
  induction n generalizing c with
  | zero => simp [createSampleInterpreters, planBits]
  | succ n ih =>
    rw [createSampleInterpreters, planBits_cons, ih]
    ring

/-- The stream padding of lines 197-198 is the difference
`Packedbits - RateFactor * BitWidth` reduced modulo `2^16`. -/
theorem numPaddingBits_eq_emod (BitWidth : SampleFormat → Nat → Nat) (s : IonStream) :
    (numPaddingBits BitWidth s : Int) =
      ((s.Packedbits : Int) - (s.RateFactor : Int) * (BitWidth s.Format s.Quantization : Int))
        % 65536 := by
  have hmul : (numSmpInterp s * unitBitWidth BitWidth s) % 65536 =
      (s.RateFactor * BitWidth s.Format s.Quantization) % 65536 := by
    rw [Nat.mul_mod, Nat.mul_mod s.RateFactor]
    have h1 : numSmpInterp s % 65536 = s.RateFactor % 65536 := by
      simp only [numSmpInterp, uint16_t, uint32_t]; omega
    have h2 : unitBitWidth BitWidth s % 65536 = BitWidth s.Format s.Quantization % 65536 := by
      simp only [unitBitWidth, uint32_t]; omega
    rw [h1, h2]
  have hcast : ((s.RateFactor : Int) * (BitWidth s.Format s.Quantization : Int)) =
      ((s.RateFactor * BitWidth s.Format s.Quantization : Nat) : Int) := by push_cast; ring
  rw [hcast]
  generalize s.RateFactor * BitWidth s.Format s.Quantization = q at hmul ⊢
  simp only [numPaddingBits, uint16_t, uint32_t, size_t_sub]
  generalize numSmpInterp s * unitBitWidth BitWidth s = p at hmul ⊢
  omega

theorem numSmpInterp_of_lt {s : IonStream} (h : s.RateFactor < 2 ^ 16) :
    numSmpInterp s = s.RateFactor := by
  simp only [numSmpInterp, uint16_t, uint32_t]; omega

theorem unitBitWidth_of_lt {BitWidth : SampleFormat → Nat → Nat} {s : IonStream}
    (h : BitWidth s.Format s.Quantization < 2 ^ 32) :
    unitBitWidth BitWidth s = BitWidth s.Format s.Quantization := by
  simp only [unitBitWidth, uint32_t]; omega

theorem numPaddingBits_of_fills {BitWidth : SampleFormat → Nat → Nat} {s : IonStream}
    (h : StreamFills BitWidth s) :
    numPaddingBits BitWidth s + s.RateFactor * BitWidth s.Format s.Quantization = s.Packedbits := by
  obtain ⟨_, _, h3, h4, _⟩ := h
  have e := numPaddingBits_eq_emod BitWidth s
  have hcast : ((s.RateFactor : Int) * (BitWidth s.Format s.Quantization : Int)) =
      ((s.RateFactor * BitWidth s.Format s.Quantization : Nat) : Int) := by push_cast; ring
  rw [hcast] at e
  generalize s.RateFactor * BitWidth s.Format s.Quantization = q at h3 h4 e ⊢
  omega

/-- A stream that fills its `Packedbits` contributes exactly `Packedbits` bits to
every lump repetition. -/
theorem planBits_streamSplIntrps {BitWidth : SampleFormat → Nat → Nat} (lump : Lump)
    (R lr per t : Nat) {s : IonStream} (h : StreamFills BitWidth s) :
    planBits (streamSplIntrps BitWidth lump R lr per t s) = s.Packedbits := by
  have hp := numPaddingBits_of_fills h
  obtain ⟨h1, h2, h3, h4, h5⟩ := h
  unfold streamSplIntrps
  simp only
  split
  · split
    · rw [planBits_cons, planBits_createSampleInterpreters, numSmpInterp_of_lt h1,
        unitBitWidth_of_lt h2]
      exact hp
    · rw [planBits_append, planBits_createSampleInterpreters, numSmpInterp_of_lt h1,
        unitBitWidth_of_lt h2, planBits_cons, planBits_nil]
      simp only; omega
  · rename_i hn
    rw [planBits_createSampleInterpreters, numSmpInterp_of_lt h1, unitBitWidth_of_lt h2]
    rcases h5 with h5 | h5
    · omega
    · have : ¬ 0 < numPaddingBits BitWidth s := fun hpos => hn ⟨hpos, h5⟩
      omega

theorem planBits_streamsUnits {BitWidth : SampleFormat → Nat → Nat} (lump : Lump)
    (R lr per : Nat) (streams : List IonStream) (t : Nat)
    (h : ∀ s ∈ streams, StreamFills BitWidth s) :
    planBits (streamsUnits BitWidth lump R lr per streams t) =
      (streams.map IonStream.Packedbits).sum := by
  induction streams generalizing t with
  | nil => simp [streamsUnits, planBits]
  | cons s rest ih =>
    rw [streamsUnits, planBits_append, planBits_streamSplIntrps lump R lr per t (h s (by simp)),
      ih _ (fun x hx => h x (by simp [hx]))]
    simp

theorem planBits_flatMap_const {α : Type} (f : α → List SampleInterpreter) (n : Nat)
    (l : List α) (h : ∀ a ∈ l, planBits (f a) = n) : planBits (l.flatMap f) = l.length * n := by
  induction l with
  | nil => simp [planBits]
  | cons a rest ih =>
    rw [List.flatMap_cons, planBits_append, h a (by simp), ih (fun x hx => h x (by simp [hx]))]
    simp only [List.length_cons]; ring

theorem planBits_lumpUnits {BitWidth : SampleFormat → Nat → Nat} (chunk : Chunk) (lump : Lump)
    (h : lnLumpRepeat chunk lump ≠ 0 → ∀ s ∈ lump.Streams, StreamFills BitWidth s) :
    planBits (lumpUnits BitWidth chunk lump) = lnLumpRepeat chunk lump * lumpPackedbits lump := by
  by_cases h0 : lnLumpRepeat chunk lump = 0
  · simp [lumpUnits, h0, planBits]
  · unfold lumpUnits
    rw [planBits_flatMap_const _ (lumpPackedbits lump)]
    · simp
    · intro lr _
      exact planBits_streamsUnits lump _ lr _ lump.Streams 0 (h h0)

theorem planBits_lumps {BitWidth : SampleFormat → Nat → Nat} (chunk : Chunk) (lumps : List Lump)
    (h : ∀ lump ∈ lumps, lnLumpRepeat chunk lump ≠ 0 → ∀ s ∈ lump.Streams, StreamFills BitWidth s) :
    planBits (lumps.flatMap (lumpUnits BitWidth chunk)) =
      (lumps.map (fun lump => lnLumpRepeat chunk lump * lumpPackedbits lump)).sum := by
  induction lumps with
  | nil => simp [planBits]
  | cons lump rest ih =>
    rw [List.flatMap_cons, planBits_append, planBits_lumpUnits chunk lump (h lump (by simp)),
      ih (fun x hx => h x (by simp [hx]))]
    simp

theorem chunkWordBytes_eq_some {sizeWord wordBytes : Nat}
    (h : chunkWordBytes sizeWord = some wordBytes) :
    wordBytes = sizeWord ∧ (sizeWord = 1 ∨ sizeWord = 2 ∨ sizeWord = 4 ∨ sizeWord = 8) := by
  unfold chunkWordBytes at h
  split_ifs at h <;> simp_all

/-- With the word type selected by `SizeWord` and no overflow, the chunk padding
of line 270 is the capacity minus the bits the lumps occupy. -/
theorem chunkPaddingBits_eq {wordBytes : Nat} {chunk : Chunk}
    (hw : chunkWordBytes chunk.SizeWord = some wordBytes)
    (hcap : chunkBitCapacity chunk < 2 ^ 32)
    (hfit : bitsConsumed chunk ≤ chunkBitCapacity chunk) :
    chunkPaddingBits wordBytes chunk + bitsConsumed chunk = chunkBitCapacity chunk := by
  obtain ⟨hwb, hsz⟩ := chunkWordBytes_eq_some hw
  subst hwb
  simp only [chunkPaddingBits, numChunkPaddingBits, uint32_t, size_t, size_t_sub]
  simp only [chunkBitCapacity] at hcap hfit ⊢
  generalize bitsConsumed chunk = n at hfit ⊢
  rcases hsz with h | h | h | h <;> rw [h] at hcap hfit ⊢ <;> omega

/-! ## Counting sample units and locating padding units -/

theorem sampleUnits_append (us vs : List SampleInterpreter) :
    sampleUnits (us ++ vs) = sampleUnits us ++ sampleUnits vs := by
  simp [sampleUnits]

theorem sampleUnits_createSampleInterpreters (BitWidth : SampleFormat → Nat → Nat)
    (s : IonStream) (n c : Nat) :
    sampleUnits (createSampleInterpreters BitWidth s n c) =
      createSampleInterpreters BitWidth s n c := by
  induction n generalizing c with
  | zero => simp [createSampleInterpreters, sampleUnits]
  | succ n ih =>
    have := ih (if s.Shift = StreamShift.shiftRight then uint16_t (c + 2 ^ 16 - 1)
      else uint16_t (c + 1))
    simp only [sampleUnits] at this ⊢
    rw [createSampleInterpreters, List.filter_cons_of_pos (by simp [SampleInterpreter.isPadding]),
      this]

theorem length_createSampleInterpreters (BitWidth : SampleFormat → Nat → Nat) (s : IonStream)
    (n c : Nat) : (createSampleInterpreters BitWidth s n c).length = n := by
  induction n generalizing c with
  | zero => simp [createSampleInterpreters]
  | succ n ih => simp [createSampleInterpreters, ih]

/-- The sample units of a stream in one repetition are the units made by the
creation loop; the padding unit is not among them. -/
theorem sampleUnits_streamSplIntrps (BitWidth : SampleFormat → Nat → Nat) (lump : Lump)
    (R lr per t : Nat) (s : IonStream) :
    sampleUnits (streamSplIntrps BitWidth lump R lr per t s) =
      createSampleInterpreters BitWidth s (numSmpInterp s)
        (firstCallOrder lump R lr per t s) := by
  unfold streamSplIntrps
  simp only
  split
  · split
    · simp only [sampleUnits]
      rw [List.filter_cons_of_neg (by simp [SampleInterpreter.isPadding])]
      exact sampleUnits_createSampleInterpreters BitWidth s _ _
    · rw [sampleUnits_append, sampleUnits_createSampleInterpreters]
      simp [sampleUnits, SampleInterpreter.isPadding]
  · exact sampleUnits_createSampleInterpreters BitWidth s _ _

theorem length_sampleUnits_streamsUnits (BitWidth : SampleFormat → Nat → Nat) (lump : Lump)
    (R lr per : Nat) (streams : List IonStream) (t : Nat) :
    (sampleUnits (streamsUnits BitWidth lump R lr per streams t)).length =
      (streams.map numSmpInterp).sum := by
  induction streams generalizing t with
  | nil => simp [streamsUnits, sampleUnits]
  | cons s rest ih =>
    rw [streamsUnits, sampleUnits_append, List.length_append, sampleUnits_streamSplIntrps,
      length_createSampleInterpreters, ih]
    simp

theorem length_sampleUnits_flatMap_const {α : Type} (f : α → List SampleInterpreter) (n : Nat)
    (l : List α) (h : ∀ a ∈ l, (sampleUnits (f a)).length = n) :
    (sampleUnits (l.flatMap f)).length = l.length * n := by
  induction l with
  | nil => simp [sampleUnits]
  | cons a rest ih =>
    rw [List.flatMap_cons, sampleUnits_append, List.length_append, h a (by simp),
      ih (fun x hx => h x (by simp [hx]))]
    simp only [List.length_cons]; ring

theorem length_sampleUnits_lumpUnits (BitWidth : SampleFormat → Nat → Nat) (chunk : Chunk)
    (lump : Lump) :
    (sampleUnits (lumpUnits BitWidth chunk lump)).length =
      lnLumpRepeat chunk lump * lumpSampleCount lump := by
  unfold lumpUnits
  rw [length_sampleUnits_flatMap_const _ (lumpSampleCount lump)]
  · simp
  · intro lr _
    exact length_sampleUnits_streamsUnits BitWidth lump _ lr _ lump.Streams 0

theorem length_sampleUnits_lumps (BitWidth : SampleFormat → Nat → Nat) (chunk : Chunk)
    (lumps : List Lump) :
    (sampleUnits (lumps.flatMap (lumpUnits BitWidth chunk))).length =
      (lumps.map (fun lump => lnLumpRepeat chunk lump * lumpSampleCount lump)).sum := by
  induction lumps with
  | nil => simp [sampleUnits]
  | cons lump rest ih =>
    rw [List.flatMap_cons, sampleUnits_append, List.length_append,
      length_sampleUnits_lumpUnits, ih]
    simp

/-- The chunk padding unit is not a sample unit. -/
theorem sampleUnits_planOf (BitWidth : SampleFormat → Nat → Nat) (wordBytes : Nat)
    (chunk : Chunk) :
    sampleUnits (planOf BitWidth wordBytes chunk) = sampleUnits (lumpsUnits BitWidth chunk) := by
  unfold planOf
  split
  · split
    · simp [sampleUnits, SampleInterpreter.isPadding]
    · simp [sampleUnits, SampleInterpreter.isPadding]
  · rfl

theorem mem_planOf_of_mem_lumpsUnits {BitWidth : SampleFormat → Nat → Nat} {wordBytes : Nat}
    {chunk : Chunk} {u : SampleInterpreter} (h : u ∈ lumpsUnits BitWidth chunk) :
    u ∈ planOf BitWidth wordBytes chunk := by
  unfold planOf
  split
  · split
    · exact List.mem_cons_of_mem _ h
    · exact List.mem_append_left _ h
  · exact h

theorem mem_streamsUnits (BitWidth : SampleFormat → Nat → Nat) (lump : Lump) (R lr per : Nat)
    {streams : List IonStream} {s : IonStream} (hs : s ∈ streams) (t : Nat) :
    ∃ t1, ∀ u ∈ streamSplIntrps BitWidth lump R lr per t1 s,
      u ∈ streamsUnits BitWidth lump R lr per streams t := by
  induction streams generalizing t with
  | nil => simp at hs
  | cons x rest ih =>
    rcases List.mem_cons.mp hs with h | h
    · subst h
      exact ⟨t, fun u hu => by rw [streamsUnits]; exact List.mem_append_left _ hu⟩
    · obtain ⟨t1, ht1⟩ := ih h (uint16_t (t + numSmpInterp x))
      exact ⟨t1, fun u hu => by rw [streamsUnits]; exact List.mem_append_right _ (ht1 u hu)⟩

theorem numPaddingBits_eq_wrappedPadding (BitWidth : SampleFormat → Nat → Nat) (s : IonStream) :
    numPaddingBits BitWidth s = wrappedPadding BitWidth s := by
  have e := numPaddingBits_eq_emod BitWidth s
  unfold wrappedPadding
  omega

/-- The padding unit of a stream is in its deque whenever the wrapped padding is
not zero and the alignment is defined. -/
theorem padding_mem_streamSplIntrps {BitWidth : SampleFormat → Nat → Nat} (lump : Lump)
    (R lr per t : Nat) {s : IonStream} (hw : wrappedPadding BitWidth s ≠ 0)
    (ha : s.Alignment ≠ StreamAlignment.Undefined) :
    (⟨wrappedPadding BitWidth s, 0, none⟩ : SampleInterpreter) ∈
      streamSplIntrps BitWidth lump R lr per t s := by
  unfold streamSplIntrps
  simp only
  rw [numPaddingBits_eq_wrappedPadding]
  have hpos : 0 < wrappedPadding BitWidth s := Nat.pos_of_ne_zero hw
  rw [if_pos ⟨hpos, ha⟩]
  split <;> simp

theorem padding_mem_lumpsUnits {BitWidth : SampleFormat → Nat → Nat} {chunk : Chunk}
    {lump : Lump} {s : IonStream} (hl : lump ∈ chunk.Lumps) (hs : s ∈ lump.Streams)
    (hr : lnLumpRepeat chunk lump ≠ 0) (hw : wrappedPadding BitWidth s ≠ 0)
    (ha : s.Alignment ≠ StreamAlignment.Undefined) :
    (⟨wrappedPadding BitWidth s, 0, none⟩ : SampleInterpreter) ∈ lumpsUnits BitWidth chunk := by
  unfold lumpsUnits
  rw [List.mem_flatMap]
  refine ⟨lump, hl, ?_⟩
  unfold lumpUnits
  rw [List.mem_flatMap]
  refine ⟨0, List.mem_range.mpr (Nat.pos_of_ne_zero hr), ?_⟩
  obtain ⟨t1, ht1⟩ := mem_streamsUnits BitWidth lump (lnLumpRepeat chunk lump) 0
    (numSampleInterpretersPerLump lump) hs 0
  exact ht1 _ (padding_mem_streamSplIntrps lump _ 0 _ t1 hw ha)

/-! ## The block pipeline -/

theorem chunkWordBytes_eq_none_iff (sizeWord : Nat) :
    chunkWordBytes sizeWord = none ↔ sizeWord ∉ [1, 2, 4, 8] := by
  unfold chunkWordBytes
  split_ifs <;> simp_all

theorem chunkWordBytes_of_ne_none {sizeWord : Nat} (h : chunkWordBytes sizeWord ≠ none) :
    chunkWordBytes sizeWord = some sizeWord := by
  unfold chunkWordBytes at h ⊢
  split_ifs at h ⊢ <;> simp_all

/-- The loop over the chunks of a block: it completes when the chunk builds are
defined, the fixed attributes of the block interpreter are kept, the flag is
`false` exactly when a chunk has an unsupported word size, and on `true` one
chunk interpreter per chunk has been added in order. -/
theorem blockChunks_spec (BitWidth : SampleFormat → Nat → Nat) (md : Metadata)
    (info : SampleStreamInfo) (chunks : List Chunk) (bi : BlockInterpreter)
    (factory : SampleSinkFactory) (hd : ∀ chunk ∈ chunks, ChunkDefined chunk) :
    ∃ r, blockChunks BitWidth md info chunks bi factory = some r ∧
      r.2.1.Cycles = bi.Cycles ∧ r.2.1.SizeHeader = bi.SizeHeader ∧
      r.2.1.SizeFooter = bi.SizeFooter ∧
      (r.1 = false ↔ ∃ chunk ∈ chunks, chunk.SizeWord ∉ [1, 2, 4, 8]) ∧
      (r.1 = true → r.2.1.Chunks = bi.Chunks ++ chunks.map (chunkInterpOf BitWidth)) := by
  induction chunks generalizing bi factory with
  | nil => exact ⟨_, rfl, rfl, rfl, rfl, by simp, by simp⟩
  | cons chunk rest ih =>
    rw [blockChunks]
    cases hw : chunkWordBytes chunk.SizeWord with
    | none =>
      refine ⟨_, rfl, rfl, rfl, rfl, ?_, by simp⟩
      simp only [true_iff]
      exact ⟨chunk, by simp, (chunkWordBytes_eq_none_iff _).mp hw⟩
    | some wordBytes =>
      obtain ⟨hwb, hsz⟩ := chunkWordBytes_eq_some hw
      subst hwb
      obtain ⟨rc, hrc⟩ := Option.isSome_iff_exists.mp
        (CreateChunkInterpreter_isSome BitWidth chunk.SizeWord factory md info chunk
          (hd chunk (by simp)))
      obtain ⟨-, hci⟩ := CreateChunkInterpreter_eq_some hrc
      simp only [hrc]
      obtain ⟨r, hr, h1, h2, h3, h4, h5⟩ :=
        ih (bi.AddChunk (rc.2.1.SetSourceEndianness chunk.Endian)) rc.2.2
          (fun c hc => hd c (by simp [hc]))
      refine ⟨r, hr, h1, h2, h3, ?_, ?_⟩
      · rw [h4]
        constructor
        · rintro ⟨c, hc, hbad⟩
          exact ⟨c, by simp [hc], hbad⟩
        · rintro ⟨c, hc, hbad⟩
          rcases List.mem_cons.mp hc with h | h
          · subst h
            have : chunkWordBytes c.SizeWord = none := (chunkWordBytes_eq_none_iff _).mpr hbad
            rw [hw] at this
            exact absurd this (by simp)
          · exact ⟨c, h, hbad⟩
      · intro ht
        rw [h5 ht, hci]
        simp [BlockInterpreter.AddChunk, ChunkInterpreter.SetSourceEndianness, chunkInterpOf]

theorem CreateBlockInterpreter_isSome (BitWidth : SampleFormat → Nat → Nat)
    (factory : SampleSinkFactory) (md : Metadata) (info : SampleStreamInfo) (block : Block)
    (hd : BlockDefined block) :
    ∃ r, CreateBlockInterpreter BitWidth factory md info block = some r ∧
      r.2.1.Cycles = uint32_t block.Cycles ∧ r.2.1.SizeHeader = uint32_t block.SizeHeader ∧
      r.2.1.SizeFooter = uint32_t block.SizeFooter := by
  obtain ⟨r, hr, h1, h2, h3, -, -⟩ := blockChunks_spec BitWidth md info block.Chunks
    ⟨uint32_t block.Cycles, uint32_t block.SizeHeader, uint32_t block.SizeFooter, []⟩ factory hd
  exact ⟨r, hr, h1, h2, h3⟩

/-! ## Opening the converter -/

theorem findFile_foldl_fst (laneID : String) (files : List File) (acc : Bool × String) :
    (files.foldl (fun acc file => if file.Lane = laneID then (true, file.Url) else acc) acc).1
        = true ↔ acc.1 = true ∨ ∃ file ∈ files, file.Lane = laneID := by
  induction files generalizing acc with
  | nil => simp
  | cons f rest ih =>
    rw [List.foldl_cons, ih]
    by_cases h : f.Lane = laneID
    · simp [h]
    · simp [h]

theorem findFileForLane_fst_eq_false_iff (md : Metadata) (laneID : String) :
    (findFileForLane md laneID).1 = false ↔ ∀ file ∈ md.Files, file.Lane ≠ laneID := by
  have h := findFile_foldl_fst laneID md.Files (false, "")
  unfold findFileForLane
  constructor
  · intro hf file hfile heq
    have := h.mpr (Or.inr ⟨file, hfile, heq⟩)
    rw [hf] at this
    exact absurd this (by simp)
  · intro hall
    cases hv : (md.Files.foldl (fun acc file => if file.Lane = laneID then (true, file.Url)
        else acc) (false, "")).1 with
    | false => rfl
    | true =>
      rcases h.mp hv with h1 | ⟨file, hfile, heq⟩
      · simp at h1
      · exact absurd heq (hall file hfile)

/-- The loop over the blocks of a lane completes when the chunk builds are
defined; it keeps the file URL and adds one block interpreter per block. -/
theorem laneBlocks_foldlM_spec (BitWidth : SampleFormat → Nat → Nat) (md : Metadata)
    (info : SampleStreamInfo) (blocks : List Block) (li : LaneInterpreter)
    (factory : SampleSinkFactory) (hd : ∀ block ∈ blocks, BlockDefined block) :
    ∃ r, blocks.foldlM (laneBlocks BitWidth md info) (li, factory) = some r ∧
      r.1.FileURL = li.FileURL ∧
      ∃ B, r.1.Blocks = li.Blocks ++ B ∧ List.Forall₂ BlockBuilt blocks B := by
  induction blocks generalizing li factory with
  | nil => exact ⟨_, rfl, rfl, [], by simp, List.Forall₂.nil⟩
  | cons block rest ih =>
    rw [List.foldlM_cons]
    obtain ⟨rb, hrb, c1, c2, c3⟩ :=
      CreateBlockInterpreter_isSome BitWidth factory md info block (hd block (by simp))
    have hstep : laneBlocks BitWidth md info (li, factory) block =
        some (li.AddBlock rb.2.1, rb.2.2) := by
      simp [laneBlocks, hrb]
    simp only [hstep, Option.bind_eq_bind, Option.some_bind]
    obtain ⟨r, hr, hurl, B, hB, hF⟩ := ih (li.AddBlock rb.2.1) rb.2.2
      (fun b hb => hd b (by simp [hb]))
    refine ⟨r, hr, hurl, rb.2.1 :: B, ?_, List.Forall₂.cons ⟨c1, c2, c3⟩ hF⟩
    rw [hB]
    simp [LaneInterpreter.AddBlock]

theorem openLanes_cons_nofile (BitWidth : SampleFormat → Nat → Nat) (canOpen : String → Bool)
    (md : Metadata) ( path_prefix : String) (lane : Lane) (rest : List Lane)
    (info : SampleStreamInfo) (c : SampleConverter)
    (hfound : (findFileForLane md lane.Id).1 = false) :
    openLanes BitWidth canOpen md path_prefix (lane :: rest) info c =
      OpenResult.threw "SampleConverter: No file found for Lane" c := by
  rw [openLanes]
  simp only [hfound, if_true]

theorem openLanes_cons_noopen (BitWidth : SampleFormat → Nat → Nat) (canOpen : String → Bool)
    (md : Metadata) ( path_prefix : String) (lane : Lane) (rest : List Lane)
    (info : SampleStreamInfo) (c : SampleConverter) (sysRef : System)
    (r : LaneInterpreter × SampleSinkFactory)
    (hfound : (findFileForLane md lane.Id).1 = true)
    (hsys : lane.Systems.head? = some sysRef)
    (hr : lane.Blocks.foldlM (laneBlocks BitWidth md
        ⟨(SearchSystem ⟨"", 0⟩ md sysRef.Id).BaseFrequency, info.mSampleFrequency,
          info.mQuantization, info.mIsComplexSamples, info.mCenterFrequency,
          info.mTranslatedFrequency, info.mDelayBias⟩)
        (⟨(findFileForLane md lane.Id).2, []⟩, c.mSampleSinkFactory) = some r)
    (hopen : canOpen ( path_prefix ++ r.1.FileURL) = false) :
    openLanes BitWidth canOpen md path_prefix (lane :: rest) info c =
      OpenResult.threw "SampleConverter: Could not open file"
        ⟨c.mIsOpen, c.mLaneInterps ++ [r.1],
          c.mLaneFiles ++ [(c.mLaneInterps.length, ⟨ path_prefix ++ r.1.FileURL, false⟩)],
          r.2⟩ := by
  rw [openLanes]
  simp only [hfound, hsys, hr, hopen, if_true]
  rfl

theorem openLanes_cons_next (BitWidth : SampleFormat → Nat → Nat) (canOpen : String → Bool)
    (md : Metadata) ( path_prefix : String) (lane : Lane) (rest : List Lane)
    (info : SampleStreamInfo) (c : SampleConverter) (sysRef : System)
    (r : LaneInterpreter × SampleSinkFactory)
    (hfound : (findFileForLane md lane.Id).1 = true)
    (hsys : lane.Systems.head? = some sysRef)
    (hr : lane.Blocks.foldlM (laneBlocks BitWidth md
        ⟨(SearchSystem ⟨"", 0⟩ md sysRef.Id).BaseFrequency, info.mSampleFrequency,
          info.mQuantization, info.mIsComplexSamples, info.mCenterFrequency,
          info.mTranslatedFrequency, info.mDelayBias⟩)
        (⟨(findFileForLane md lane.Id).2, []⟩, c.mSampleSinkFactory) = some r)
    (hopen : canOpen ( path_prefix ++ r.1.FileURL) = true) :
    openLanes BitWidth canOpen md path_prefix (lane :: rest) info c =
      openLanes BitWidth canOpen md path_prefix rest
        ⟨(SearchSystem ⟨"", 0⟩ md sysRef.Id).BaseFrequency, info.mSampleFrequency,
          info.mQuantization, info.mIsComplexSamples, info.mCenterFrequency,
          info.mTranslatedFrequency, info.mDelayBias⟩
        ⟨c.mIsOpen, c.mLaneInterps ++ [r.1],
          c.mLaneFiles ++ [(c.mLaneInterps.length, ⟨ path_prefix ++ r.1.FileURL, true⟩)],
          r.2⟩ := by
  rw [openLanes]
  simp only [hfound, hsys, hr, hopen]
  rfl

theorem head?_of_ne_nil {α : Type} {l : List α} (h : l ≠ []) : ∃ a, l.head? = some a := by
  cases l with
  | nil => exact absurd rfl h
  | cons a b => exact ⟨a, rfl⟩

/-- The loop over the lanes: when no lane fails it returns `true` with the
converter flagged open and one lane interpreter appended per lane. -/
theorem openLanes_returned (BitWidth : SampleFormat → Nat → Nat) (canOpen : String → Bool)
    (md : Metadata) ( path_prefix : String) (lanes : List Lane) (info : SampleStreamInfo)
    (c : SampleConverter) (hd : ∀ lane ∈ lanes, LaneDefined lane)
    (hok : ∀ lane ∈ lanes, ¬ LaneFails canOpen md path_prefix lane) :
    ∃ c1, openLanes BitWidth canOpen md path_prefix lanes info c = OpenResult.returned true c1 ∧
      c1.mIsOpen = true ∧
      ∃ L, c1.mLaneInterps = c.mLaneInterps ++ L ∧ List.Forall₂ (LaneBuilt md) lanes L := by
  induction lanes generalizing info c with
  | nil => exact ⟨_, rfl, rfl, [], by simp, List.Forall₂.nil⟩
  | cons lane rest ih =>
    have hlane := hok lane (by simp)
    simp only [LaneFails, not_or] at hlane
    obtain ⟨hfile, hopen⟩ := hlane
    have hfound : (findFileForLane md lane.Id).1 = true := by
      cases hf : (findFileForLane md lane.Id).1 with
      | true => rfl
      | false => exact absurd ((findFileForLane_fst_eq_false_iff md lane.Id).mp hf) hfile
    obtain ⟨hsys, hblocks⟩ := hd lane (by simp)
    obtain ⟨sysRef, hh⟩ := head?_of_ne_nil hsys
    obtain ⟨r, hr, hurl, B, hB, hF⟩ := laneBlocks_foldlM_spec BitWidth md
      ⟨(SearchSystem ⟨"", 0⟩ md sysRef.Id).BaseFrequency, info.mSampleFrequency,
        info.mQuantization, info.mIsComplexSamples, info.mCenterFrequency,
        info.mTranslatedFrequency, info.mDelayBias⟩
      lane.Blocks ⟨(findFileForLane md lane.Id).2, []⟩ c.mSampleSinkFactory hblocks
    simp only at hurl hB
    have hopen1 : canOpen ( path_prefix ++ r.1.FileURL) = true := by
      rw [hurl]
      cases ho : canOpen ( path_prefix ++ (findFileForLane md lane.Id).2) with
      | true => rfl
      | false => exact absurd ho hopen
    rw [openLanes_cons_next BitWidth canOpen md path_prefix lane rest info c sysRef r hfound hh hr
      hopen1]
    obtain ⟨c1, hc1, hopened, L, hL, hFL⟩ := ih
      ⟨(SearchSystem ⟨"", 0⟩ md sysRef.Id).BaseFrequency, info.mSampleFrequency,
        info.mQuantization, info.mIsComplexSamples, info.mCenterFrequency,
        info.mTranslatedFrequency, info.mDelayBias⟩
      ⟨c.mIsOpen, c.mLaneInterps ++ [r.1],
        c.mLaneFiles ++ [(c.mLaneInterps.length, ⟨ path_prefix ++ r.1.FileURL, true⟩)], r.2⟩
      (fun l hl => hd l (by simp [hl])) (fun l hl => hok l (by simp [hl]))
    refine ⟨c1, hc1, hopened, r.1 :: L, ?_, List.Forall₂.cons ⟨hurl, ?_⟩ hFL⟩
    · rw [hL]; simp
    · rw [hB]; simpa using hF

/-- The loop over the lanes throws when some lane fails. -/
theorem openLanes_threw (BitWidth : SampleFormat → Nat → Nat) (canOpen : String → Bool)
    (md : Metadata) ( path_prefix : String) (lanes : List Lane) (info : SampleStreamInfo)
    (c : SampleConverter) (hd : ∀ lane ∈ lanes, LaneDefined lane)
    (hbad : ∃ lane ∈ lanes, LaneFails canOpen md path_prefix lane) :
    ∃ what c1, openLanes BitWidth canOpen md path_prefix lanes info c =
      OpenResult.threw what c1 := by
  induction lanes generalizing info c with
  | nil => simp at hbad
  | cons lane rest ih =>
    cases hfound : (findFileForLane md lane.Id).1 with
    | false =>
      exact ⟨_, _, openLanes_cons_nofile BitWidth canOpen md path_prefix lane rest info c hfound⟩
    | true =>
      obtain ⟨hsys, hblocks⟩ := hd lane (by simp)
      obtain ⟨sysRef, hh⟩ := head?_of_ne_nil hsys
      obtain ⟨r, hr, hurl, -⟩ := laneBlocks_foldlM_spec BitWidth md
        ⟨(SearchSystem ⟨"", 0⟩ md sysRef.Id).BaseFrequency, info.mSampleFrequency,
          info.mQuantization, info.mIsComplexSamples, info.mCenterFrequency,
          info.mTranslatedFrequency, info.mDelayBias⟩
        lane.Blocks ⟨(findFileForLane md lane.Id).2, []⟩ c.mSampleSinkFactory hblocks
      simp only at hurl
      cases hopen : canOpen ( path_prefix ++ r.1.FileURL) with
      | false =>
        exact ⟨_, _, openLanes_cons_noopen BitWidth canOpen md path_prefix lane rest info c
          sysRef r hfound hh hr hopen⟩
      | true =>
        rw [openLanes_cons_next BitWidth canOpen md path_prefix lane rest info c sysRef r hfound
          hh hr hopen]
        apply ih
        · exact fun l hl => hd l (by simp [hl])
        · obtain ⟨l, hl, hfail⟩ := hbad
          rcases List.mem_cons.mp hl with h | h
          · subst h
            exfalso
            rcases hfail with hf | hf
            · rw [(findFileForLane_fst_eq_false_iff md l.Id).mpr hf] at hfound
              exact absurd hfound (by simp)
            · rw [hurl, hf] at hopen
              exact absurd hopen (by simp)
          · exact ⟨l, h, hfail⟩

/-! ## Call orders of left-shifted lumps -/

theorem numBitsInLump_foldl (streams : List IonStream) (acc : Nat) :
    streams.foldl (fun n stream => uint16_t (size_t (n + stream.Packedbits))) acc % 2 ^ 16 =
      (acc + (streams.map IonStream.Packedbits).sum) % 2 ^ 16 := by
  induction streams generalizing acc with
  | nil => simp
  | cons s rest ih =>
    rw [List.foldl_cons, ih]
    simp only [List.map_cons, List.sum_cons, uint16_t, size_t]
    omega

/-- The 16-bit bit count of a lump is the sum of its `Packedbits` modulo `2^16`. -/
theorem numBitsInLump_eq (lump : Lump) : numBitsInLump lump = lumpPackedbits lump % 2 ^ 16 := by
  have h := numBitsInLump_foldl lump.Streams 0
  have hlt : numBitsInLump lump < 2 ^ 16 := by
    unfold numBitsInLump
    cases hs : lump.Streams.reverse with
    | nil =>
      have : lump.Streams = [] := by simpa using hs
      simp [this]
    | cons s rest =>
      have : lump.Streams = rest.reverse ++ [s] := by
        have := congrArg List.reverse hs
        simpa using this
      rw [this, List.foldl_append]
      exact uint16_t_lt _
  unfold numBitsInLump at h hlt ⊢
  unfold lumpPackedbits
  rw [Nat.zero_add] at h
  rw [← h]
  exact (Nat.mod_eq_of_lt hlt).symm

theorem numSampleInterpretersPerLump_foldl (streams : List IonStream) (acc : Nat) :
    streams.foldl (fun n stream => uint16_t (n + uint32_t stream.RateFactor)) acc % 2 ^ 16 =
      (acc + (streams.map IonStream.RateFactor).sum) % 2 ^ 16 := by
  induction streams generalizing acc with
  | nil => simp
  | cons s rest ih =>
    rw [List.foldl_cons, ih]
    simp only [List.map_cons, List.sum_cons, uint16_t, uint32_t]
    omega

/-- The 16-bit unit count of a lump is the sum of its rate factors modulo
`2^16`. -/
theorem numSampleInterpretersPerLump_eq (lump : Lump) :
    numSampleInterpretersPerLump lump = (lump.Streams.map IonStream.RateFactor).sum % 2 ^ 16 := by
  have h := numSampleInterpretersPerLump_foldl lump.Streams 0
  have hlt : numSampleInterpretersPerLump lump < 2 ^ 16 := by
    unfold numSampleInterpretersPerLump
    cases hs : lump.Streams.reverse with
    | nil =>
      have : lump.Streams = [] := by simpa using hs
      simp [this]
    | cons s rest =>
      have : lump.Streams = rest.reverse ++ [s] := by
        have := congrArg List.reverse hs
        simpa using this
      rw [this, List.foldl_append]
      exact uint16_t_lt _
  unfold numSampleInterpretersPerLump at h hlt ⊢
  rw [Nat.zero_add] at h
  rw [← h]
  exact (Nat.mod_eq_of_lt hlt).symm

/-- The creation loop of a left-shifted stream numbers its units upwards. -/
theorem callOrder_createSampleInterpreters_left (BitWidth : SampleFormat → Nat → Nat)
    {s : IonStream} (hs : s.Shift = StreamShift.shiftLeft) (n c : Nat) (h : c + n ≤ 2 ^ 16) :
    (createSampleInterpreters BitWidth s n c).map SampleInterpreter.callOrder =
      List.range' c n := by
  induction n generalizing c with
  | zero => simp [createSampleInterpreters]
  | succ n ih =>
    rw [createSampleInterpreters, List.map_cons, List.range'_succ]
    simp only [hs, reduceCtorEq, if_false]
    congr 1
    cases n with
    | zero => simp [createSampleInterpreters]
    | succ m =>
      have e : uint16_t (c + 1) = c + 1 := by simp only [uint16_t]; omega
      rw [e]
      exact ih (c + 1) (by omega)

theorem sink_createSampleInterpreters (BitWidth : SampleFormat → Nat → Nat) (s : IonStream)
    (n c : Nat) :
    (createSampleInterpreters BitWidth s n c).map SampleInterpreter.sink =
      List.replicate n (some s.toString) := by
  induction n generalizing c with
  | zero => simp [createSampleInterpreters]
  | succ n ih =>
    rw [createSampleInterpreters, List.map_cons, ih, List.replicate_succ]

/-- A stream whose `Packedbits` are used up by its samples has no padding unit. -/
theorem streamSplIntrps_of_exact (BitWidth : SampleFormat → Nat → Nat) (lump : Lump)
    (R lr per t : Nat) {s : IonStream}
    (h : s.Packedbits = s.RateFactor * BitWidth s.Format s.Quantization) :
    streamSplIntrps BitWidth lump R lr per t s =
      createSampleInterpreters BitWidth s (numSmpInterp s) (firstCallOrder lump R lr per t s) := by
  have h0 : numPaddingBits BitWidth s = 0 := by
    rw [numPaddingBits_eq_wrappedPadding]
    unfold wrappedPadding
    rw [h]
    push_cast
    simp
  unfold streamSplIntrps
  simp [h0]

theorem isPadding_createSampleInterpreters (BitWidth : SampleFormat → Nat → Nat) (s : IonStream)
    (n c : Nat) : ∀ u ∈ createSampleInterpreters BitWidth s n c, u.isPadding = false := by
  induction n generalizing c with
  | zero => simp [createSampleInterpreters]
  | succ n ih =>
    intro u hu
    rw [createSampleInterpreters] at hu
    rcases List.mem_cons.mp hu with h | h
    · subst h; rfl
    · exact ih _ u h

/-- One repetition of a left-shifted lump whose streams are left-shifted and
carry no padding: the units are numbered upwards from `lr * per + t`, stream by
stream in declaration order. -/
theorem streamsUnits_left (BitWidth : SampleFormat → Nat → Nat) {lump : Lump}
    (hl : lump.Shift = LumpShift.shiftLeft) (R lr per : Nat) (streams : List IonStream) (t : Nat)
    (hs : ∀ s ∈ streams, s.Shift = StreamShift.shiftLeft ∧
      s.Packedbits = s.RateFactor * BitWidth s.Format s.Quantization)
    (hb : lr * per + t + (streams.map IonStream.RateFactor).sum < 2 ^ 16) :
    (streamsUnits BitWidth lump R lr per streams t).map SampleInterpreter.callOrder =
        List.range' (lr * per + t) (streams.map IonStream.RateFactor).sum ∧
      (streamsUnits BitWidth lump R lr per streams t).map SampleInterpreter.sink =
        streams.flatMap (fun s => List.replicate s.RateFactor (some s.toString)) ∧
      ∀ u ∈ streamsUnits BitWidth lump R lr per streams t, u.isPadding = false := by
  induction streams generalizing t with
  | nil => simp [streamsUnits]
  | cons s rest ih =>
    obtain ⟨hshift, hexact⟩ := hs s (by simp)
    simp only [List.map_cons, List.sum_cons] at hb
    have hrf : numSmpInterp s = s.RateFactor := numSmpInterp_of_lt (by omega)
    have hfirst : firstCallOrder lump R lr per t s = lr * per + t := by
      simp only [firstCallOrder, baseCallOrder, hl, hshift, reduceCtorEq, if_false, uint16_t]
      omega
    have hnext : uint16_t (t + numSmpInterp s) = t + s.RateFactor := by
      rw [hrf]; simp only [uint16_t]; omega
    obtain ⟨ih1, ih2, ih3⟩ := ih (t + s.RateFactor) (fun x hx => hs x (by simp [hx])) (by omega)
    rw [streamsUnits, streamSplIntrps_of_exact BitWidth lump R lr per t hexact, hnext, hrf, hfirst]
    refine ⟨?_, ?_, ?_⟩
    · rw [List.map_append, callOrder_createSampleInterpreters_left BitWidth hshift _ _ (by omega),
        ih1, List.map_cons, List.sum_cons]
      have e : lr * per + (t + s.RateFactor) = lr * per + t + 1 * s.RateFactor := by ring
      rw [e, List.range'_append, Nat.add_comm s.RateFactor]
    · rw [List.map_append, sink_createSampleInterpreters, ih2, List.flatMap_cons]
    · intro u hu
      rcases List.mem_append.mp hu with h | h
      · exact isPadding_createSampleInterpreters BitWidth s _ _ u h
      · exact ih3 u h

/-- The first `n` repetitions of such a lump: call orders `0, 1, ..., n * per - 1`
in plan order, every repetition listing the streams in declaration order. -/
theorem repeats_left (BitWidth : SampleFormat → Nat → Nat) {lump : Lump}
    (hl : lump.Shift = LumpShift.shiftLeft) (R per : Nat)
    (hs : ∀ s ∈ lump.Streams, s.Shift = StreamShift.shiftLeft ∧
      s.Packedbits = s.RateFactor * BitWidth s.Format s.Quantization)
    (hper : per = (lump.Streams.map IonStream.RateFactor).sum) (n : Nat)
    (hb : n * per < 2 ^ 16) :
    ((List.range n).flatMap
        (fun lr => streamsUnits BitWidth lump R lr per lump.Streams 0)).map
          SampleInterpreter.callOrder = List.range (n * per) ∧
      ((List.range n).flatMap
        (fun lr => streamsUnits BitWidth lump R lr per lump.Streams 0)).map
          SampleInterpreter.sink =
        (List.replicate n (lump.Streams.flatMap
          (fun s => List.replicate s.RateFactor (some s.toString)))).flatten ∧
      ∀ u ∈ (List.range n).flatMap
        (fun lr => streamsUnits BitWidth lump R lr per lump.Streams 0), u.isPadding = false := by
  induction n with
  | zero => simp
  | succ n ih =>
    have hb1 : n * per + per < 2 ^ 16 := by
      have : (n + 1) * per = n * per + per := by ring
      omega
    obtain ⟨ih1, ih2, ih3⟩ := ih (by omega)
    obtain ⟨s1, s2, s3⟩ := streamsUnits_left BitWidth hl R n per lump.Streams 0 hs
      (by rw [← hper]; omega)
    rw [List.range_succ, List.flatMap_append]
    simp only [List.flatMap_cons, List.flatMap_nil, List.append_nil]
    refine ⟨?_, ?_, ?_⟩
    · rw [List.map_append, ih1, s1, ← hper, List.range_eq_range', List.range_eq_range']
      have e : n * per + 0 = 0 + 1 * (n * per) := by ring
      rw [e, List.range'_append]
      congr 1
      ring
    · rw [List.map_append, ih2, s2, List.replicate_succ']
      simp
    · intro u hu
      rcases List.mem_append.mp hu with h | h
      · exact ih3 u h
      · exact s3 u h

theorem sum_packedbits_eq_zero (BitWidth : SampleFormat → Nat → Nat) (streams : List IonStream)
    (hs : ∀ s ∈ streams, s.Packedbits = s.RateFactor * BitWidth s.Format s.Quantization)
    (h0 : (streams.map IonStream.RateFactor).sum = 0) :
    (streams.map IonStream.Packedbits).sum = 0 := by
  induction streams with
  | nil => simp
  | cons s rest ih =>
    simp only [List.map_cons, List.sum_cons] at h0 ⊢
    have h1 : s.RateFactor = 0 := by omega
    have h2 : (rest.map IonStream.RateFactor).sum = 0 := by omega
    rw [hs s (by simp), h1, ih (fun x hx => hs x (by simp [hx])) h2]
    simp

/-- Without any wrap-around the repeat count of line 183 is the quotient of the
capacity by the bits of the lump. -/
theorem lnLumpRepeat_eq_div {chunk : Chunk} {lump : Lump}
    (hcap : chunkBitCapacity chunk < 2 ^ 64) (hlt : lumpPackedbits lump < 2 ^ 16)
    (hq : chunkBitCapacity chunk / lumpPackedbits lump < 2 ^ 16) :
    lnLumpRepeat chunk lump = chunkBitCapacity chunk / lumpPackedbits lump := by
  have hnb : numBitsInLump lump = lumpPackedbits lump := by
    rw [numBitsInLump_eq]; exact Nat.mod_eq_of_lt hlt
  unfold lnLumpRepeat
  rw [hnb]
  unfold chunkBitCapacity at hcap hq ⊢
  have e : size_t (size_t (chunk.SizeWord * chunk.CountWords) * 8) =
      chunk.SizeWord * chunk.CountWords * 8 := by
    simp only [size_t]; omega
  rw [e]
  exact Nat.mod_eq_of_lt hq

/-! ## Call orders under a uniform stream shift -/

/-- The creation loop of a right-shifted stream numbers its units downwards. -/
theorem callOrder_createSampleInterpreters_right (BitWidth : SampleFormat → Nat → Nat)
    {s : IonStream} (hs : s.Shift = StreamShift.shiftRight) (n c : Nat) (hn : n ≤ c)
    (hc : c < 2 ^ 16) :
    (createSampleInterpreters BitWidth s n c).map SampleInterpreter.callOrder =
      (List.range' (c + 1 - n) n).reverse := by
  induction n generalizing c with
  | zero => simp [createSampleInterpreters]
  | succ n ih =>
    rw [createSampleInterpreters, List.map_cons]
    simp only [hs, if_true]
    have e : uint16_t (c + 2 ^ 16 - 1) = c - 1 := by simp only [uint16_t]; omega
    rw [e, ih (c - 1) (by omega) (by omega), List.range'_concat, List.reverse_append]
    have e1 : c - 1 + 1 - n = c + 1 - (n + 1) := by omega
    have e2 : c + 1 - (n + 1) + 1 * n = c := by omega
    rw [e1, e2]
    simp

theorem baseCallOrder_eq (lump : Lump) (R lr per t : Nat) :
    baseCallOrder lump R lr per t = uint16_t (t + lumpOffset lump R lr per) := by
  unfold baseCallOrder lumpOffset
  split <;> rfl

/-- The call orders of the sample units of one stream in one repetition are, up
to order, the window of `RateFactor` positions that starts at the base of the
stream, displaced by one when the stream is right-shifted. -/
theorem callOrder_stream_perm (BitWidth : SampleFormat → Nat → Nat) (lump : Lump)
    (R lr per t : Nat) (s : IonStream)
    (hb : t + lumpOffset lump R lr per + s.RateFactor + shiftDelta s.Shift < 2 ^ 16) :
    ((sampleUnits (streamSplIntrps BitWidth lump R lr per t s)).map
        SampleInterpreter.callOrder).Perm
      (List.range' (t + lumpOffset lump R lr per + shiftDelta s.Shift) s.RateFactor) := by
  have hrf : numSmpInterp s = s.RateFactor := numSmpInterp_of_lt (by omega)
  have hbase : baseCallOrder lump R lr per t = t + lumpOffset lump R lr per := by
    rw [baseCallOrder_eq]; simp only [uint16_t]; omega
  rw [sampleUnits_streamSplIntrps, hrf]
  unfold firstCallOrder
  simp only [hbase, hrf]
  cases hsh : s.Shift with
  | shiftLeft =>
    simp only [hsh, shiftDelta, reduceCtorEq, if_false] at hb ⊢
    rw [callOrder_createSampleInterpreters_left BitWidth hsh _ _ (by omega)]
    simp
  | shiftRight =>
    simp only [hsh, shiftDelta, if_true] at hb ⊢
    have e : uint16_t (t + lumpOffset lump R lr per + s.RateFactor) =
        t + lumpOffset lump R lr per + s.RateFactor := by simp only [uint16_t]; omega
    rw [e, callOrder_createSampleInterpreters_right BitWidth hsh _ _ (by omega) (by omega)]
    have e1 : t + lumpOffset lump R lr per + s.RateFactor + 1 - s.RateFactor =
        t + lumpOffset lump R lr per + 1 := by omega
    rw [e1]
    exact List.reverse_perm _

/-- The call orders of the sample units of one lump repetition whose streams all
have the shift `shift`: up to order, a window of one position per unit. -/
theorem callOrder_streamsUnits_perm (BitWidth : SampleFormat → Nat → Nat) (lump : Lump)
    (R lr per : Nat) (shift : StreamShift) (streams : List IonStream) (t : Nat)
    (hs : ∀ s ∈ streams, s.Shift = shift)
    (hb : t + lumpOffset lump R lr per + (streams.map IonStream.RateFactor).sum +
      shiftDelta shift < 2 ^ 16) :
    ((sampleUnits (streamsUnits BitWidth lump R lr per streams t)).map
        SampleInterpreter.callOrder).Perm
      (List.range' (t + lumpOffset lump R lr per + shiftDelta shift)
        (streams.map IonStream.RateFactor).sum) := by
  induction streams generalizing t with
  | nil => simp [streamsUnits, sampleUnits]
  | cons s rest ih =>
    have hsh := hs s (by simp)
    simp only [List.map_cons, List.sum_cons] at hb ⊢
    have hrf : numSmpInterp s = s.RateFactor := numSmpInterp_of_lt (by omega)
    have hnext : uint16_t (t + numSmpInterp s) = t + s.RateFactor := by
      rw [hrf]; simp only [uint16_t]; omega
    have h1 := callOrder_stream_perm BitWidth lump R lr per t s (by rw [hsh]; omega)
    have h2 := ih (t + s.RateFactor) (fun x hx => hs x (by simp [hx])) (by omega)
    rw [hsh] at h1
    rw [streamsUnits, sampleUnits_append, List.map_append, hnext]
    have e : t + s.RateFactor + lumpOffset lump R lr per + shiftDelta shift =
        t + lumpOffset lump R lr per + shiftDelta shift + 1 * s.RateFactor := by ring
    rw [e] at h2
    have := List.Perm.append h1 h2
    rw [List.range'_append] at this
    rw [Nat.add_comm s.RateFactor]
    exact this

/-- The first `n` repetitions of a left-shifted lump with uniformly shifted
streams. -/
theorem callOrder_repeats_left_perm (BitWidth : SampleFormat → Nat → Nat) {lump : Lump}
    (hl : lump.Shift = LumpShift.shiftLeft) (R per : Nat) (shift : StreamShift)
    (hs : ∀ s ∈ lump.Streams, s.Shift = shift)
    (hper : per = (lump.Streams.map IonStream.RateFactor).sum) (n : Nat)
    (hb : n * per + shiftDelta shift < 2 ^ 16) :
    ((sampleUnits ((List.range n).flatMap
        (fun lr => streamsUnits BitWidth lump R lr per lump.Streams 0))).map
          SampleInterpreter.callOrder).Perm (List.range' (shiftDelta shift) (n * per)) := by
  induction n with
  | zero => simp [sampleUnits]
  | succ n ih =>
    have hb1 : n * per + per + shiftDelta shift < 2 ^ 16 := by
      have : (n + 1) * per = n * per + per := by ring
      omega
    have hoff : lumpOffset lump R n per = n * per := by
      simp [lumpOffset, hl]
    have h1 := ih (by omega)
    have h2 := callOrder_streamsUnits_perm BitWidth lump R n per shift lump.Streams 0 hs
      (by rw [hoff, ← hper]; omega)
    rw [hoff, ← hper] at h2
    rw [List.range_succ, List.flatMap_append, sampleUnits_append, List.map_append]
    simp only [List.flatMap_cons, List.flatMap_nil, List.append_nil]
    have e : 0 + n * per + shiftDelta shift = shiftDelta shift + 1 * (n * per) := by ring
    rw [e] at h2
    have := List.Perm.append h1 h2
    rw [List.range'_append] at this
    have e2 : (n + 1) * per = per + n * per := by ring
    rw [e2]
    exact this

/-- The first `n` repetitions of a right-shifted lump with uniformly shifted
streams. -/
theorem callOrder_repeats_right_perm (BitWidth : SampleFormat → Nat → Nat) {lump : Lump}
    (hl : lump.Shift = LumpShift.shiftRight) (R per : Nat) (shift : StreamShift)
    (hs : ∀ s ∈ lump.Streams, s.Shift = shift)
    (hper : per = (lump.Streams.map IonStream.RateFactor).sum) (n : Nat) (hn : n ≤ R)
    (hb : (R + 1) * per + shiftDelta shift < 2 ^ 16) :
    ((sampleUnits ((List.range n).flatMap
        (fun lr => streamsUnits BitWidth lump R lr per lump.Streams 0))).map
          SampleInterpreter.callOrder).Perm
      (List.range' ((R - n + 1) * per + shiftDelta shift) (n * per)) := by
  induction n with
  | zero => simp [sampleUnits]
  | succ n ih =>
    have hoff : lumpOffset lump R n per = (R - n) * per := by
      simp [lumpOffset, hl]
    have hle : (R - n) * per + per ≤ (R + 1) * per := by
      have : (R - n) * per + per = (R - n + 1) * per := by ring
      rw [this]
      exact Nat.mul_le_mul_right _ (by omega)
    have h1 := ih (by omega)
    have h2 := callOrder_streamsUnits_perm BitWidth lump R n per shift lump.Streams 0 hs
      (by rw [hoff, ← hper]; omega)
    rw [hoff, ← hper] at h2
    rw [List.range_succ, List.flatMap_append, sampleUnits_append, List.map_append]
    simp only [List.flatMap_cons, List.flatMap_nil, List.append_nil]
    have e1 : (R - n + 1) * per + shiftDelta shift =
        0 + (R - n) * per + shiftDelta shift + 1 * per := by ring
    have e2 : R - (n + 1) + 1 = R - n := by omega
    rw [e1] at h1
    have := (List.Perm.append h1 h2).trans List.perm_append_comm
    rw [List.range'_append] at this
    rw [e2]
    have e3 : (n + 1) * per = n * per + per := by ring
    have e4 : (R - n) * per + shiftDelta shift = 0 + (R - n) * per + shiftDelta shift := by ring
    rw [e3, e4]
    exact this

/-! ## The chunk padding and the repeat count -/

theorem CreateChunkInterpreter_of_fold {BitWidth : SampleFormat → Nat → Nat} {wordBytes : Nat}
    {factory : SampleSinkFactory} {md : Metadata} {info : SampleStreamInfo} {chunk : Chunk}
    {b : ChunkBuild}
    (h : chunk.Lumps.foldlM (lumpBody BitWidth md info chunk)
      (chunkBuildStart wordBytes factory chunk) = some b) :
    CreateChunkInterpreter BitWidth wordBytes factory md info chunk =
      if 0 < numChunkPaddingBits wordBytes chunk b.totalOccupiedBitsInChunk ∧
          chunk.Padding ≠ ChunkPadding.None then
        some (true, b.chunkIntrp.AddSampleInterpreter
          ⟨numChunkPaddingBits wordBytes chunk b.totalOccupiedBitsInChunk, 0, none⟩
          (decide (chunk.Padding = ChunkPadding.Head)), b.factory)
      else some (true, b.chunkIntrp, b.factory) := by
  unfold chunkBuildStart at h
  unfold CreateChunkInterpreter
  simp only [h]

theorem fold_of_CreateChunkInterpreter {BitWidth : SampleFormat → Nat → Nat} {wordBytes : Nat}
    {factory : SampleSinkFactory} {md : Metadata} {info : SampleStreamInfo} {chunk : Chunk}
    {r : Bool × ChunkInterpreter × SampleSinkFactory}
    (h : CreateChunkInterpreter BitWidth wordBytes factory md info chunk = some r) :
    ∃ b, chunk.Lumps.foldlM (lumpBody BitWidth md info chunk)
      (chunkBuildStart wordBytes factory chunk) = some b ∧ r.2.2 = b.factory := by
  cases hf : chunk.Lumps.foldlM (lumpBody BitWidth md info chunk)
      (chunkBuildStart wordBytes factory chunk) with
  | none =>
    unfold chunkBuildStart at hf
    unfold CreateChunkInterpreter at h
    simp [hf] at h
  | some b =>
    refine ⟨b, rfl, ?_⟩
    rw [CreateChunkInterpreter_of_fold hf] at h
    split at h <;> (simp only [Option.some.injEq] at h; rw [← h])

/-- The state after the loop over the lumps holds the units of the lumps and the
32-bit count of the bits they occupy. -/
theorem fold_state {BitWidth : SampleFormat → Nat → Nat} {wordBytes : Nat}
    {factory : SampleSinkFactory} {md : Metadata} {info : SampleStreamInfo} {chunk : Chunk}
    {b : ChunkBuild}
    (h : chunk.Lumps.foldlM (lumpBody BitWidth md info chunk)
      (chunkBuildStart wordBytes factory chunk) = some b) :
    b.chunkIntrp = ⟨wordBytes, uint32_t chunk.CountWords, decide (chunk.Shift = ChunkShift.Right),
        WordEndian.Undefined, lumpsUnits BitWidth chunk⟩ ∧
      b.totalOccupiedBitsInChunk = uint32_t (bitsConsumed chunk) := by
  have hg := lumps_foldlM_eq_some chunk.Lumps (by simp [chunkBuildStart]) h
  obtain ⟨hc, ht⟩ := hg
  refine ⟨?_, ?_⟩
  · rw [hc]; simp [chunkBuildStart, lumpsUnits]
  · rw [ht]; simp [chunkBuildStart, bitsConsumed]

/-! ## The stream metadata records -/

theorem find_map_setInfo (name name1 : String) (info : SampleStreamInfo)
    (l : List (String × SampleStreamInfo)) :
    ((l.map (fun e => if e.1 == name then (e.1, info) else e)).find?
        (fun e => e.1 == name1)).map Prod.snd =
      if name1 = name then (if l.any (fun e => e.1 == name) then some info else none)
      else (l.find? (fun e => e.1 == name1)).map Prod.snd := by
  induction l with
  | nil => simp
  | cons e rest ih =>
    by_cases h1 : name1 = name
    · subst h1
      simp only [if_true] at ih ⊢
      by_cases he : e.1 = name1
      · simp [he]
      · simp only [List.map_cons, List.any_cons]
        have hb : (e.1 == name1) = false := by simpa using he
        simp only [hb, Bool.false_eq_true, if_false, List.find?_cons, Bool.false_or]
        simpa using ih
    · simp only [h1, if_false] at ih ⊢
      by_cases he : e.1 = name
      · have hne : ¬ e.1 = name1 := fun h => h1 (h.symm.trans he)
        have hb : (e.1 == name1) = false := by simpa using hne
        simp only [List.map_cons, he, beq_self_eq_true, if_true, List.find?_cons]
        rw [← he] at ih ⊢
        simp only [hb]
        simpa [he] using ih
      · have hb : (e.1 == name) = false := by simpa using he
        simp only [List.map_cons, hb, Bool.false_eq_true, if_false, List.find?_cons]
        cases hc : (e.1 == name1) with
        | true => rfl
        | false => simpa using ih

/-- Writing the record of `name` and reading another identity, or the same. -/
theorem GetSampleStreamInfo_setInfo (f : SampleSinkFactory) (name name1 : String)
    (info : SampleStreamInfo) :
    (f.setInfo name info).GetSampleStreamInfo name1 =
      if name1 = name then some info else f.GetSampleStreamInfo name1 := by
  unfold SampleSinkFactory.setInfo SampleSinkFactory.GetSampleStreamInfo
  by_cases hany : f.infos.any (fun e => e.1 == name) = true
  · rw [if_pos hany]
    simp only
    rw [find_map_setInfo, hany]
    simp
  · rw [if_neg hany]
    simp only [List.find?_append]
    have hnone : ∀ e ∈ f.infos, ¬ e.1 = name := by
      intro e he heq
      apply hany
      rw [List.any_eq_true]
      exact ⟨e, he, by simpa using heq⟩
    by_cases h1 : name1 = name
    · subst h1
      have : f.infos.find? (fun e => e.1 == name1) = none := by
        rw [List.find?_eq_none]
        intro e he
        simpa using hnone e he
      simp [this]
    · simp only [h1, if_false]
      cases hfind : f.infos.find? (fun e => e.1 == name1) with
      | some e => simp
      | none =>
        have hb : (name == name1) = false := by simpa using fun h => h1 h.symm
        simp [hb]

theorem GetSampleStreamInfo_GetSampleSink (f : SampleSinkFactory) (name name1 : String) :
    (f.GetSampleSink name).GetSampleStreamInfo name1 = f.GetSampleStreamInfo name1 := by
  unfold SampleSinkFactory.GetSampleSink SampleSinkFactory.GetSampleStreamInfo
  split <;> rfl

/-- The record that one execution of the loop body leaves under an identity. -/
theorem streamBody_info {BitWidth : SampleFormat → Nat → Nat} {md : Metadata}
    {info : SampleStreamInfo} {lump : Lump} {R lr per t : Nat} {b : ChunkBuild} {s : IonStream}
    {r : Nat × ChunkBuild} (name : String)
    (h : streamBody BitWidth md info lump R lr per (t, b) s = some r) :
    ∃ bandRef, s.Bands.head? = some bandRef ∧
      r.2.factory.GetSampleStreamInfo name =
        if name = s.toString then some (streamInfo md info s bandRef)
        else b.factory.GetSampleStreamInfo name := by
  unfold streamBody at h
  cases hb : s.Bands.head? with
  | none => simp [hb] at h
  | some bandRef =>
    simp only [hb, Option.some.injEq] at h
    subst h
    refine ⟨bandRef, rfl, ?_⟩
    simp only
    rw [GetSampleStreamInfo_setInfo, GetSampleStreamInfo_GetSampleSink]

theorem streams_foldlM_info {BitWidth : SampleFormat → Nat → Nat} {md : Metadata}
    {info : SampleStreamInfo} {lump : Lump} {R lr per : Nat} (name : String)
    (v : SampleStreamInfo) (streams : List IonStream) {t : Nat} {b : ChunkBuild}
    {r : Nat × ChunkBuild}
    (h : streams.foldlM (streamBody BitWidth md info lump R lr per) (t, b) = some r)
    (hw : WritesAgree md info name v streams)
    (hq : b.factory.GetSampleStreamInfo name = some v ∨ ∃ x ∈ streams, x.toString = name) :
    r.2.factory.GetSampleStreamInfo name = some v := by
  induction streams generalizing t b with
  | nil =>
    simp only [List.foldlM_nil, pure, Option.some.injEq] at h
    subst h
    rcases hq with hq | ⟨x, hx, -⟩
    · exact hq
    · simp at hx
  | cons s rest ih =>
    rw [List.foldlM_cons] at h
    cases h1 : streamBody BitWidth md info lump R lr per (t, b) s with
    | none => simp [h1] at h
    | some r1 =>
      obtain ⟨t1, b1⟩ := r1
      simp only [h1, Option.bind_eq_bind, Option.some_bind] at h
      obtain ⟨bandRef, hband, hget⟩ := streamBody_info name h1
      simp only at hget
      apply ih h (fun x hx => hw x (by simp [hx]))
      by_cases hn : name = s.toString
      · left
        rw [hget, if_pos hn, hw s (by simp) hn.symm bandRef hband]
      · rw [if_neg hn] at hget
        rcases hq with hq | ⟨x, hx, hxn⟩
        · left; rw [hget]; exact hq
        · rcases List.mem_cons.mp hx with hxs | hxr
          · subst hxs; exact absurd hxn.symm hn
          · right; exact ⟨x, hxr, hxn⟩

theorem repeats_foldlM_info {BitWidth : SampleFormat → Nat → Nat} {md : Metadata}
    {info : SampleStreamInfo} {chunk : Chunk} {lump : Lump} (name : String)
    (v : SampleStreamInfo) (lrs : List Nat) {b b1 : ChunkBuild}
    (h : lrs.foldlM (lumpRepeatBody BitWidth md info chunk lump) b = some b1)
    (hw : WritesAgree md info name v lump.Streams)
    (hq : b.factory.GetSampleStreamInfo name = some v ∨
      (lrs ≠ [] ∧ ∃ x ∈ lump.Streams, x.toString = name)) :
    b1.factory.GetSampleStreamInfo name = some v := by
  induction lrs generalizing b with
  | nil =>
    simp only [List.foldlM_nil, pure, Option.some.injEq] at h
    subst h
    rcases hq with hq | ⟨hne, -⟩
    · exact hq
    · exact absurd rfl hne
  | cons lr rest ih =>
    rw [List.foldlM_cons] at h
    cases h1 : lumpRepeatBody BitWidth md info chunk lump b lr with
    | none => simp [h1] at h
    | some b2 =>
      simp only [h1, Option.bind_eq_bind, Option.some_bind] at h
      apply ih h
      left
      unfold lumpRepeatBody at h1
      obtain ⟨r, hr, hr1⟩ := Option.map_eq_some'.mp h1
      subst hr1
      apply streams_foldlM_info name v lump.Streams hr hw
      rcases hq with hq | ⟨-, hx⟩
      · exact Or.inl hq
      · exact Or.inr hx

theorem lumpBody_info {BitWidth : SampleFormat → Nat → Nat} {md : Metadata}
    {info : SampleStreamInfo} {chunk : Chunk} {lump : Lump} (name : String)
    (v : SampleStreamInfo) {b b1 : ChunkBuild}
    (h : lumpBody BitWidth md info chunk b lump = some b1)
    (hw : WritesAgree md info name v lump.Streams)
    (hq : b.factory.GetSampleStreamInfo name = some v ∨
      (lnLumpRepeat chunk lump ≠ 0 ∧ ∃ x ∈ lump.Streams, x.toString = name)) :
    b1.factory.GetSampleStreamInfo name = some v := by
  unfold lumpBody at h
  split at h
  · simp at h
  · apply repeats_foldlM_info name v _ h hw
    rcases hq with hq | ⟨hr, hx⟩
    · exact Or.inl hq
    · right
      refine ⟨?_, hx⟩
      intro hnil
      apply hr
      have := congrArg List.length hnil
      simpa using this

theorem lumps_foldlM_info {BitWidth : SampleFormat → Nat → Nat} {md : Metadata}
    {info : SampleStreamInfo} {chunk : Chunk} (name : String) (v : SampleStreamInfo)
    (lumps : List Lump) {b b1 : ChunkBuild}
    (h : lumps.foldlM (lumpBody BitWidth md info chunk) b = some b1)
    (hw : ∀ lump ∈ lumps, WritesAgree md info name v lump.Streams)
    (hq : b.factory.GetSampleStreamInfo name = some v ∨
      ∃ lump ∈ lumps, lnLumpRepeat chunk lump ≠ 0 ∧ ∃ x ∈ lump.Streams, x.toString = name) :
    b1.factory.GetSampleStreamInfo name = some v := by
  induction lumps generalizing b with
  | nil =>
    simp only [List.foldlM_nil, pure, Option.some.injEq] at h
    subst h
    rcases hq with hq | ⟨l, hl, -⟩
    · exact hq
    · simp at hl
  | cons lump rest ih =>
    rw [List.foldlM_cons] at h
    cases h1 : lumpBody BitWidth md info chunk b lump with
    | none => simp [h1] at h
    | some b2 =>
      simp only [h1, Option.bind_eq_bind, Option.some_bind] at h
      apply ih h (fun l hl => hw l (by simp [hl]))
      rcases hq with hq | ⟨l, hl, hr, hx⟩
      · exact Or.inl (lumpBody_info name v h1 (hw lump (by simp)) (Or.inl hq))
      · rcases List.mem_cons.mp hl with hls | hlr
        · subst hls
          exact Or.inl (lumpBody_info name v h1 (hw l (by simp)) (Or.inr ⟨hr, hx⟩))
        · exact Or.inr ⟨l, hlr, hr, hx⟩

/-! ## The call order of every sample unit -/

theorem numSmpInterp_eq_mod (s : IonStream) : numSmpInterp s = s.RateFactor % 2 ^ 16 := by
  simp only [numSmpInterp, uint16_t, uint32_t]; omega

/-- The counter `totalNumSampleInterpreters` after the loop over `streams`. -/
theorem streams_foldlM_fst {BitWidth : SampleFormat → Nat → Nat} {md : Metadata}
    {info : SampleStreamInfo} {lump : Lump} {R lr per : Nat} (streams : List IonStream)
    {t : Nat} {b : ChunkBuild} {r : Nat × ChunkBuild} (ht : t < 2 ^ 16)
    (h : streams.foldlM (streamBody BitWidth md info lump R lr per) (t, b) = some r) :
    r.1 = (t + (streams.map IonStream.RateFactor).sum) % 2 ^ 16 := by
  induction streams generalizing t b with
  | nil =>
    simp only [List.foldlM_nil, pure, Option.some.injEq] at h
    subst h
    simp only [List.map_nil, List.sum_nil]; omega
  | cons s rest ih =>
    rw [List.foldlM_cons] at h
    cases h1 : streamBody BitWidth md info lump R lr per (t, b) s with
    | none => simp [h1] at h
    | some r1 =>
      obtain ⟨t1, b1⟩ := r1
      simp only [h1, Option.bind_eq_bind, Option.some_bind] at h
      obtain ⟨ht1, -⟩ := streamBody_eq_some h1
      simp only at ht1
      have hlt : t1 < 2 ^ 16 := by rw [ht1]; exact uint16_t_lt _
      rw [ih hlt h, ht1, numSmpInterp_eq_mod]
      simp only [List.map_cons, List.sum_cons, uint16_t]
      omega

/-- The creation loop of a left-shifted stream, with the wrap-around. -/
theorem callOrder_create_left_mod (BitWidth : SampleFormat → Nat → Nat) {s : IonStream}
    (hs : s.Shift = StreamShift.shiftLeft) (n c : Nat) (hc : c < 2 ^ 16) :
    (createSampleInterpreters BitWidth s n c).map SampleInterpreter.callOrder =
      (List.range n).map (fun i => (c + i) % 2 ^ 16) := by
  induction n generalizing c with
  | zero => simp [createSampleInterpreters]
  | succ n ih =>
    rw [createSampleInterpreters, List.map_cons, List.range_succ_eq_map, List.map_cons,
      List.map_map]
    simp only [hs, reduceCtorEq, if_false]
    rw [ih _ (uint16_t_lt _)]
    refine congrArg₂ List.cons ?_ ?_
    · omega
    · apply List.map_congr_left
      intro i _
      simp only [Function.comp, uint16_t, Nat.succ_eq_add_one]
      omega

/-- The creation loop of a right-shifted stream, with the wrap-around. -/
theorem callOrder_create_right_mod (BitWidth : SampleFormat → Nat → Nat) {s : IonStream}
    (hs : s.Shift = StreamShift.shiftRight) (n c : Nat) (hc : c < 2 ^ 16) (hn : n ≤ 2 ^ 16) :
    (createSampleInterpreters BitWidth s n c).map SampleInterpreter.callOrder =
      (List.range n).map (fun i => (c + 2 ^ 16 - i) % 2 ^ 16) := by
  induction n generalizing c with
  | zero => simp [createSampleInterpreters]
  | succ n ih =>
    rw [createSampleInterpreters, List.map_cons, List.range_succ_eq_map, List.map_cons,
      List.map_map]
    simp only [hs, if_true]
    rw [ih _ (uint16_t_lt _) (by omega)]
    refine congrArg₂ List.cons ?_ ?_
    · omega
    · apply List.map_congr_left
      intro i hi
      have hi1 : i < n := List.mem_range.mp hi
      simp only [Function.comp, uint16_t, Nat.succ_eq_add_one]
      omega

/-- The sample units of a stream in a repetition carry the call orders of the
specification's formula, one per emitted unit. -/
theorem callOrder_streamSplIntrps_formula (BitWidth : SampleFormat → Nat → Nat) (chunk : Chunk)
    (lump : Lump) (pre : List IonStream) (s : IonStream) (lr t : Nat)
    (ht : t = (pre.map IonStream.RateFactor).sum % 2 ^ 16) :
    (sampleUnits (streamSplIntrps BitWidth lump (lnLumpRepeat chunk lump) lr
        (numSampleInterpretersPerLump lump) t s)).map SampleInterpreter.callOrder =
      (List.range (s.RateFactor % 2 ^ 16)).map (claimedCallOrder chunk lump pre s lr) := by
  rw [sampleUnits_streamSplIntrps, numSmpInterp_eq_mod]
  have hper := numSampleInterpretersPerLump_eq lump
  have hbase : baseCallOrder lump (lnLumpRepeat chunk lump) lr
      (numSampleInterpretersPerLump lump) t =
      (t + lumpOffset lump (lnLumpRepeat chunk lump) lr
        ((lump.Streams.map IonStream.RateFactor).sum)) % 2 ^ 16 := by
    rw [baseCallOrder_eq, hper]
    unfold lumpOffset uint16_t
    split
    · rw [Nat.add_mod, Nat.mul_mod, Nat.mod_mod, ← Nat.mul_mod, ← Nat.add_mod]
    · rw [Nat.add_mod, Nat.mul_mod, Nat.mod_mod, ← Nat.mul_mod, ← Nat.add_mod]
  have hoff : (if lump.Shift = LumpShift.shiftRight then
      (lnLumpRepeat chunk lump - lr) * (lump.Streams.map IonStream.RateFactor).sum
      else lr * (lump.Streams.map IonStream.RateFactor).sum) =
      lumpOffset lump (lnLumpRepeat chunk lump) lr
        ((lump.Streams.map IonStream.RateFactor).sum) := rfl
  cases hsh : s.Shift with
  | shiftLeft =>
    have hfirst : firstCallOrder lump (lnLumpRepeat chunk lump) lr
        (numSampleInterpretersPerLump lump) t s =
        (t + lumpOffset lump (lnLumpRepeat chunk lump) lr
          ((lump.Streams.map IonStream.RateFactor).sum)) % 2 ^ 16 := by
      unfold firstCallOrder
      simp only [hsh, reduceCtorEq, if_false, hbase]
    rw [hfirst, callOrder_create_left_mod BitWidth hsh _ _ (Nat.mod_lt _ (by norm_num))]
    apply List.map_congr_left
    intro i _
    unfold claimedCallOrder
    simp only [hsh, reduceCtorEq, if_false, hoff, ht]
    omega
  | shiftRight =>
    have hfirst : firstCallOrder lump (lnLumpRepeat chunk lump) lr
        (numSampleInterpretersPerLump lump) t s =
        (t + lumpOffset lump (lnLumpRepeat chunk lump) lr
          ((lump.Streams.map IonStream.RateFactor).sum) + s.RateFactor) % 2 ^ 16 := by
      unfold firstCallOrder
      simp only [hsh, if_true, hbase, numSmpInterp_eq_mod, uint16_t]
      omega
    rw [hfirst, callOrder_create_right_mod BitWidth hsh _ _ (Nat.mod_lt _ (by norm_num))
      (le_of_lt (Nat.mod_lt _ (by norm_num)))]
    apply List.map_congr_left
    intro i hi
    have hi1 : i < s.RateFactor % 2 ^ 16 := List.mem_range.mp hi
    unfold claimedCallOrder
    simp only [hsh, if_true, hoff, ht]
    omega

/-! ## When the build completes, and the shape of the plan -/

theorem streamBody_isSome_iff (BitWidth : SampleFormat → Nat → Nat) (md : Metadata)
    (info : SampleStreamInfo) (lump : Lump) (R lr per : Nat) (st : Nat × ChunkBuild)
    (s : IonStream) :
    (streamBody BitWidth md info lump R lr per st s).isSome = true ↔ s.Bands ≠ [] := by
  constructor
  · intro h hnil
    unfold streamBody at h
    simp [hnil] at h
  · exact streamBody_isSome BitWidth md info lump R lr per st s

theorem streams_foldlM_isSome_iff (BitWidth : SampleFormat → Nat → Nat) (md : Metadata)
    (info : SampleStreamInfo) (lump : Lump) (R lr per : Nat) (streams : List IonStream)
    (st : Nat × ChunkBuild) :
    (streams.foldlM (streamBody BitWidth md info lump R lr per) st).isSome = true ↔
      ∀ s ∈ streams, s.Bands ≠ [] := by
  constructor
  · intro h
    induction streams generalizing st with
    | nil => simp
    | cons s rest ih =>
      rw [List.foldlM_cons] at h
      cases h1 : streamBody BitWidth md info lump R lr per st s with
      | none => simp [h1] at h
      | some r1 =>
        simp only [h1, Option.bind_eq_bind, Option.some_bind] at h
        have hs := (streamBody_isSome_iff BitWidth md info lump R lr per st s).mp (by simp [h1])
        intro x hx
        rcases List.mem_cons.mp hx with hx | hx
        · subst hx; exact hs
        · exact ih r1 h x hx
  · exact streams_foldlM_isSome BitWidth md info lump R lr per streams st

theorem lumpRepeatBody_isSome_iff (BitWidth : SampleFormat → Nat → Nat) (md : Metadata)
    (info : SampleStreamInfo) (chunk : Chunk) (lump : Lump) (b : ChunkBuild) (lr : Nat) :
    (lumpRepeatBody BitWidth md info chunk lump b lr).isSome = true ↔
      ∀ s ∈ lump.Streams, s.Bands ≠ [] := by
  unfold lumpRepeatBody
  rw [Option.isSome_map']
  exact streams_foldlM_isSome_iff BitWidth md info lump _ lr _ lump.Streams _

theorem repeats_foldlM_isSome_iff (BitWidth : SampleFormat → Nat → Nat) (md : Metadata)
    (info : SampleStreamInfo) (chunk : Chunk) (lump : Lump) (lrs : List Nat) (b : ChunkBuild) :
    (lrs.foldlM (lumpRepeatBody BitWidth md info chunk lump) b).isSome = true ↔
      (lrs = [] ∨ ∀ s ∈ lump.Streams, s.Bands ≠ []) := by
  constructor
  · intro h
    cases lrs with
    | nil => exact Or.inl rfl
    | cons lr rest =>
      right
      rw [List.foldlM_cons] at h
      cases h1 : lumpRepeatBody BitWidth md info chunk lump b lr with
      | none => simp [h1] at h
      | some b1 =>
        exact (lumpRepeatBody_isSome_iff BitWidth md info chunk lump b lr).mp (by simp [h1])
  · rintro (h | h)
    · subst h; simp [pure]
    · exact repeats_foldlM_isSome BitWidth md info chunk lump lrs b h

theorem lumpBody_isSome_iff (BitWidth : SampleFormat → Nat → Nat) (md : Metadata)
    (info : SampleStreamInfo) (chunk : Chunk) (b : ChunkBuild) (lump : Lump) :
    (lumpBody BitWidth md info chunk b lump).isSome = true ↔ LumpRuns chunk lump := by
  unfold lumpBody LumpRuns
  by_cases h0 : numBitsInLump lump = 0
  · simp [h0]
  · rw [if_neg h0, repeats_foldlM_isSome_iff]
    have : List.range (lnLumpRepeat chunk lump) = [] ↔ lnLumpRepeat chunk lump = 0 := by
      constructor
      · intro h
        have := congrArg List.length h
        simpa using this
      · intro h; rw [h]; rfl
    rw [this]
    simp [h0]

theorem lumps_foldlM_isSome_iff (BitWidth : SampleFormat → Nat → Nat) (md : Metadata)
    (info : SampleStreamInfo) (chunk : Chunk) (lumps : List Lump) (b : ChunkBuild) :
    (lumps.foldlM (lumpBody BitWidth md info chunk) b).isSome = true ↔
      ∀ lump ∈ lumps, LumpRuns chunk lump := by
  induction lumps generalizing b with
  | nil => simp [pure]
  | cons lump rest ih =>
    rw [List.foldlM_cons]
    cases h1 : lumpBody BitWidth md info chunk b lump with
    | none =>
      have hno : ¬ LumpRuns chunk lump := fun hr => by
        have := (lumpBody_isSome_iff BitWidth md info chunk b lump).mpr hr
        rw [h1] at this
        simp at this
      simp only [Option.bind_eq_bind, Option.none_bind, Option.isSome_none, Bool.false_eq_true,
        false_iff]
      intro hall
      exact hno (hall lump (by simp))
    | some b1 =>
      have hyes : LumpRuns chunk lump :=
        (lumpBody_isSome_iff BitWidth md info chunk b lump).mp (by simp [h1])
      simp only [Option.bind_eq_bind, Option.some_bind]
      rw [ih b1]
      constructor
      · intro hall l hl
        rcases List.mem_cons.mp hl with h | h
        · subst h; exact hyes
        · exact hall l h
      · intro hall l hl
        exact hall l (by simp [hl])

/-- The build of a chunk completes exactly when the build of each of its lumps
does; the plan is then the closed-form plan. -/
theorem chunkPlan_eq_ite (BitWidth : SampleFormat → Nat → Nat) (wordBytes : Nat)
    (factory : SampleSinkFactory) (md : Metadata) (info : SampleStreamInfo) (chunk : Chunk)
    [Decidable (∀ lump ∈ chunk.Lumps, LumpRuns chunk lump)] :
    chunkPlan BitWidth wordBytes factory md info chunk =
      if ∀ lump ∈ chunk.Lumps, LumpRuns chunk lump then some (planOf BitWidth wordBytes chunk)
      else none := by
  have hiff := lumps_foldlM_isSome_iff BitWidth md info chunk chunk.Lumps
    (chunkBuildStart wordBytes factory chunk)
  split
  · rename_i hall
    obtain ⟨b, hb⟩ := Option.isSome_iff_exists.mp (hiff.mpr hall)
    have hc := CreateChunkInterpreter_of_fold hb
    have hsome : ∃ r, CreateChunkInterpreter BitWidth wordBytes factory md info chunk = some r := by
      rw [hc]; split <;> exact ⟨_, rfl⟩
    obtain ⟨r, hr⟩ := hsome
    have hp : chunkPlan BitWidth wordBytes factory md info chunk =
        some r.2.1.mSampleInterpreters := by simp [chunkPlan, hr]
    rw [hp, chunkPlan_eq_some hp]
  · rename_i hall
    cases hcp : chunkPlan BitWidth wordBytes factory md info chunk with
    | none => rfl
    | some plan =>
      exfalso
      apply hall
      apply hiff.mp
      unfold chunkPlan at hcp
      obtain ⟨r, hr, -⟩ := Option.map_eq_some'.mp hcp
      obtain ⟨b, hb, -⟩ := fold_of_CreateChunkInterpreter hr
      simp [hb]

theorem shape_createSampleInterpreters (BitWidth : SampleFormat → Nat → Nat) (s : IonStream)
    (n c : Nat) :
    (createSampleInterpreters BitWidth s n c).map unitShape =
      List.replicate n (false, unitBitWidth BitWidth s, some s.toString) := by
  induction n generalizing c with
  | zero => rfl
  | succ n ih =>
    rw [createSampleInterpreters, List.map_cons, ih, List.replicate_succ]
    rfl

theorem shape_streamSplIntrps (BitWidth : SampleFormat → Nat → Nat) (lump : Lump)
    (R lr per t : Nat) (s : IonStream) :
    (streamSplIntrps BitWidth lump R lr per t s).map unitShape = streamShape BitWidth s := by
  unfold streamSplIntrps streamShape
  simp only []
  split
  · split
    · rw [List.map_cons, shape_createSampleInterpreters]; rfl
    · rw [List.map_append, shape_createSampleInterpreters]; rfl
  · exact shape_createSampleInterpreters BitWidth s _ _

theorem shape_streamsUnits (BitWidth : SampleFormat → Nat → Nat) (lump : Lump)
    (R lr per : Nat) (streams : List IonStream) (t : Nat) :
    (streamsUnits BitWidth lump R lr per streams t).map unitShape =
      streams.flatMap (streamShape BitWidth) := by
  induction streams generalizing t with
  | nil => rfl
  | cons s rest ih =>
    rw [streamsUnits, List.map_append, shape_streamSplIntrps, ih]
    simp [List.flatMap]

theorem map_flatMap_eq {α β γ : Type} (g : β → γ) (f : α → List β) (xs : List α) :
    (xs.flatMap f).map g = xs.flatMap (fun x => (f x).map g) := by
  induction xs with
  | nil => rfl
  | cons x rest ih => simp [List.flatMap, List.map_flatten, Function.comp_def]

theorem flatMap_map_eq {α β γ : Type} (e : α → β) (f : β → List γ) (xs : List α) :
    (xs.map e).flatMap f = xs.flatMap (fun x => f (e x)) := by
  induction xs with
  | nil => rfl
  | cons x rest ih => simp [List.flatMap, Function.comp_def]

/-- The shapes of the units of the lumps of a chunk: they depend on the repeat
counts and on the streams, and on no shift. -/
theorem shape_lumpsUnits (BitWidth : SampleFormat → Nat → Nat) (chunk : Chunk) :
    (lumpsUnits BitWidth chunk).map unitShape =
      chunk.Lumps.flatMap (fun lump => (List.range (lnLumpRepeat chunk lump)).flatMap
        (fun _ => lump.Streams.flatMap (streamShape BitWidth))) := by
  unfold lumpsUnits
  rw [map_flatMap_eq]
  congr 1
  funext lump
  unfold lumpUnits
  rw [map_flatMap_eq]
  congr 1
  funext lr
  exact shape_streamsUnits BitWidth lump _ lr _ lump.Streams 0

theorem numBitsInLump_eraseShifts (lump : Lump) :
    numBitsInLump lump.eraseShifts = numBitsInLump lump := by
  unfold numBitsInLump Lump.eraseShifts
  simp only [List.foldl_map]
  rfl

theorem lumpPackedbits_eraseShifts (lump : Lump) :
    lumpPackedbits lump.eraseShifts = lumpPackedbits lump := by
  unfold lumpPackedbits Lump.eraseShifts
  simp only [List.map_map]
  rfl

theorem lnLumpRepeat_eraseShifts (chunk : Chunk) (lump : Lump) :
    lnLumpRepeat chunk.eraseShifts lump.eraseShifts = lnLumpRepeat chunk lump := by
  unfold lnLumpRepeat
  rw [numBitsInLump_eraseShifts]
  rfl

theorem streamShape_eraseShift (BitWidth : SampleFormat → Nat → Nat) (s : IonStream) :
    streamShape BitWidth s.eraseShift = streamShape BitWidth s := rfl

theorem bitsConsumed_eraseShifts (chunk : Chunk) :
    bitsConsumed chunk.eraseShifts = bitsConsumed chunk := by
  unfold bitsConsumed
  have : chunk.eraseShifts.Lumps = chunk.Lumps.map Lump.eraseShifts := rfl
  rw [this, List.map_map]
  congr 1
  apply List.map_congr_left
  intro lump _
  simp only [Function.comp, lnLumpRepeat_eraseShifts, lumpPackedbits_eraseShifts]

theorem chunkPaddingBits_eraseShifts (wordBytes : Nat) (chunk : Chunk) :
    chunkPaddingBits wordBytes chunk.eraseShifts = chunkPaddingBits wordBytes chunk := by
  unfold chunkPaddingBits
  rw [bitsConsumed_eraseShifts]
  rfl

theorem shape_lumpsUnits_eraseShifts (BitWidth : SampleFormat → Nat → Nat) (chunk : Chunk) :
    (lumpsUnits BitWidth chunk.eraseShifts).map unitShape =
      (lumpsUnits BitWidth chunk).map unitShape := by
  rw [shape_lumpsUnits, shape_lumpsUnits]
  have : chunk.eraseShifts.Lumps = chunk.Lumps.map Lump.eraseShifts := rfl
  rw [this, flatMap_map_eq]
  congr 1
  funext lump
  rw [lnLumpRepeat_eraseShifts]
  congr 1
  funext _
  have : lump.eraseShifts.Streams = lump.Streams.map IonStream.eraseShift := rfl
  rw [this, flatMap_map_eq]
  rfl

theorem shape_planOf_eraseShifts (BitWidth : SampleFormat → Nat → Nat) (wordBytes : Nat)
    (chunk : Chunk) :
    (planOf BitWidth wordBytes chunk.eraseShifts).map unitShape =
      (planOf BitWidth wordBytes chunk).map unitShape := by
  unfold planOf
  rw [chunkPaddingBits_eraseShifts]
  have hp : chunk.eraseShifts.Padding = chunk.Padding := rfl
  rw [hp]
  split
  · split
    · rw [List.map_cons, List.map_cons, shape_lumpsUnits_eraseShifts]
    · rw [List.map_append, List.map_append, shape_lumpsUnits_eraseShifts]
  · exact shape_lumpsUnits_eraseShifts BitWidth chunk

theorem LumpRuns_eraseShifts (chunk : Chunk) (lump : Lump) :
    LumpRuns chunk.eraseShifts lump.eraseShifts ↔ LumpRuns chunk lump := by
  unfold LumpRuns
  rw [numBitsInLump_eraseShifts, lnLumpRepeat_eraseShifts]
  have : lump.eraseShifts.Streams = lump.Streams.map IonStream.eraseShift := rfl
  rw [this]
  have hb : (∀ s ∈ lump.Streams.map IonStream.eraseShift, s.Bands ≠ []) ↔
      ∀ s ∈ lump.Streams, s.Bands ≠ [] := by
    simp only [List.mem_map, forall_exists_index, and_imp, forall_apply_eq_imp_iff₂]
    rfl
  rw [hb]

theorem allLumpsRun_eraseShifts (chunk : Chunk) :
    (∀ lump ∈ chunk.eraseShifts.Lumps, LumpRuns chunk.eraseShifts lump) ↔
      ∀ lump ∈ chunk.Lumps, LumpRuns chunk lump := by
  have : chunk.eraseShifts.Lumps = chunk.Lumps.map Lump.eraseShifts := rfl
  rw [this]
  simp only [List.mem_map, forall_exists_index, and_imp, forall_apply_eq_imp_iff₂,
    LumpRuns_eraseShifts]

/-- The shapes of the plan of a chunk are the shapes of the plan of the chunk
with all lump and stream shifts set to `Left`; one build has undefined behaviour
exactly when the other has. -/
theorem shape_chunkPlan_eraseShifts (BitWidth : SampleFormat → Nat → Nat) (wordBytes : Nat)
    (factory : SampleSinkFactory) (md : Metadata) (info : SampleStreamInfo) (chunk : Chunk) :
    (chunkPlan BitWidth wordBytes factory md info chunk.eraseShifts).map (List.map unitShape) =
      (chunkPlan BitWidth wordBytes factory md info chunk).map (List.map unitShape) := by
  classical
  rw [chunkPlan_eq_ite, chunkPlan_eq_ite]
  by_cases h : ∀ lump ∈ chunk.Lumps, LumpRuns chunk lump
  · rw [if_pos h, if_pos ((allLumpsRun_eraseShifts chunk).mpr h)]
    simp only [Option.map_some']
    rw [shape_planOf_eraseShifts]
  · rw [if_neg h, if_neg (fun h1 => h ((allLumpsRun_eraseShifts chunk).mp h1))]

/-! ## Bit accounting for a single lump -/

/-- A stream whose samples fit into fewer than `2^16` packed bits, and whose
left-over bits are emitted, contributes exactly `Packedbits` bits. -/
theorem planBits_streamSplIntrps_of_fit {BitWidth : SampleFormat → Nat → Nat} (lump : Lump)
    (R lr per t : Nat) {s : IonStream}
    (hle : s.RateFactor * BitWidth s.Format s.Quantization ≤ s.Packedbits)
    (hlt : s.Packedbits < 2 ^ 16)
    (hal : s.Packedbits = s.RateFactor * BitWidth s.Format s.Quantization ∨
      s.Alignment ≠ StreamAlignment.Undefined) :
    planBits (streamSplIntrps BitWidth lump R lr per t s) = s.Packedbits := by
  have hmul : numSmpInterp s * unitBitWidth BitWidth s =
      s.RateFactor * BitWidth s.Format s.Quantization := by
    rcases Nat.eq_zero_or_pos s.RateFactor with h0 | h0
    · have : numSmpInterp s = 0 := by rw [numSmpInterp_eq_mod, h0]; rfl
      rw [this, h0]; simp
    · rcases Nat.eq_zero_or_pos (BitWidth s.Format s.Quantization) with hb | hb
      · have : unitBitWidth BitWidth s = 0 := by
          unfold unitBitWidth uint32_t; rw [hb]; rfl
        rw [this, hb]; simp
      · have h1 : s.RateFactor ≤ s.RateFactor * BitWidth s.Format s.Quantization :=
          Nat.le_mul_of_pos_right _ hb
        have h2 : BitWidth s.Format s.Quantization ≤
            s.RateFactor * BitWidth s.Format s.Quantization := Nat.le_mul_of_pos_left _ h0
        rw [numSmpInterp_of_lt (by omega), unitBitWidth_of_lt (by omega)]
  have hp : numPaddingBits BitWidth s + s.RateFactor * BitWidth s.Format s.Quantization =
      s.Packedbits := by
    have e := numPaddingBits_eq_emod BitWidth s
    have hcast : ((s.RateFactor : Int) * (BitWidth s.Format s.Quantization : Int)) =
        ((s.RateFactor * BitWidth s.Format s.Quantization : Nat) : Int) := by push_cast; ring
    rw [hcast] at e
    generalize s.RateFactor * BitWidth s.Format s.Quantization = q at hle e ⊢
    omega
  unfold streamSplIntrps
  simp only
  split
  · split
    · rw [planBits_cons, planBits_createSampleInterpreters, hmul]
      exact hp
    · rw [planBits_append, planBits_createSampleInterpreters, hmul, planBits_cons, planBits_nil]
      simp only; omega
  · rename_i hn
    rw [planBits_createSampleInterpreters, hmul]
    rcases hal with h5 | h5
    · omega
    · have : ¬ 0 < numPaddingBits BitWidth s := fun hpos => hn ⟨hpos, h5⟩
      omega

theorem planBits_streamsUnits_of_fit {BitWidth : SampleFormat → Nat → Nat} (lump : Lump)
    (R lr per : Nat) (streams : List IonStream) (t : Nat)
    (h : ∀ s ∈ streams, s.RateFactor * BitWidth s.Format s.Quantization ≤ s.Packedbits ∧
      s.Packedbits < 2 ^ 16 ∧
      (s.Packedbits = s.RateFactor * BitWidth s.Format s.Quantization ∨
        s.Alignment ≠ StreamAlignment.Undefined)) :
    planBits (streamsUnits BitWidth lump R lr per streams t) =
      (streams.map IonStream.Packedbits).sum := by
  induction streams generalizing t with
  | nil => simp [streamsUnits, planBits]
  | cons s rest ih =>
    obtain ⟨h1, h2, h3⟩ := h s (by simp)
    rw [streamsUnits, planBits_append, planBits_streamSplIntrps_of_fit lump R lr per t h1 h2 h3,
      ih _ (fun x hx => h x (by simp [hx]))]
    simp

theorem le_sum_of_mem (l : List Nat) (a : Nat) (h : a ∈ l) : a ≤ l.sum := by
  induction l with
  | nil => simp at h
  | cons x rest ih =>
    rw [List.sum_cons]
    rcases List.mem_cons.mp h with h | h
    · omega
    · have := ih h; omega

theorem planBits_lumpUnits_of_fit {BitWidth : SampleFormat → Nat → Nat} (chunk : Chunk)
    (lump : Lump) (hlt : lumpPackedbits lump < 2 ^ 16)
    (h : ∀ s ∈ lump.Streams, s.RateFactor * BitWidth s.Format s.Quantization ≤ s.Packedbits ∧
      (s.Packedbits = s.RateFactor * BitWidth s.Format s.Quantization ∨
        s.Alignment ≠ StreamAlignment.Undefined)) :
    planBits (lumpUnits BitWidth chunk lump) = lnLumpRepeat chunk lump * lumpPackedbits lump := by
  unfold lumpUnits
  rw [planBits_flatMap_const _ (lumpPackedbits lump)]
  · simp
  · intro lr _
    apply planBits_streamsUnits_of_fit lump _ lr _ lump.Streams 0
    intro s hs
    have hle : s.Packedbits ≤ lumpPackedbits lump :=
      le_sum_of_mem _ _ (List.mem_map_of_mem _ hs)
    exact ⟨(h s hs).1, by omega, (h s hs).2⟩

/-! ## The file of a lane and the state `Open` leaves behind -/

theorem findFile_foldl_eq_last (laneID : String) (files : List File) (acc : Bool × String) :
    files.foldl (fun acc file => if file.Lane = laneID then (true, file.Url) else acc) acc =
      match (files.filter (fun file => decide (file.Lane = laneID))).getLast? with
      | some file => (true, file.Url)
      | none => acc := by
  induction files using List.reverseRecOn with
  | nil => rfl
  | append_singleton l a ih =>
    rw [List.foldl_append, List.foldl_cons, List.foldl_nil, List.filter_append]
    by_cases h : a.Lane = laneID
    · have : List.filter (fun file => decide (file.Lane = laneID)) [a] = [a] := by
        simp [List.filter, h]
      rw [this, List.getLast?_concat, if_pos h]
    · have : List.filter (fun file => decide (file.Lane = laneID)) [a] = [] := by
        simp [List.filter, h]
      rw [this, List.append_nil, if_neg h, ih]

/-- The search of lines 54-61 finds the last file that references the lane. -/
theorem findFileForLane_eq_last (md : Metadata) (laneID : String) :
    findFileForLane md laneID =
      match lastFileFor md laneID with
      | some file => (true, file.Url)
      | none => (false, "") :=
  findFile_foldl_eq_last laneID md.Files (false, "")

theorem lastFileFor_of_found {md : Metadata} {laneID : String}
    (h : (findFileForLane md laneID).1 = true) :
    ∃ file, lastFileFor md laneID = some file ∧ (findFileForLane md laneID).2 = file.Url := by
  have e := findFileForLane_eq_last md laneID
  cases hl : lastFileFor md laneID with
  | none => rw [hl] at e; rw [e] at h; simp at h
  | some file => rw [hl] at e; exact ⟨file, rfl, by rw [e]⟩

theorem laneBlocks_foldlM_url (BitWidth : SampleFormat → Nat → Nat) (md : Metadata)
    (info : SampleStreamInfo) (blocks : List Block) (st r : LaneInterpreter × SampleSinkFactory)
    (h : blocks.foldlM (laneBlocks BitWidth md info) st = some r) :
    r.1.FileURL = st.1.FileURL := by
  induction blocks generalizing st with
  | nil =>
    simp only [List.foldlM_nil, pure, Option.some.injEq] at h
    rw [← h]
  | cons block rest ih =>
    rw [List.foldlM_cons] at h
    cases h1 : laneBlocks BitWidth md info st block with
    | none => simp [h1] at h
    | some st1 =>
      simp only [h1, Option.bind_eq_bind, Option.some_bind] at h
      rw [ih st1 h]
      unfold laneBlocks at h1
      obtain ⟨rb, -, hrb⟩ := Option.map_eq_some'.mp h1
      rw [← hrb]
      rfl

theorem openLanes_cons_nosys (BitWidth : SampleFormat → Nat → Nat) (canOpen : String → Bool)
    (md : Metadata) ( path_prefix : String) (lane : Lane) (rest : List Lane)
    (info : SampleStreamInfo) (c : SampleConverter)
    (hfound : (findFileForLane md lane.Id).1 = true)
    (hsys : lane.Systems.head? = none) :
    openLanes BitWidth canOpen md path_prefix (lane :: rest) info c = OpenResult.undefined := by
  rw [openLanes]
  simp only [hfound, hsys]
  rfl

theorem openLanes_cons_noblocks (BitWidth : SampleFormat → Nat → Nat) (canOpen : String → Bool)
    (md : Metadata) ( path_prefix : String) (lane : Lane) (rest : List Lane)
    (info : SampleStreamInfo) (c : SampleConverter) (sysRef : System)
    (hfound : (findFileForLane md lane.Id).1 = true)
    (hsys : lane.Systems.head? = some sysRef)
    (hr : lane.Blocks.foldlM (laneBlocks BitWidth md
        ⟨(SearchSystem ⟨"", 0⟩ md sysRef.Id).BaseFrequency, info.mSampleFrequency,
          info.mQuantization, info.mIsComplexSamples, info.mCenterFrequency,
          info.mTranslatedFrequency, info.mDelayBias⟩)
        (⟨(findFileForLane md lane.Id).2, []⟩, c.mSampleSinkFactory) = none) :
    openLanes BitWidth canOpen md path_prefix (lane :: rest) info c = OpenResult.undefined := by
  rw [openLanes]
  simp only [hfound, hsys, hr]
  rfl

theorem laneFileEntries_length (canOpen : String → Bool) ( path_prefix : String) (n : Nat)
    (L : List LaneInterpreter) : (laneFileEntries canOpen path_prefix n L).length = L.length := by
  induction L generalizing n with
  | nil => rfl
  | cons li rest ih => simp [laneFileEntries, ih]

theorem laneFileEntries_getElem? (canOpen : String → Bool) ( path_prefix : String) (n k : Nat)
    (L : List LaneInterpreter) (li : LaneInterpreter) (h : L[k]? = some li) :
    (laneFileEntries canOpen path_prefix n L)[k]? =
      some (n + k, ⟨ path_prefix ++ li.FileURL, canOpen ( path_prefix ++ li.FileURL)⟩) := by
  induction L generalizing n k with
  | nil => simp at h
  | cons x rest ih =>
    cases k with
    | zero =>
      simp only [List.getElem?_cons_zero, Option.some.injEq] at h
      subst h
      simp [laneFileEntries]
    | succ k =>
      simp only [List.getElem?_cons_succ] at h
      simp only [laneFileEntries, List.getElem?_cons_succ]
      rw [ih (n + 1) k h]
      congr 2
      omega

/-- The state in which the loop over the lanes ends when it returns or throws:
one lane interpreter and one byte source have been appended for each lane of an
initial segment of `lanes`, each lane interpreter bound to the file found for
its lane, and the segment reaches every lane that has a file and is preceded
only by lanes that do not fail. -/
theorem openLanes_outcome (BitWidth : SampleFormat → Nat → Nat) (canOpen : String → Bool)
    (md : Metadata) ( path_prefix : String) (lanes : List Lane) (info : SampleStreamInfo)
    (c c1 : SampleConverter)
    (h : (openLanes BitWidth canOpen md path_prefix lanes info c).converter = some c1) :
    ∃ L, c1.mLaneInterps = c.mLaneInterps ++ L ∧
      c1.mLaneFiles =
        c.mLaneFiles ++ laneFileEntries canOpen path_prefix c.mLaneInterps.length L ∧
      L.length ≤ lanes.length ∧
      (∀ (k : Nat) (lane : Lane) (li : LaneInterpreter),
        lanes[k]? = some lane → L[k]? = some li → LaneBound md lane li) ∧
      (∀ (k : Nat) (lane : Lane), lanes[k]? = some lane →
        (∀ l ∈ lanes.take k, ¬ LaneFails canOpen md path_prefix l) →
        (findFileForLane md lane.Id).1 = true → k < L.length) := by
  induction lanes generalizing info c with
  | nil =>
    simp only [openLanes, OpenResult.converter, Option.some.injEq] at h
    subst h
    exact ⟨[], by simp, by simp [laneFileEntries], by simp, by simp, by simp⟩
  | cons lane rest ih =>
    cases hfound : (findFileForLane md lane.Id).1 with
    | false =>
      rw [openLanes_cons_nofile BitWidth canOpen md path_prefix lane rest info c hfound] at h
      simp only [OpenResult.converter, Option.some.injEq] at h
      subst h
      refine ⟨[], by simp, by simp [laneFileEntries], by simp, by simp, ?_⟩
      intro k lane1 hk hpre hf
      exfalso
      cases k with
      | zero =>
        simp only [List.getElem?_cons_zero, Option.some.injEq] at hk
        subst hk
        rw [hfound] at hf
        exact Bool.noConfusion hf
      | succ k =>
        exact hpre lane (by simp)
          (Or.inl ((findFileForLane_fst_eq_false_iff md lane.Id).mp hfound))
    | true =>
      cases hsys : lane.Systems.head? with
      | none =>
        rw [openLanes_cons_nosys BitWidth canOpen md path_prefix lane rest info c hfound hsys] at h
        simp [OpenResult.converter] at h
      | some sysRef =>
        cases hr : lane.Blocks.foldlM (laneBlocks BitWidth md
            ⟨(SearchSystem ⟨"", 0⟩ md sysRef.Id).BaseFrequency, info.mSampleFrequency,
              info.mQuantization, info.mIsComplexSamples, info.mCenterFrequency,
              info.mTranslatedFrequency, info.mDelayBias⟩)
            (⟨(findFileForLane md lane.Id).2, []⟩, c.mSampleSinkFactory) with
        | none =>
          rw [openLanes_cons_noblocks BitWidth canOpen md path_prefix lane rest info c sysRef
            hfound hsys hr] at h
          simp [OpenResult.converter] at h
        | some r =>
          have hurl : r.1.FileURL = (findFileForLane md lane.Id).2 :=
            laneBlocks_foldlM_url BitWidth md _ lane.Blocks _ r hr
          cases hopen : canOpen ( path_prefix ++ r.1.FileURL) with
          | false =>
            rw [openLanes_cons_noopen BitWidth canOpen md path_prefix lane rest info c sysRef r
              hfound hsys hr hopen] at h
            simp only [OpenResult.converter, Option.some.injEq] at h
            subst h
            refine ⟨[r.1], rfl, ?_, by simp, ?_, ?_⟩
            · simp only [laneFileEntries, hopen]
            · intro k lane1 li hk hli
              cases k with
              | zero =>
                simp only [List.getElem?_cons_zero, Option.some.injEq] at hk hli
                subst hk; subst hli
                exact ⟨hfound, hurl⟩
              | succ k => simp at hli
            · intro k lane1 hk hpre hf
              cases k with
              | zero => simp
              | succ k =>
                exfalso
                apply hpre lane (by simp)
                right
                rw [← hurl]
                exact hopen
          | true =>
            rw [openLanes_cons_next BitWidth canOpen md path_prefix lane rest info c sysRef r
              hfound hsys hr hopen] at h
            obtain ⟨L, h1, h2, h3, h4, h5⟩ := ih _ _ h
            simp only at h1 h2
            refine ⟨r.1 :: L, ?_, ?_, by simp [h3], ?_, ?_⟩
            · rw [h1]; simp
            · rw [h2]
              simp [laneFileEntries, hopen]
            · intro k lane1 li hk hli
              cases k with
              | zero =>
                simp only [List.getElem?_cons_zero, Option.some.injEq] at hk hli
                subst hk; subst hli
                exact ⟨hfound, hurl⟩
              | succ k =>
                simp only [List.getElem?_cons_succ] at hk hli
                exact h4 k lane1 li hk hli
            · intro k lane1 hk hpre hf
              cases k with
              | zero => simp
              | succ k =>
                simp only [List.getElem?_cons_succ] at hk
                have := h5 k lane1 hk (fun l hl => hpre l (by simp [hl])) hf
                simp only [List.length_cons]
                omega

/-- What the loop over the lanes throws, and that a throw leaves `mIsOpen` as it
was. -/
theorem openLanes_threw_what (BitWidth : SampleFormat → Nat → Nat) (canOpen : String → Bool)
    (md : Metadata) ( path_prefix : String) (lanes : List Lane) (info : SampleStreamInfo)
    (c c1 : SampleConverter) (what : String)
    (h : openLanes BitWidth canOpen md path_prefix lanes info c = OpenResult.threw what c1) :
    (what = "SampleConverter: No file found for Lane" ∨
        what = "SampleConverter: Could not open file") ∧ c1.mIsOpen = c.mIsOpen := by
  induction lanes generalizing info c with
  | nil =>
    rw [openLanes] at h
    exact OpenResult.noConfusion h
  | cons lane rest ih =>
    cases hfound : (findFileForLane md lane.Id).1 with
    | false =>
      rw [openLanes_cons_nofile BitWidth canOpen md path_prefix lane rest info c hfound] at h
      injection h with hw hc
      exact ⟨Or.inl hw.symm, by rw [← hc]⟩
    | true =>
      cases hsys : lane.Systems.head? with
      | none =>
        rw [openLanes_cons_nosys BitWidth canOpen md path_prefix lane rest info c hfound hsys] at h
        exact OpenResult.noConfusion h
      | some sysRef =>
        cases hr : lane.Blocks.foldlM (laneBlocks BitWidth md
            ⟨(SearchSystem ⟨"", 0⟩ md sysRef.Id).BaseFrequency, info.mSampleFrequency,
              info.mQuantization, info.mIsComplexSamples, info.mCenterFrequency,
              info.mTranslatedFrequency, info.mDelayBias⟩)
            (⟨(findFileForLane md lane.Id).2, []⟩, c.mSampleSinkFactory) with
        | none =>
          rw [openLanes_cons_noblocks BitWidth canOpen md path_prefix lane rest info c sysRef
            hfound hsys hr] at h
          exact OpenResult.noConfusion h
        | some r =>
          cases hopen : canOpen ( path_prefix ++ r.1.FileURL) with
          | false =>
            rw [openLanes_cons_noopen BitWidth canOpen md path_prefix lane rest info c sysRef r
              hfound hsys hr hopen] at h
            injection h with hw hc
            exact ⟨Or.inr hw.symm, by rw [← hc]⟩
          | true =>
            rw [openLanes_cons_next BitWidth canOpen md path_prefix lane rest info c sysRef r
              hfound hsys hr hopen] at h
            have hrec := ih _ _ h
            exact ⟨hrec.1, hrec.2⟩

/-- The loop over the lanes `pre ++ rest`, none of `pre` failing: it runs into
undefined behaviour in `pre`, or it reaches `rest` with `mIsOpen` unchanged and
one lane interpreter and one byte source appended per lane of `pre`.  When the
lanes of `pre` are defined it reaches `rest`. -/
theorem openLanes_append_of_not_fails (BitWidth : SampleFormat → Nat → Nat)
    (canOpen : String → Bool) (md : Metadata) ( path_prefix : String) (pre rest : List Lane)
    (info : SampleStreamInfo) (c : SampleConverter)
    (hok : ∀ l ∈ pre, ¬ LaneFails canOpen md path_prefix l) :
    (openLanes BitWidth canOpen md path_prefix (pre ++ rest) info c = OpenResult.undefined ∧
        ¬ ∀ l ∈ pre, LaneDefined l) ∨
      ∃ info1 c1, openLanes BitWidth canOpen md path_prefix (pre ++ rest) info c =
          openLanes BitWidth canOpen md path_prefix rest info1 c1 ∧
        c1.mIsOpen = c.mIsOpen ∧
        ∃ L, L.length = pre.length ∧ c1.mLaneInterps = c.mLaneInterps ++ L ∧
          c1.mLaneFiles =
            c.mLaneFiles ++ laneFileEntries canOpen path_prefix c.mLaneInterps.length L := by
  induction pre generalizing info c with
  | nil => exact Or.inr ⟨info, c, rfl, rfl, [], rfl, by simp, by simp [laneFileEntries]⟩
  | cons lane pre1 ih =>
    have hlane := hok lane (by simp)
    simp only [LaneFails, not_or] at hlane
    obtain ⟨hfile, hopen0⟩ := hlane
    have hfound : (findFileForLane md lane.Id).1 = true := by
      cases hf : (findFileForLane md lane.Id).1 with
      | true => rfl
      | false => exact absurd ((findFileForLane_fst_eq_false_iff md lane.Id).mp hf) hfile
    rw [List.cons_append]
    cases hsys : lane.Systems.head? with
    | none =>
      left
      refine ⟨openLanes_cons_nosys BitWidth canOpen md path_prefix lane _ info c hfound hsys, ?_⟩
      intro hd
      obtain ⟨a, ha⟩ := head?_of_ne_nil (hd lane (by simp)).1
      rw [hsys] at ha
      exact Option.noConfusion ha
    | some sysRef =>
      cases hr : lane.Blocks.foldlM (laneBlocks BitWidth md
          ⟨(SearchSystem ⟨"", 0⟩ md sysRef.Id).BaseFrequency, info.mSampleFrequency,
            info.mQuantization, info.mIsComplexSamples, info.mCenterFrequency,
            info.mTranslatedFrequency, info.mDelayBias⟩)
          (⟨(findFileForLane md lane.Id).2, []⟩, c.mSampleSinkFactory) with
      | none =>
        left
        refine ⟨openLanes_cons_noblocks BitWidth canOpen md path_prefix lane _ info c sysRef
          hfound hsys hr, ?_⟩
        intro hd
        obtain ⟨r, hr1, -⟩ := laneBlocks_foldlM_spec BitWidth md
          ⟨(SearchSystem ⟨"", 0⟩ md sysRef.Id).BaseFrequency, info.mSampleFrequency,
            info.mQuantization, info.mIsComplexSamples, info.mCenterFrequency,
            info.mTranslatedFrequency, info.mDelayBias⟩
          lane.Blocks ⟨(findFileForLane md lane.Id).2, []⟩ c.mSampleSinkFactory
          (hd lane (by simp)).2
        rw [hr] at hr1
        exact Option.noConfusion hr1
      | some r =>
        have hurl : r.1.FileURL = (findFileForLane md lane.Id).2 :=
          laneBlocks_foldlM_url BitWidth md _ lane.Blocks _ r hr
        have hopen : canOpen ( path_prefix ++ r.1.FileURL) = true := by
          rw [hurl]
          cases ho : canOpen ( path_prefix ++ (findFileForLane md lane.Id).2) with
          | true => rfl
          | false => exact absurd ho hopen0
        rw [openLanes_cons_next BitWidth canOpen md path_prefix lane _ info c sysRef r
          hfound hsys hr hopen]
        rcases ih
          ⟨(SearchSystem ⟨"", 0⟩ md sysRef.Id).BaseFrequency, info.mSampleFrequency,
            info.mQuantization, info.mIsComplexSamples, info.mCenterFrequency,
            info.mTranslatedFrequency, info.mDelayBias⟩
          ⟨c.mIsOpen, c.mLaneInterps ++ [r.1],
            c.mLaneFiles ++ [(c.mLaneInterps.length, ⟨ path_prefix ++ r.1.FileURL, true⟩)], r.2⟩
          (fun l hl => hok l (by simp [hl])) with ⟨hu, hnd⟩ | ⟨info1, c1, he, ho, L, hL, h1, h2⟩
        · left
          exact ⟨hu, fun hd => hnd (fun l hl => hd l (by simp [hl]))⟩
        · right
          simp only at ho h1 h2
          refine ⟨info1, c1, he, ho, r.1 :: L, by simp [hL], ?_, ?_⟩
          · rw [h1]; simp
          · rw [h2]
            simp [laneFileEntries, hopen]

/-! ## The position of the sample units in the plan -/

theorem streamsUnits_append (BitWidth : SampleFormat → Nat → Nat) (lump : Lump)
    (R lr per : Nat) (xs ys : List IonStream) (t : Nat) :
    streamsUnits BitWidth lump R lr per (xs ++ ys) t =
      streamsUnits BitWidth lump R lr per xs t ++
        streamsUnits BitWidth lump R lr per ys
          (xs.foldl (fun t x => uint16_t (t + numSmpInterp x)) t) := by
  induction xs generalizing t with
  | nil => simp [streamsUnits]
  | cons x rest ih =>
    rw [List.cons_append, streamsUnits, streamsUnits, ih, List.foldl_cons, List.append_assoc]

theorem foldl_numSmpInterp_eq (xs : List IonStream) (t : Nat) (ht : t < 2 ^ 16) :
    xs.foldl (fun t x => uint16_t (t + numSmpInterp x)) t =
      (t + (xs.map IonStream.RateFactor).sum) % 2 ^ 16 := by
  induction xs generalizing t with
  | nil => simp only [List.foldl_nil, List.map_nil, List.sum_nil]; omega
  | cons x rest ih =>
    rw [List.foldl_cons, ih _ (uint16_t_lt _), numSmpInterp_eq_mod]
    simp only [List.map_cons, List.sum_cons, uint16_t]
    omega

theorem createSampleInterpreters_eq_map (BitWidth : SampleFormat → Nat → Nat) (s : IonStream)
    (n c : Nat) :
    createSampleInterpreters BitWidth s n c =
      ((createSampleInterpreters BitWidth s n c).map SampleInterpreter.callOrder).map
        (fun co => (⟨unitBitWidth BitWidth s, co, some s.toString⟩ : SampleInterpreter)) := by
  induction n generalizing c with
  | zero => rfl
  | succ n ih =>
    rw [createSampleInterpreters, List.map_cons, List.map_cons, ← ih]

/-- The sample units of a stream in a repetition are the units of the
specification's formula, one for each of the `RateFactor mod 2^16` indices. -/
theorem sampleUnits_streamSplIntrps_formula (BitWidth : SampleFormat → Nat → Nat)
    (chunk : Chunk) (lump : Lump) (pre : List IonStream) (s : IonStream) (lr t : Nat)
    (ht : t = (pre.map IonStream.RateFactor).sum % 2 ^ 16) :
    sampleUnits (streamSplIntrps BitWidth lump (lnLumpRepeat chunk lump) lr
        (numSampleInterpretersPerLump lump) t s) =
      (List.range (s.RateFactor % 2 ^ 16)).map (claimedUnit BitWidth chunk lump pre s lr) := by
  have h := callOrder_streamSplIntrps_formula BitWidth chunk lump pre s lr t ht
  rw [sampleUnits_streamSplIntrps] at h ⊢
  rw [createSampleInterpreters_eq_map, h, List.map_map]
  rfl

theorem range_split {lr R : Nat} (h : lr < R) :
    ∃ back, List.range R = List.range lr ++ lr :: back := by
  induction R with
  | zero => omega
  | succ R ih =>
    rw [List.range_succ]
    rcases Nat.lt_succ_iff_lt_or_eq.mp h with h1 | h1
    · obtain ⟨back, hb⟩ := ih h1
      exact ⟨back ++ [R], by rw [hb]; simp⟩
    · subst h1
      exact ⟨[], rfl⟩

/-- The sample units of the closed-form plan, cut at the units of the stream
declared after `pre` in repetition `lr` of `lump`. -/
theorem sampleUnits_lumpsUnits_split (BitWidth : SampleFormat → Nat → Nat) (chunk : Chunk)
    (preL : List Lump) (lump : Lump) (postL : List Lump) (pre : List IonStream) (s : IonStream)
    (post : List IonStream) (lr : Nat)
    (hlumps : chunk.Lumps = preL ++ lump :: postL) (hs : lump.Streams = pre ++ s :: post)
    (hlr : lr < lnLumpRepeat chunk lump) :
    ∃ before after, sampleUnits (lumpsUnits BitWidth chunk) =
        before ++ (List.range (s.RateFactor % 2 ^ 16)).map
          (claimedUnit BitWidth chunk lump pre s lr) ++ after ∧
      before.length = unitsBefore chunk preL lump pre lr := by
  obtain ⟨back, hback⟩ := range_split hlr
  have hrep : lumpRepeatUnits BitWidth chunk lump lr =
      streamsUnits BitWidth lump (lnLumpRepeat chunk lump) lr (numSampleInterpretersPerLump lump)
          pre 0 ++
        (streamSplIntrps BitWidth lump (lnLumpRepeat chunk lump) lr
            (numSampleInterpretersPerLump lump)
            ((pre.map IonStream.RateFactor).sum % 2 ^ 16) s ++
          streamsUnits BitWidth lump (lnLumpRepeat chunk lump) lr
            (numSampleInterpretersPerLump lump) post
            (uint16_t ((pre.map IonStream.RateFactor).sum % 2 ^ 16 + numSmpInterp s))) := by
    unfold lumpRepeatUnits
    rw [hs, streamsUnits_append, foldl_numSmpInterp_eq _ 0 (by norm_num), Nat.zero_add,
      streamsUnits]
  refine ⟨sampleUnits (preL.flatMap (lumpUnits BitWidth chunk)) ++
      (sampleUnits ((List.range lr).flatMap (lumpRepeatUnits BitWidth chunk lump)) ++
        sampleUnits (streamsUnits BitWidth lump (lnLumpRepeat chunk lump) lr
          (numSampleInterpretersPerLump lump) pre 0)),
    sampleUnits (streamsUnits BitWidth lump (lnLumpRepeat chunk lump) lr
        (numSampleInterpretersPerLump lump) post
        (uint16_t ((pre.map IonStream.RateFactor).sum % 2 ^ 16 + numSmpInterp s))) ++
      (sampleUnits (back.flatMap (lumpRepeatUnits BitWidth chunk lump)) ++
        sampleUnits (postL.flatMap (lumpUnits BitWidth chunk))), ?_, ?_⟩
  · unfold lumpsUnits
    rw [hlumps, List.flatMap_append, List.flatMap_cons]
    have hlu : lumpUnits BitWidth chunk lump =
        (List.range lr).flatMap (lumpRepeatUnits BitWidth chunk lump) ++
          (lumpRepeatUnits BitWidth chunk lump lr ++
            back.flatMap (lumpRepeatUnits BitWidth chunk lump)) := by
      unfold lumpUnits
      rw [hback, List.flatMap_append, List.flatMap_cons]
    rw [hlu, hrep]
    simp only [sampleUnits_append]
    rw [sampleUnits_streamSplIntrps_formula BitWidth chunk lump pre s lr _ rfl]
    simp only [List.append_assoc]
  · rw [List.length_append, List.length_append, length_sampleUnits_lumps,
      length_sampleUnits_flatMap_const _ (lumpSampleCount lump), List.length_range,
      length_sampleUnits_streamsUnits]
    · unfold unitsBefore
      omega
    · intro a _
      exact length_sampleUnits_streamsUnits BitWidth lump _ a _ lump.Streams 0

/-! ## The stream metadata records that `Open` leaves behind -/

/-- The record that a chunk build leaves for a stream of a repeated lump whose
identity is unique in the chunk. -/
theorem CreateChunkInterpreter_record (BitWidth : SampleFormat → Nat → Nat) (wordBytes : Nat)
    (factory : SampleSinkFactory) (md : Metadata) (info : SampleStreamInfo) (chunk : Chunk)
    (lump : Lump) (s : IonStream) (bandRef band : Band)
    (r : Bool × ChunkInterpreter × SampleSinkFactory)
    (hr : CreateChunkInterpreter BitWidth wordBytes factory md info chunk = some r)
    (hl : lump ∈ chunk.Lumps) (hs : s ∈ lump.Streams) (hrep : lnLumpRepeat chunk lump ≠ 0)
    (huniq : ∀ l ∈ chunk.Lumps, ∀ x ∈ l.Streams, x.toString = s.toString → x = s)
    (hband : s.Bands.head? = some bandRef)
    (hfound : md.Bands.find? (fun b => b.Id == bandRef.Id) = some band) :
    r.2.2.GetSampleStreamInfo s.toString =
      some ⟨info.mBaseFrequency, (s.RateFactor : ℚ) * info.mBaseFrequency, s.Quantization,
        decide (s.Format ≠ SampleFormat.IF ∧ s.Format ≠ SampleFormat.IFn),
        band.CenterFrequency, band.TranslatedFrequency, band.DelayBias⟩ := by
  obtain ⟨b, hfold, hfac⟩ := fold_of_CreateChunkInterpreter hr
  rw [hfac]
  have hv : streamInfo md info s bandRef =
      ⟨info.mBaseFrequency, (s.RateFactor : ℚ) * info.mBaseFrequency, s.Quantization,
        decide (s.Format ≠ SampleFormat.IF ∧ s.Format ≠ SampleFormat.IFn),
        band.CenterFrequency, band.TranslatedFrequency, band.DelayBias⟩ := by
    simp [streamInfo, SearchBand, hfound]
  rw [← hv]
  apply lumps_foldlM_info s.toString (streamInfo md info s bandRef) chunk.Lumps hfold
  · intro l hl1 x hx hxn bref hbref
    have := huniq l hl1 x hx hxn
    subst this
    rw [hband] at hbref
    simp only [Option.some.injEq] at hbref
    rw [hbref]
  · exact Or.inr ⟨lump, hl, hrep, s, hs, rfl⟩

/-- A chunk build keeps the record of an identity that no stream of the chunk
has. -/
theorem CreateChunkInterpreter_record_kept {BitWidth : SampleFormat → Nat → Nat}
    {wordBytes : Nat} {factory : SampleSinkFactory} {md : Metadata} {info : SampleStreamInfo}
    {chunk : Chunk} {r : Bool × ChunkInterpreter × SampleSinkFactory} (name : String)
    (v : SampleStreamInfo)
    (hr : CreateChunkInterpreter BitWidth wordBytes factory md info chunk = some r)
    (hname : name ∉ chunk.streamNames)
    (hv : factory.GetSampleStreamInfo name = some v) :
    r.2.2.GetSampleStreamInfo name = some v := by
  obtain ⟨b, hfold, hfac⟩ := fold_of_CreateChunkInterpreter hr
  rw [hfac]
  apply lumps_foldlM_info name v chunk.Lumps hfold
  · intro l hl x hx hxn
    exfalso
    apply hname
    unfold Chunk.streamNames
    rw [List.mem_flatMap]
    exact ⟨l, hl, List.mem_map.mpr ⟨x, hx, hxn⟩⟩
  · exact Or.inl hv

theorem blockChunks_record_kept {BitWidth : SampleFormat → Nat → Nat} {md : Metadata}
    {info : SampleStreamInfo} (name : String) (v : SampleStreamInfo) (chunks : List Chunk)
    {bi : BlockInterpreter} {factory : SampleSinkFactory}
    {r : Bool × BlockInterpreter × SampleSinkFactory}
    (hr : blockChunks BitWidth md info chunks bi factory = some r)
    (hname : ∀ ch ∈ chunks, name ∉ ch.streamNames)
    (hv : factory.GetSampleStreamInfo name = some v) :
    r.2.2.GetSampleStreamInfo name = some v := by
  induction chunks generalizing bi factory with
  | nil =>
    simp only [blockChunks, Option.some.injEq] at hr
    rw [← hr]; exact hv
  | cons chunk rest ih =>
    rw [blockChunks] at hr
    cases hw : chunkWordBytes chunk.SizeWord with
    | none =>
      simp only [hw, Option.some.injEq] at hr
      rw [← hr]; exact hv
    | some wordBytes =>
      simp only [hw] at hr
      cases hc : CreateChunkInterpreter BitWidth wordBytes factory md info chunk with
      | none => simp [hc] at hr
      | some r1 =>
        simp only [hc] at hr
        exact ih hr (fun ch hch => hname ch (by simp [hch]))
          (CreateChunkInterpreter_record_kept name v hc (hname chunk (by simp)) hv)

/-- The loop over the chunks of a block that reaches `chunk` leaves the record
of a stream of `chunk` whose identity no later chunk has. -/
theorem blockChunks_record {BitWidth : SampleFormat → Nat → Nat} {md : Metadata}
    {info : SampleStreamInfo} (preC : List Chunk) (chunk : Chunk) (postC : List Chunk)
    (lump : Lump) (s : IonStream) (bandRef band : Band)
    {bi : BlockInterpreter} {factory : SampleSinkFactory}
    {r : Bool × BlockInterpreter × SampleSinkFactory}
    (hr : blockChunks BitWidth md info (preC ++ chunk :: postC) bi factory = some r)
    (hpreC : ∀ ch ∈ preC, chunkWordBytes ch.SizeWord ≠ none)
    (hw : chunkWordBytes chunk.SizeWord ≠ none)
    (hl : lump ∈ chunk.Lumps) (hs : s ∈ lump.Streams) (hrep : lnLumpRepeat chunk lump ≠ 0)
    (huniq : ∀ l ∈ chunk.Lumps, ∀ x ∈ l.Streams, x.toString = s.toString → x = s)
    (hlaterC : ∀ ch ∈ postC, s.toString ∉ ch.streamNames)
    (hband : s.Bands.head? = some bandRef)
    (hfound : md.Bands.find? (fun b => b.Id == bandRef.Id) = some band) :
    r.2.2.GetSampleStreamInfo s.toString =
      some ⟨info.mBaseFrequency, (s.RateFactor : ℚ) * info.mBaseFrequency, s.Quantization,
        decide (s.Format ≠ SampleFormat.IF ∧ s.Format ≠ SampleFormat.IFn),
        band.CenterFrequency, band.TranslatedFrequency, band.DelayBias⟩ := by
  induction preC generalizing bi factory with
  | nil =>
    rw [List.nil_append, blockChunks] at hr
    cases hwb : chunkWordBytes chunk.SizeWord with
    | none => exact absurd hwb hw
    | some wordBytes =>
      simp only [hwb] at hr
      cases hc : CreateChunkInterpreter BitWidth wordBytes factory md info chunk with
      | none => simp [hc] at hr
      | some r1 =>
        simp only [hc] at hr
        exact blockChunks_record_kept s.toString _ postC hr hlaterC
          (CreateChunkInterpreter_record BitWidth wordBytes factory md info chunk lump s bandRef
            band r1 hc hl hs hrep huniq hband hfound)
  | cons ch rest ih =>
    rw [List.cons_append, blockChunks] at hr
    cases hwb : chunkWordBytes ch.SizeWord with
    | none => exact absurd hwb (hpreC ch (by simp))
    | some wordBytes =>
      simp only [hwb] at hr
      cases hc : CreateChunkInterpreter BitWidth wordBytes factory md info ch with
      | none => simp [hc] at hr
      | some r1 =>
        simp only [hc] at hr
        exact ih hr (fun x hx => hpreC x (by simp [hx]))

theorem laneBlocks_foldlM_record_kept {BitWidth : SampleFormat → Nat → Nat} {md : Metadata}
    {info : SampleStreamInfo} (name : String) (v : SampleStreamInfo) (blocks : List Block)
    {st r : LaneInterpreter × SampleSinkFactory}
    (hr : blocks.foldlM (laneBlocks BitWidth md info) st = some r)
    (hname : ∀ b ∈ blocks, name ∉ b.streamNames)
    (hv : st.2.GetSampleStreamInfo name = some v) :
    r.2.GetSampleStreamInfo name = some v := by
  induction blocks generalizing st with
  | nil =>
    simp only [List.foldlM_nil, pure, Option.some.injEq] at hr
    rw [← hr]; exact hv
  | cons block rest ih =>
    rw [List.foldlM_cons] at hr
    cases h1 : laneBlocks BitWidth md info st block with
    | none => simp [h1] at hr
    | some st1 =>
      simp only [h1, Option.bind_eq_bind, Option.some_bind] at hr
      apply ih hr (fun b hb => hname b (by simp [hb]))
      unfold laneBlocks CreateBlockInterpreter at h1
      obtain ⟨rb, hrb, hst1⟩ := Option.map_eq_some'.mp h1
      rw [← hst1]
      apply blockChunks_record_kept name v block.Chunks hrb _ hv
      intro ch hch hmem
      apply hname block (by simp)
      unfold Block.streamNames
      rw [List.mem_flatMap]
      exact ⟨ch, hch, hmem⟩

/-- The loop over the blocks of a lane leaves the record of a stream of a chunk
that the build reaches, when no later chunk or block has its identity. -/
theorem laneBlocks_foldlM_record {BitWidth : SampleFormat → Nat → Nat} {md : Metadata}
    {info : SampleStreamInfo} (preB : List Block) (block : Block) (postB : List Block)
    (preC : List Chunk) (chunk : Chunk) (postC : List Chunk)
    (lump : Lump) (s : IonStream) (bandRef band : Band)
    {st r : LaneInterpreter × SampleSinkFactory}
    (hr : (preB ++ block :: postB).foldlM (laneBlocks BitWidth md info) st = some r)
    (hchunks : block.Chunks = preC ++ chunk :: postC)
    (hpreC : ∀ ch ∈ preC, chunkWordBytes ch.SizeWord ≠ none)
    (hw : chunkWordBytes chunk.SizeWord ≠ none)
    (hl : lump ∈ chunk.Lumps) (hs : s ∈ lump.Streams) (hrep : lnLumpRepeat chunk lump ≠ 0)
    (huniq : ∀ l ∈ chunk.Lumps, ∀ x ∈ l.Streams, x.toString = s.toString → x = s)
    (hlaterC : ∀ ch ∈ postC, s.toString ∉ ch.streamNames)
    (hlaterB : ∀ b ∈ postB, s.toString ∉ b.streamNames)
    (hband : s.Bands.head? = some bandRef)
    (hfound : md.Bands.find? (fun b => b.Id == bandRef.Id) = some band) :
    r.2.GetSampleStreamInfo s.toString =
      some ⟨info.mBaseFrequency, (s.RateFactor : ℚ) * info.mBaseFrequency, s.Quantization,
        decide (s.Format ≠ SampleFormat.IF ∧ s.Format ≠ SampleFormat.IFn),
        band.CenterFrequency, band.TranslatedFrequency, band.DelayBias⟩ := by
  induction preB generalizing st with
  | nil =>
    rw [List.nil_append, List.foldlM_cons] at hr
    cases h1 : laneBlocks BitWidth md info st block with
    | none => simp [h1] at hr
    | some st1 =>
      simp only [h1, Option.bind_eq_bind, Option.some_bind] at hr
      apply laneBlocks_foldlM_record_kept s.toString _ postB hr hlaterB
      unfold laneBlocks CreateBlockInterpreter at h1
      obtain ⟨rb, hrb, hst1⟩ := Option.map_eq_some'.mp h1
      rw [← hst1]
      rw [hchunks] at hrb
      exact blockChunks_record preC chunk postC lump s bandRef band hrb hpreC hw hl hs hrep
        huniq hlaterC hband hfound
  | cons b rest ih =>
    rw [List.cons_append, List.foldlM_cons] at hr
    cases h1 : laneBlocks BitWidth md info st b with
    | none => simp [h1] at hr
    | some st1 =>
      simp only [h1, Option.bind_eq_bind, Option.some_bind] at hr
      exact ih hr

/-- The loop over the lanes keeps the record of an identity that no stream of
these lanes has. -/
theorem openLanes_record_kept (BitWidth : SampleFormat → Nat → Nat) (canOpen : String → Bool)
    (md : Metadata) ( path_prefix : String) (name : String) (v : SampleStreamInfo)
    (lanes : List Lane) (info : SampleStreamInfo) (c c1 : SampleConverter)
    (h : (openLanes BitWidth canOpen md path_prefix lanes info c).converter = some c1)
    (hname : ∀ lane ∈ lanes, name ∉ lane.streamNames)
    (hv : c.mSampleSinkFactory.GetSampleStreamInfo name = some v) :
    c1.mSampleSinkFactory.GetSampleStreamInfo name = some v := by
  induction lanes generalizing info c with
  | nil =>
    simp only [openLanes, OpenResult.converter, Option.some.injEq] at h
    rw [← h]; exact hv
  | cons lane rest ih =>
    cases hfound : (findFileForLane md lane.Id).1 with
    | false =>
      rw [openLanes_cons_nofile BitWidth canOpen md path_prefix lane rest info c hfound] at h
      simp only [OpenResult.converter, Option.some.injEq] at h
      rw [← h]; exact hv
    | true =>
      cases hsys : lane.Systems.head? with
      | none =>
        rw [openLanes_cons_nosys BitWidth canOpen md path_prefix lane rest info c hfound hsys] at h
        simp [OpenResult.converter] at h
      | some sysRef =>
        cases hr : lane.Blocks.foldlM (laneBlocks BitWidth md
            ⟨(SearchSystem ⟨"", 0⟩ md sysRef.Id).BaseFrequency, info.mSampleFrequency,
              info.mQuantization, info.mIsComplexSamples, info.mCenterFrequency,
              info.mTranslatedFrequency, info.mDelayBias⟩)
            (⟨(findFileForLane md lane.Id).2, []⟩, c.mSampleSinkFactory) with
        | none =>
          rw [openLanes_cons_noblocks BitWidth canOpen md path_prefix lane rest info c sysRef
            hfound hsys hr] at h
          simp [OpenResult.converter] at h
        | some r =>
          have hkept : r.2.GetSampleStreamInfo name = some v := by
            apply laneBlocks_foldlM_record_kept name v lane.Blocks hr _ hv
            intro b hb hmem
            apply hname lane (by simp)
            unfold Lane.streamNames
            rw [List.mem_flatMap]
            exact ⟨b, hb, hmem⟩
          cases hopen : canOpen ( path_prefix ++ r.1.FileURL) with
          | false =>
            rw [openLanes_cons_noopen BitWidth canOpen md path_prefix lane rest info c sysRef r
              hfound hsys hr hopen] at h
            simp only [OpenResult.converter, Option.some.injEq] at h
            rw [← h]; exact hkept
          | true =>
            rw [openLanes_cons_next BitWidth canOpen md path_prefix lane rest info c sysRef r
              hfound hsys hr hopen] at h
            exact ih _ _ h (fun l hl => hname l (by simp [hl])) hkept

/-! ## Claims -/

/-- C1, counterexample: the 16-bit chunk with one 10-bit stream and
`Padding = None` is built, and the widths of its plan add up to 10, not to 16. -/
theorem planBits_ne_capacity_of_padding_none :
    chunkWordBytes (tenBitChunk ChunkPadding.None).SizeWord = some 2 ∧
      chunkPlan fixtureBitWidth 2 emptyFactory fixtureMd SampleStreamInfo.default
        (tenBitChunk ChunkPadding.None) = some [⟨10, 0, some "s0"⟩] ∧
      planBits [⟨10, 0, some "s0"⟩] ≠
        (tenBitChunk ChunkPadding.None).SizeWord * (tenBitChunk ChunkPadding.None).CountWords * 8 := by
  decide

/-- C1, amended: for a chunk built with the word type of its `SizeWord` on which
`CreateChunkInterpreter` completes, the bit widths of all units of the plan
(sample units, stream padding, chunk padding) add up to `SizeWord * CountWords * 8`
provided that the capacity is below `2^32`, the lumps occupy at most the
capacity, every stream of a lump that is repeated fills its `Packedbits`
(`StreamFills`), and the chunk padding is not suppressed (`Padding` is not
`None`, or the lumps occupy the capacity exactly). -/
theorem planBits_eq_capacity (BitWidth : SampleFormat → Nat → Nat) (wordBytes : Nat)
    (factory : SampleSinkFactory) (md : Metadata) (info : SampleStreamInfo) (chunk : Chunk)
    (plan : List SampleInterpreter)
    (hw : chunkWordBytes chunk.SizeWord = some wordBytes)
    (hplan : chunkPlan BitWidth wordBytes factory md info chunk = some plan)
    (hcap : chunkBitCapacity chunk < 2 ^ 32)
    (hfit : bitsConsumed chunk ≤ chunkBitCapacity chunk)
    (hstreams : ∀ lump ∈ chunk.Lumps, lnLumpRepeat chunk lump ≠ 0 →
      ∀ s ∈ lump.Streams, StreamFills BitWidth s)
    (hpad : chunk.Padding ≠ ChunkPadding.None ∨ bitsConsumed chunk = chunkBitCapacity chunk) :
    planBits plan = chunk.SizeWord * chunk.CountWords * 8 := by
  rw [chunkPlan_eq_some hplan]
  have hl : planBits (lumpsUnits BitWidth chunk) = bitsConsumed chunk :=
    planBits_lumps chunk chunk.Lumps hstreams
  have hp := chunkPaddingBits_eq hw hcap hfit
  change _ = chunkBitCapacity chunk
  unfold planOf
  split
  · split
    · rw [planBits_cons, hl]; exact hp
    · rw [planBits_append, planBits_cons, planBits_nil, hl]; simp only; omega
  · rename_i hn
    rw [hl]
    rcases hpad with hpad | hpad
    · have : ¬ 0 < chunkPaddingBits wordBytes chunk := fun hpos => hn ⟨hpos, hpad⟩
      omega
    · exact hpad

/-- C1, witness of `planBits_eq_capacity` (Scenario D): the 16-bit chunk with one
10-bit stream and `Padding = Tail` has the plan `[sample(10), padding(6)]`,
16 bits. -/
theorem planBits_eq_capacity_witness :
    chunkPlan fixtureBitWidth 2 emptyFactory fixtureMd SampleStreamInfo.default
        (tenBitChunk ChunkPadding.Tail) = some [⟨10, 0, some "s0"⟩, ⟨6, 0, none⟩] ∧
      planBits [⟨10, 0, some "s0"⟩, ⟨6, 0, none⟩] = 2 * 1 * 8 :=
  ⟨by decide,
   planBits_eq_capacity fixtureBitWidth 2 emptyFactory fixtureMd SampleStreamInfo.default
    (tenBitChunk ChunkPadding.Tail) [⟨10, 0, some "s0"⟩, ⟨6, 0, none⟩]
    (by decide) (by decide) (by decide) (by decide)
    (by
      intro lump hl _ s hs
      simp only [tenBitChunk, fixtureChunk, List.mem_singleton] at hl
      subst hl
      simp only [tenBitLump, List.mem_singleton] at hs
      subst hs
      simp [StreamFills, fixtureStream, fixtureBitWidth])
    (by decide)⟩

/-- C2, counterexample: a right-shifted stream followed by a left-shifted
stream, both with rate factor 1.  Both sample units get call order 1; the values
are neither distinct nor the range `[0, 2)`. -/
theorem callOrder_collision_right_then_left :
    chunkPlan fixtureBitWidth 4 emptyFactory fixtureMd SampleStreamInfo.default
        (twoStreamChunk StreamShift.shiftRight StreamShift.shiftLeft) =
      some [⟨16, 1, some "s0"⟩, ⟨16, 1, some "s1"⟩] := by
  decide

/-- C2, amended: for a chunk with a single lump whose streams all have the same
shift, on which the build is defined and whose call orders stay below `2^16`,
the call orders of the sample units are pairwise distinct and are exactly the
contiguous range `[offset, offset + totalUnits)`, where `totalUnits` is the
number of sample units of the plan and `offset` is `callOrderOffset`: zero when
the lump and the streams are left-shifted, one more for right-shifted streams
and one repetition more for a right-shifted lump. -/
theorem uniform_shift_callOrders (BitWidth : SampleFormat → Nat → Nat) (wordBytes : Nat)
    (factory : SampleSinkFactory) (md : Metadata) (info : SampleStreamInfo) (chunk : Chunk)
    (lump : Lump) (shift : StreamShift)
    (hlumps : chunk.Lumps = [lump]) (hs : ∀ s ∈ lump.Streams, s.Shift = shift)
    (hd : ChunkDefined chunk)
    (hb : callOrderOffset lump shift +
      lnLumpRepeat chunk lump * (lump.Streams.map IonStream.RateFactor).sum < 2 ^ 16) :
    ∃ plan, chunkPlan BitWidth wordBytes factory md info chunk = some plan ∧
      (sampleUnits plan).length =
        lnLumpRepeat chunk lump * (lump.Streams.map IonStream.RateFactor).sum ∧
      ((sampleUnits plan).map SampleInterpreter.callOrder).Nodup ∧
      ∀ k, k ∈ (sampleUnits plan).map SampleInterpreter.callOrder ↔
        callOrderOffset lump shift ≤ k ∧
          k < callOrderOffset lump shift + (sampleUnits plan).length := by
  refine ⟨planOf BitWidth wordBytes chunk,
    chunkPlan_of_defined BitWidth wordBytes factory md info chunk hd, ?_⟩
  have hperm : ((sampleUnits (planOf BitWidth wordBytes chunk)).map
      SampleInterpreter.callOrder).Perm
      (List.range' (callOrderOffset lump shift)
        (lnLumpRepeat chunk lump * (lump.Streams.map IonStream.RateFactor).sum)) := by
    rw [sampleUnits_planOf]
    unfold lumpsUnits
    rw [hlumps]
    simp only [List.flatMap_cons, List.flatMap_nil, List.append_nil]
    unfold lumpUnits lumpRepeatUnits
    rcases Nat.eq_zero_or_pos (lnLumpRepeat chunk lump) with h0 | h0
    · rw [h0]; simp [sampleUnits]
    · have hper : numSampleInterpretersPerLump lump =
          (lump.Streams.map IonStream.RateFactor).sum := by
        rw [numSampleInterpretersPerLump_eq]
        apply Nat.mod_eq_of_lt
        have := Nat.le_mul_of_pos_left (lump.Streams.map IonStream.RateFactor).sum h0
        omega
      unfold callOrderOffset at hb ⊢
      cases hl : lump.Shift with
      | shiftLeft =>
        simp only [hl, reduceCtorEq, if_false, Nat.zero_add] at hb ⊢
        have := callOrder_repeats_left_perm BitWidth hl (lnLumpRepeat chunk lump)
          (numSampleInterpretersPerLump lump) shift hs hper (lnLumpRepeat chunk lump)
          (by rw [hper]; omega)
        rw [hper] at this ⊢
        exact this
      | shiftRight =>
        simp only [hl, if_true] at hb ⊢
        have hb2 : (lnLumpRepeat chunk lump + 1) * numSampleInterpretersPerLump lump +
            shiftDelta shift < 2 ^ 16 := by
          rw [hper]
          have : (lnLumpRepeat chunk lump + 1) * (lump.Streams.map IonStream.RateFactor).sum =
              lnLumpRepeat chunk lump * (lump.Streams.map IonStream.RateFactor).sum +
                (lump.Streams.map IonStream.RateFactor).sum := by ring
          omega
        have := callOrder_repeats_right_perm BitWidth hl (lnLumpRepeat chunk lump)
          (numSampleInterpretersPerLump lump) shift hs hper (lnLumpRepeat chunk lump)
          (le_refl _) hb2
        rw [hper] at this ⊢
        simpa using this
  have hlen : (sampleUnits (planOf BitWidth wordBytes chunk)).length =
      lnLumpRepeat chunk lump * (lump.Streams.map IonStream.RateFactor).sum := by
    have := hperm.length_eq
    simpa using this
  refine ⟨hlen, hperm.nodup_iff.mpr (List.nodup_range' _ _), fun k => ?_⟩
  rw [hperm.mem_iff, List.mem_range'_1, hlen]

/-- C2, witness of `uniform_shift_callOrders`: two right-shifted streams with rate
factor 1 in a left-shifted lump get the call orders 1 and 2, the range
`[1, 3)`. -/
theorem uniform_shift_callOrders_witness :
    chunkPlan fixtureBitWidth 4 emptyFactory fixtureMd SampleStreamInfo.default
        (twoStreamChunk StreamShift.shiftRight StreamShift.shiftRight) =
        some [⟨16, 1, some "s0"⟩, ⟨16, 2, some "s1"⟩] ∧
      callOrderOffset (twoStreamLump StreamShift.shiftRight StreamShift.shiftRight)
        StreamShift.shiftRight = 1 ∧
      ∃ plan, chunkPlan fixtureBitWidth 4 emptyFactory fixtureMd SampleStreamInfo.default
          (twoStreamChunk StreamShift.shiftRight StreamShift.shiftRight) = some plan ∧
        (sampleUnits plan).length =
          lnLumpRepeat (twoStreamChunk StreamShift.shiftRight StreamShift.shiftRight)
              (twoStreamLump StreamShift.shiftRight StreamShift.shiftRight) *
            ((twoStreamLump StreamShift.shiftRight StreamShift.shiftRight).Streams.map
              IonStream.RateFactor).sum ∧
        ((sampleUnits plan).map SampleInterpreter.callOrder).Nodup ∧
        ∀ k, k ∈ (sampleUnits plan).map SampleInterpreter.callOrder ↔
          callOrderOffset (twoStreamLump StreamShift.shiftRight StreamShift.shiftRight)
              StreamShift.shiftRight ≤ k ∧
            k < callOrderOffset (twoStreamLump StreamShift.shiftRight StreamShift.shiftRight)
              StreamShift.shiftRight + (sampleUnits plan).length :=
  ⟨by decide, by decide,
   uniform_shift_callOrders fixtureBitWidth 4 emptyFactory fixtureMd SampleStreamInfo.default
    (twoStreamChunk StreamShift.shiftRight StreamShift.shiftRight)
    (twoStreamLump StreamShift.shiftRight StreamShift.shiftRight) StreamShift.shiftRight
    (by decide) (by decide) (by unfold ChunkDefined; decide) (by decide)⟩

/-- C3, counterexample: the lump of the 16-bit chunk with one 10-bit stream does
not divide the capacity (1 * 10 is not 16), yet the build reports success and
the plan holds the single repetition. -/
theorem build_succeeds_without_divisibility :
    lnLumpRepeat (tenBitChunk ChunkPadding.Tail) tenBitLump * lumpPackedbits tenBitLump ≠
        chunkBitCapacity (tenBitChunk ChunkPadding.Tail) ∧
      (CreateChunkInterpreter fixtureBitWidth 2 emptyFactory fixtureMd SampleStreamInfo.default
        (tenBitChunk ChunkPadding.Tail)).map (fun r => (r.1, r.2.1.mSampleInterpreters)) =
        some (true, [⟨10, 0, some "s0"⟩, ⟨6, 0, none⟩]) := by
  decide

/-- C3, amended: a chunk with a lump whose total `Packedbits` does not divide the
capacity is not rejected.  When the build is defined (`ChunkDefined`) it
returns `true`, and the plan holds, for every lump, the truncated repeat count
`lnLumpRepeat` times the sample units of one repetition. -/
theorem CreateChunkInterpreter_true_of_not_dvd (BitWidth : SampleFormat → Nat → Nat)
    (wordBytes : Nat) (factory : SampleSinkFactory) (md : Metadata) (info : SampleStreamInfo)
    (chunk : Chunk) (lump : Lump) (hd : ChunkDefined chunk) (_hl : lump ∈ chunk.Lumps)
    (_hnd : lnLumpRepeat chunk lump * lumpPackedbits lump ≠ chunkBitCapacity chunk) :
    ∃ r, CreateChunkInterpreter BitWidth wordBytes factory md info chunk = some r ∧
      r.1 = true ∧
      (sampleUnits r.2.1.mSampleInterpreters).length =
        (chunk.Lumps.map (fun l => lnLumpRepeat chunk l * lumpSampleCount l)).sum := by
  obtain ⟨r, hr⟩ := Option.isSome_iff_exists.mp
    (CreateChunkInterpreter_isSome BitWidth wordBytes factory md info chunk hd)
  obtain ⟨h1, h2⟩ := CreateChunkInterpreter_eq_some hr
  refine ⟨r, hr, h1, ?_⟩
  rw [h2]
  simp only
  rw [sampleUnits_planOf]
  exact length_sampleUnits_lumps BitWidth chunk chunk.Lumps

/-- C3, witness of `CreateChunkInterpreter_true_of_not_dvd`: the 16-bit chunk with
one 10-bit stream. -/
theorem CreateChunkInterpreter_true_of_not_dvd_witness :
    lnLumpRepeat (tenBitChunk ChunkPadding.Tail) tenBitLump * lumpPackedbits tenBitLump ≠
        chunkBitCapacity (tenBitChunk ChunkPadding.Tail) ∧
      ∃ r, CreateChunkInterpreter fixtureBitWidth 2 emptyFactory fixtureMd
          SampleStreamInfo.default (tenBitChunk ChunkPadding.Tail) = some r ∧
        r.1 = true ∧
        (sampleUnits r.2.1.mSampleInterpreters).length =
          ((tenBitChunk ChunkPadding.Tail).Lumps.map
            (fun l => lnLumpRepeat (tenBitChunk ChunkPadding.Tail) l * lumpSampleCount l)).sum :=
  ⟨by decide,
   CreateChunkInterpreter_true_of_not_dvd fixtureBitWidth 2 emptyFactory fixtureMd
    SampleStreamInfo.default (tenBitChunk ChunkPadding.Tail) tenBitLump
    (by unfold ChunkDefined; decide) (by decide) (by decide)⟩

/-- C4, the defect at the failing input: a stream with `Packedbits = 8 < 2 * 8`
and `Alignment = Left` in a chunk of one 8-bit word.  The descriptor is not
rejected: the build reports success, and the unsigned subtraction of lines
197-198 wraps, so that the plan of the 8-bit chunk ends with a padding unit of
width `65528 = (8 - 16) mod 2^16`. -/
theorem padding_underflow_is_emitted :
    underflowStream.Packedbits <
        underflowStream.RateFactor *
          fixtureBitWidth underflowStream.Format underflowStream.Quantization ∧
      (CreateChunkInterpreter fixtureBitWidth 1 emptyFactory fixtureMd SampleStreamInfo.default
        underflowChunk).map (fun r => (r.1, r.2.1.mSampleInterpreters)) =
        some (true, [⟨8, 0, some "s0"⟩, ⟨8, 1, some "s0"⟩, ⟨65528, 0, none⟩]) := by
  decide

/-- C5, counterexample.  A block with `Cycles = 2^32` and no chunk is built with
`Cycles = 0`; and for a block whose first chunk has a lump of `65536` bits (its
16-bit bit count is zero) the build divides by zero before it reaches the
second chunk, whose word size 3 is unsupported, so `false` is not returned. -/
theorem block_build_truncates_and_may_not_return :
    CreateBlockInterpreter fixtureBitWidth emptyFactory fixtureMd SampleStreamInfo.default
        ⟨2 ^ 32, 0, 0, []⟩ = some (true, ⟨0, 0, 0, []⟩, emptyFactory) ∧
      threeByteChunk.SizeWord ∉ [1, 2, 4, 8] ∧
      CreateBlockInterpreter fixtureBitWidth emptyFactory fixtureMd SampleStreamInfo.default
        ⟨1, 0, 0, [wideLumpChunk, threeByteChunk]⟩ = none := by
  decide

/-- C5, amended: for a block whose chunk builds are defined,
`CreateBlockInterpreter` returns, the flag is `false` if and only if some chunk
has `SizeWord` outside `{1, 2, 4, 8}`, and when the flag is `true` the block
interpreter carries `Cycles`, `SizeHeader` and `SizeFooter` converted to
`uint32_t` and exactly one chunk interpreter per chunk, in descriptor order,
each built with the word width `SizeWord` of its chunk. -/
theorem CreateBlockInterpreter_spec (BitWidth : SampleFormat → Nat → Nat)
    (factory : SampleSinkFactory) (md : Metadata) (info : SampleStreamInfo) (block : Block)
    (hd : BlockDefined block) :
    ∃ r, CreateBlockInterpreter BitWidth factory md info block = some r ∧
      (r.1 = false ↔ ∃ chunk ∈ block.Chunks, chunk.SizeWord ∉ [1, 2, 4, 8]) ∧
      (r.1 = true →
        r.2.1 = ⟨uint32_t block.Cycles, uint32_t block.SizeHeader, uint32_t block.SizeFooter,
          block.Chunks.map (chunkInterpOf BitWidth)⟩ ∧
        r.2.1.Chunks.map ChunkInterpreter.wordBytes = block.Chunks.map Chunk.SizeWord) := by
  obtain ⟨r, hr, h1, h2, h3, h4, h5⟩ := blockChunks_spec BitWidth md info block.Chunks
    ⟨uint32_t block.Cycles, uint32_t block.SizeHeader, uint32_t block.SizeFooter, []⟩ factory hd
  refine ⟨r, hr, h4, fun ht => ?_⟩
  have h6 := h5 ht
  simp only [List.nil_append] at h6
  constructor
  · cases hb : r.2.1 with
    | mk cy sh sf ch =>
      rw [hb] at h1 h2 h3 h6
      simp only at h1 h2 h3 h6
      rw [h1, h2, h3, h6]
  · rw [h6]
    simp [chunkInterpOf]

/-- C5, witness of `CreateBlockInterpreter_spec`: a block of two supported chunks
is built with flag `true` and two chunk interpreters, of word widths 4 and 2. -/
theorem CreateBlockInterpreter_spec_witness :
    (CreateBlockInterpreter fixtureBitWidth emptyFactory fixtureMd SampleStreamInfo.default
        ⟨3, 16, 4, [twoStreamChunk StreamShift.shiftLeft StreamShift.shiftLeft,
          tenBitChunk ChunkPadding.Tail]⟩).map
        (fun r => (r.1, r.2.1.Cycles, r.2.1.Chunks.map ChunkInterpreter.wordBytes)) =
        some (true, 3, [4, 2]) ∧
      ∃ r, CreateBlockInterpreter fixtureBitWidth emptyFactory fixtureMd SampleStreamInfo.default
          ⟨3, 16, 4, [twoStreamChunk StreamShift.shiftLeft StreamShift.shiftLeft,
            tenBitChunk ChunkPadding.Tail]⟩ = some r ∧
        (r.1 = false ↔
          ∃ chunk ∈ [twoStreamChunk StreamShift.shiftLeft StreamShift.shiftLeft,
            tenBitChunk ChunkPadding.Tail], chunk.SizeWord ∉ [1, 2, 4, 8]) ∧
        (r.1 = true →
          r.2.1 = ⟨uint32_t 3, uint32_t 16, uint32_t 4,
            [twoStreamChunk StreamShift.shiftLeft StreamShift.shiftLeft,
              tenBitChunk ChunkPadding.Tail].map (chunkInterpOf fixtureBitWidth)⟩ ∧
          r.2.1.Chunks.map ChunkInterpreter.wordBytes =
            [twoStreamChunk StreamShift.shiftLeft StreamShift.shiftLeft,
              tenBitChunk ChunkPadding.Tail].map Chunk.SizeWord) :=
  ⟨by decide,
   CreateBlockInterpreter_spec fixtureBitWidth emptyFactory fixtureMd SampleStreamInfo.default
    ⟨3, 16, 4, [twoStreamChunk StreamShift.shiftLeft StreamShift.shiftLeft,
      tenBitChunk ChunkPadding.Tail]⟩
    (by unfold BlockDefined ChunkDefined; decide)⟩

/-- C6, the code at the failing input: the only chunk of the lane has the
unsupported word size 3.  `CreateBlockInterpreter` returns `false`, and `Open`
still returns `true`, flags the converter open and registers the lane with its
block, which holds no chunk. -/
theorem Open_ignores_unsupported_SizeWord :
    (CreateBlockInterpreter fixtureBitWidth emptyFactory (laneMd [threeByteChunk])
        SampleStreamInfo.default ⟨1, 0, 0, [threeByteChunk]⟩).map (fun r => r.1) = some false ∧
      Open fixtureBitWidth everyPathOpens closedConverter (laneMd [threeByteChunk]) "dir/" =
        OpenResult.returned true
          ⟨true, [⟨"l0.dat", [⟨1, 0, 0, []⟩]⟩], [(0, ⟨"dir/l0.dat", true⟩)], emptyFactory⟩ := by
  decide

/-- C7: on a converter that is already open, `Open` throws "Error: Already open"
and leaves the converter exactly as it was: `mIsOpen`, the lane interpreters
and the map from lanes to byte sources are those of before the call. -/
theorem Open_already_open (BitWidth : SampleFormat → Nat → Nat) (canOpen : String → Bool)
    (c : SampleConverter) (md : Metadata) ( path_prefix : String) (h : c.mIsOpen = true) :
    Open BitWidth canOpen c md path_prefix = OpenResult.threw "Error: Already open" c := by
  unfold Open
  rw [if_pos h]

/-- C7, witness of `Open_already_open`: the converter that is open on one lane. -/
theorem Open_already_open_witness :
    openConverter.mIsOpen = true ∧
      Open fixtureBitWidth everyPathOpens openConverter (laneMd [threeByteChunk]) "dir/" =
        OpenResult.threw "Error: Already open" openConverter :=
  ⟨rfl, Open_already_open fixtureBitWidth everyPathOpens openConverter (laneMd [threeByteChunk])
    "dir/" rfl⟩

/-- C8, counterexample: the converter is closed, the lane has a system and a
file, and every byte source opens, but the lump of the chunk has `65536` bits,
so line 183 divides by zero: `Open` neither throws nor returns `true`. -/
theorem Open_undefined_on_zero_bit_count :
    closedConverter.mIsOpen = false ∧
      (∀ lane ∈ (laneMd [wideLumpChunk]).Lanes, lane.Systems ≠ []) ∧
      (∀ lane ∈ (laneMd [wideLumpChunk]).Lanes,
        ¬ LaneFails everyPathOpens (laneMd [wideLumpChunk]) "dir/" lane) ∧
      Open fixtureBitWidth everyPathOpens closedConverter (laneMd [wideLumpChunk]) "dir/" =
        OpenResult.undefined := by
  unfold LaneFails
  decide

/-- C8, amended: for a converter that is not open and a descriptor whose lanes
all cite a system and whose chunk builds are all defined, `Open` throws if and
only if some lane has no file referencing it or its byte source does not open
at `path_prefix` followed by the lane's file URL; otherwise it returns `true`
with `mIsOpen` set and one lane interpreter appended per lane, in descriptor
order, each holding one block interpreter per block of its lane, in order. -/
theorem Open_spec (BitWidth : SampleFormat → Nat → Nat) (canOpen : String → Bool)
    (c : SampleConverter) (md : Metadata) ( path_prefix : String) (hc : c.mIsOpen = false)
    (hd : ∀ lane ∈ md.Lanes, LaneDefined lane) :
    ((∃ what c1, Open BitWidth canOpen c md path_prefix = OpenResult.threw what c1) ↔
        ∃ lane ∈ md.Lanes, LaneFails canOpen md path_prefix lane) ∧
      ((¬ ∃ lane ∈ md.Lanes, LaneFails canOpen md path_prefix lane) →
        ∃ c1, Open BitWidth canOpen c md path_prefix = OpenResult.returned true c1 ∧
          c1.mIsOpen = true ∧
          ∃ L, c1.mLaneInterps = c.mLaneInterps ++ L ∧
            List.Forall₂ (LaneBuilt md) md.Lanes L) := by
  have hO : Open BitWidth canOpen c md path_prefix =
      openLanes BitWidth canOpen md path_prefix md.Lanes SampleStreamInfo.default c := by
    unfold Open
    rw [if_neg (by simp [hc])]
  have hret : (¬ ∃ lane ∈ md.Lanes, LaneFails canOpen md path_prefix lane) →
      ∃ c1, Open BitWidth canOpen c md path_prefix = OpenResult.returned true c1 ∧
        c1.mIsOpen = true ∧
        ∃ L, c1.mLaneInterps = c.mLaneInterps ++ L ∧
          List.Forall₂ (LaneBuilt md) md.Lanes L := by
    intro hno
    rw [hO]
    exact openLanes_returned BitWidth canOpen md path_prefix md.Lanes _ c hd
      (fun lane hl hf => hno ⟨lane, hl, hf⟩)
  refine ⟨⟨?_, ?_⟩, hret⟩
  · rintro ⟨what, c1, hthrew⟩
    by_contra hno
    obtain ⟨c2, hc2, -⟩ := hret hno
    rw [hthrew] at hc2
    exact OpenResult.noConfusion hc2
  · intro hbad
    rw [hO]
    exact openLanes_threw BitWidth canOpen md path_prefix md.Lanes _ c hd hbad

/-- C8, witness of `Open_spec`: the closed converter and the one-lane descriptor
with the two-stream chunk; `Open` returns `true` and registers the lane. -/
theorem Open_spec_witness :
    closedConverter.mIsOpen = false ∧
      (Open fixtureBitWidth everyPathOpens closedConverter
          (laneMd [twoStreamChunk StreamShift.shiftLeft StreamShift.shiftLeft]) "dir/").converter.map
          (fun c => (c.mIsOpen, c.mLaneInterps, c.mLaneFiles)) =
        some (true,
          [⟨"l0.dat", [⟨1, 0, 0, [⟨4, 1, false, WordEndian.Little,
            [⟨16, 0, some "s0"⟩, ⟨16, 1, some "s1"⟩]⟩]⟩]⟩],
          [(0, ⟨"dir/l0.dat", true⟩)]) ∧
      (((∃ what c1, Open fixtureBitWidth everyPathOpens closedConverter
          (laneMd [twoStreamChunk StreamShift.shiftLeft StreamShift.shiftLeft]) "dir/" =
            OpenResult.threw what c1) ↔
        ∃ lane ∈ (laneMd [twoStreamChunk StreamShift.shiftLeft StreamShift.shiftLeft]).Lanes,
          LaneFails everyPathOpens
            (laneMd [twoStreamChunk StreamShift.shiftLeft StreamShift.shiftLeft]) "dir/" lane) ∧
      ((¬ ∃ lane ∈ (laneMd [twoStreamChunk StreamShift.shiftLeft StreamShift.shiftLeft]).Lanes,
          LaneFails everyPathOpens
            (laneMd [twoStreamChunk StreamShift.shiftLeft StreamShift.shiftLeft]) "dir/" lane) →
        ∃ c1, Open fixtureBitWidth everyPathOpens closedConverter
            (laneMd [twoStreamChunk StreamShift.shiftLeft StreamShift.shiftLeft]) "dir/" =
              OpenResult.returned true c1 ∧
          c1.mIsOpen = true ∧
          ∃ L, c1.mLaneInterps = closedConverter.mLaneInterps ++ L ∧
            List.Forall₂
              (LaneBuilt (laneMd [twoStreamChunk StreamShift.shiftLeft StreamShift.shiftLeft]))
              (laneMd [twoStreamChunk StreamShift.shiftLeft StreamShift.shiftLeft]).Lanes L)) :=
  ⟨rfl, by decide,
   Open_spec fixtureBitWidth everyPathOpens closedConverter
    (laneMd [twoStreamChunk StreamShift.shiftLeft StreamShift.shiftLeft]) "dir/" rfl
    (by unfold LaneDefined BlockDefined ChunkDefined; decide)⟩

/-- C9, counterexample: the chunk of 1024 64-bit words with one left-shifted
stream of 8192 8-bit samples meets every condition of the claim (one left
lump, `Packedbits = 65536 = 8192 * 8`, which divides the capacity `65536`), but
its 16-bit bit count is zero and the build divides by zero: no plan is built. -/
theorem left_plan_undefined_on_wide_lump :
    chunkWordBytes wideLumpChunk.SizeWord = some 8 ∧
      wideLumpChunk.Lumps = [wideLump] ∧ wideLump.Shift = LumpShift.shiftLeft ∧
      (∀ s ∈ wideLump.Streams, s.Shift = StreamShift.shiftLeft ∧
        s.Packedbits = s.RateFactor * fixtureBitWidth s.Format s.Quantization) ∧
      (lumpPackedbits wideLump ∣ chunkBitCapacity wideLumpChunk) ∧
      numBitsInLump wideLump = 0 ∧
      chunkPlan fixtureBitWidth 8 emptyFactory fixtureMd SampleStreamInfo.default wideLumpChunk
        = none := by
  decide

/-- C9, amended: for a chunk built with the word type of its `SizeWord` that has
a single left-shifted lump whose streams are all left-shifted, have a band and
`Packedbits = RateFactor * BitWidth`, and whose total `Packedbits` is positive,
below `2^16` and divides the capacity, with fewer than `2^16` sample units in
all: the plan is built, it contains no padding unit, its units carry the call
orders `0, 1, ..., N - 1` in plan order, and every lump repetition lists the
streams in declaration order, each with `RateFactor` units. -/
theorem left_plan_callOrders (BitWidth : SampleFormat → Nat → Nat) (wordBytes : Nat)
    (factory : SampleSinkFactory) (md : Metadata) (info : SampleStreamInfo) (chunk : Chunk)
    (lump : Lump)
    (hw : chunkWordBytes chunk.SizeWord = some wordBytes)
    (hlumps : chunk.Lumps = [lump]) (hl : lump.Shift = LumpShift.shiftLeft)
    (hs : ∀ s ∈ lump.Streams, s.Shift = StreamShift.shiftLeft ∧
      s.Packedbits = s.RateFactor * BitWidth s.Format s.Quantization)
    (hdvd : lumpPackedbits lump ∣ chunkBitCapacity chunk)
    (hbands : ∀ s ∈ lump.Streams, s.Bands ≠ [])
    (hpos : 0 < lumpPackedbits lump) (hlt : lumpPackedbits lump < 2 ^ 16)
    (hN : chunkBitCapacity chunk / lumpPackedbits lump *
      (lump.Streams.map IonStream.RateFactor).sum < 2 ^ 16) :
    ∃ plan, chunkPlan BitWidth wordBytes factory md info chunk = some plan ∧
      (∀ u ∈ plan, u.isPadding = false) ∧
      plan.map SampleInterpreter.callOrder =
        List.range (chunkBitCapacity chunk / lumpPackedbits lump *
          (lump.Streams.map IonStream.RateFactor).sum) ∧
      plan.map SampleInterpreter.sink =
        (List.replicate (chunkBitCapacity chunk / lumpPackedbits lump)
          (lump.Streams.flatMap
            (fun s => List.replicate s.RateFactor (some s.toString)))).flatten := by
  have hU : 0 < (lump.Streams.map IonStream.RateFactor).sum := by
    rcases Nat.eq_zero_or_pos (lump.Streams.map IonStream.RateFactor).sum with h0 | h0
    · have := sum_packedbits_eq_zero BitWidth lump.Streams (fun s hs1 => (hs s hs1).2) h0
      unfold lumpPackedbits at hpos
      omega
    · exact h0
  have hRP : chunkBitCapacity chunk / lumpPackedbits lump * lumpPackedbits lump =
      chunkBitCapacity chunk := Nat.div_mul_cancel hdvd
  have hR : chunkBitCapacity chunk / lumpPackedbits lump < 2 ^ 16 :=
    lt_of_le_of_lt (Nat.le_mul_of_pos_right _ hU) hN
  have hcap : chunkBitCapacity chunk < 2 ^ 32 := by
    rw [← hRP]
    calc chunkBitCapacity chunk / lumpPackedbits lump * lumpPackedbits lump
        < 2 ^ 16 * 2 ^ 16 := Nat.mul_lt_mul_of_lt_of_lt hR hlt
      _ = 2 ^ 32 := by norm_num
  have hrep : lnLumpRepeat chunk lump = chunkBitCapacity chunk / lumpPackedbits lump :=
    lnLumpRepeat_eq_div (by omega) hlt hR
  have hdef : ChunkDefined chunk := by
    intro l hl1
    rw [hlumps, List.mem_singleton] at hl1
    subst hl1
    refine ⟨?_, hbands⟩
    rw [numBitsInLump_eq, Nat.mod_eq_of_lt hlt]
    omega
  have hcons : bitsConsumed chunk = chunkBitCapacity chunk := by
    unfold bitsConsumed
    rw [hlumps]
    simp only [List.map_cons, List.map_nil, List.sum_cons, List.sum_nil, Nat.add_zero]
    rw [hrep, hRP]
  have hpad : chunkPaddingBits wordBytes chunk = 0 := by
    have := chunkPaddingBits_eq hw hcap (le_of_eq hcons)
    omega
  have hplan : planOf BitWidth wordBytes chunk =
      (List.range (chunkBitCapacity chunk / lumpPackedbits lump)).flatMap
        (fun lr => streamsUnits BitWidth lump (chunkBitCapacity chunk / lumpPackedbits lump) lr
          (numSampleInterpretersPerLump lump) lump.Streams 0) := by
    unfold planOf
    rw [hpad]
    simp only [Nat.lt_irrefl, false_and, if_false]
    unfold lumpsUnits
    rw [hlumps]
    simp only [List.flatMap_cons, List.flatMap_nil, List.append_nil]
    unfold lumpUnits lumpRepeatUnits
    rw [hrep]
  refine ⟨planOf BitWidth wordBytes chunk,
    chunkPlan_of_defined BitWidth wordBytes factory md info chunk hdef, ?_⟩
  rw [hplan]
  rcases Nat.eq_zero_or_pos (chunkBitCapacity chunk / lumpPackedbits lump) with h0 | h0
  · rw [h0]; simp
  · have hper : numSampleInterpretersPerLump lump =
        (lump.Streams.map IonStream.RateFactor).sum := by
      rw [numSampleInterpretersPerLump_eq]
      apply Nat.mod_eq_of_lt
      exact lt_of_le_of_lt (Nat.le_mul_of_pos_left _ h0) hN
    obtain ⟨r1, r2, r3⟩ := repeats_left BitWidth hl
      (chunkBitCapacity chunk / lumpPackedbits lump) (numSampleInterpretersPerLump lump) hs hper
      (chunkBitCapacity chunk / lumpPackedbits lump) (by rw [hper]; exact hN)
    rw [hper] at r1 r2 r3 ⊢
    exact ⟨r3, r1, r2⟩

/-- C9, witness of `left_plan_callOrders` (Scenario A): two left-shifted 16-bit
streams with rate factor 1 in one 32-bit word give two sample units with call
orders 0 and 1, in stream order, and no padding unit. -/
theorem left_plan_callOrders_witness :
    chunkPlan fixtureBitWidth 4 emptyFactory fixtureMd SampleStreamInfo.default
        (twoStreamChunk StreamShift.shiftLeft StreamShift.shiftLeft) =
        some [⟨16, 0, some "s0"⟩, ⟨16, 1, some "s1"⟩] ∧
      ∃ plan, chunkPlan fixtureBitWidth 4 emptyFactory fixtureMd SampleStreamInfo.default
          (twoStreamChunk StreamShift.shiftLeft StreamShift.shiftLeft) = some plan ∧
        (∀ u ∈ plan, u.isPadding = false) ∧
        plan.map SampleInterpreter.callOrder = List.range (32 / 32 * 2) ∧
        plan.map SampleInterpreter.sink =
          (List.replicate (32 / 32) [some "s0", some "s1"]).flatten :=
  ⟨by decide,
   left_plan_callOrders fixtureBitWidth 4 emptyFactory fixtureMd SampleStreamInfo.default
    (twoStreamChunk StreamShift.shiftLeft StreamShift.shiftLeft)
    (twoStreamLump StreamShift.shiftLeft StreamShift.shiftLeft)
    (by decide) (by decide) (by decide) (by decide) (by decide) (by decide) (by decide)
    (by decide) (by decide)⟩

/-- C10, counterexample (Scenario B): the right-shifted second stream has base 1
(the repetition offset 0 plus the one unit placed before it) and its single
unit gets call order 2, so the call orders of the plan are 0 and 2. -/
theorem scenarioB_callOrders :
    lnLumpRepeat (twoStreamChunk StreamShift.shiftLeft StreamShift.shiftRight)
        (twoStreamLump StreamShift.shiftLeft StreamShift.shiftRight) = 1 ∧
      numSampleInterpretersPerLump (twoStreamLump StreamShift.shiftLeft StreamShift.shiftRight)
        = 2 ∧
      baseCallOrder (twoStreamLump StreamShift.shiftLeft StreamShift.shiftRight) 1 0 2 1 = 1 ∧
      chunkPlan fixtureBitWidth 4 emptyFactory fixtureMd SampleStreamInfo.default
          (twoStreamChunk StreamShift.shiftLeft StreamShift.shiftRight) =
        some [⟨16, 0, some "s0"⟩, ⟨16, 2, some "s1"⟩] := by
  decide

/-- C10, amended: for every stream with `RateFactor = 1` and `Shift = Right`, its
single sample unit receives the call order `base + 1` (modulo `2^16`), one
above its base, the lump-repetition offset plus the number of units placed
earlier in the repetition. -/
theorem right_single_unit_callOrder (BitWidth : SampleFormat → Nat → Nat) (lump : Lump)
    (R lr per t : Nat) (s : IonStream) (hrf : s.RateFactor = 1)
    (hsh : s.Shift = StreamShift.shiftRight) :
    sampleUnits (streamSplIntrps BitWidth lump R lr per t s) =
      [⟨unitBitWidth BitWidth s, uint16_t (baseCallOrder lump R lr per t + 1),
        some s.toString⟩] := by
  have hn : numSmpInterp s = 1 := by
    rw [numSmpInterp_of_lt (by rw [hrf]; norm_num), hrf]
  rw [sampleUnits_streamSplIntrps, hn]
  simp [createSampleInterpreters, firstCallOrder, hsh, hn]

/-- C10, witness of `right_single_unit_callOrder` (Scenario B): the second stream,
right-shifted with rate factor 1, has base 1 and its unit has call order 2. -/
theorem right_single_unit_callOrder_witness :
    (wordStream "s1" StreamShift.shiftRight).RateFactor = 1 ∧
      (wordStream "s1" StreamShift.shiftRight).Shift = StreamShift.shiftRight ∧
      uint16_t (baseCallOrder (twoStreamLump StreamShift.shiftLeft StreamShift.shiftRight)
        1 0 2 1 + 1) = 2 ∧
      sampleUnits (streamSplIntrps fixtureBitWidth
        (twoStreamLump StreamShift.shiftLeft StreamShift.shiftRight) 1 0 2 1
        (wordStream "s1" StreamShift.shiftRight)) =
      [⟨unitBitWidth fixtureBitWidth (wordStream "s1" StreamShift.shiftRight),
        uint16_t (baseCallOrder (twoStreamLump StreamShift.shiftLeft StreamShift.shiftRight)
          1 0 2 1 + 1),
        some (wordStream "s1" StreamShift.shiftRight).toString⟩] :=
  ⟨rfl, rfl, by decide,
   right_single_unit_callOrder fixtureBitWidth
    (twoStreamLump StreamShift.shiftLeft StreamShift.shiftRight) 1 0 2 1
    (wordStream "s1" StreamShift.shiftRight) rfl rfl⟩

/-- C11, counterexample: a right-aligned stream of two 8-bit samples with
`Packedbits = 65552`, so that `Packedbits - RateFactor * BitWidth = 65536 > 0`.
The 16-bit padding count wraps to zero and the stream contributes its two
sample units only, without a padding unit. -/
theorem stream_padding_lost_at_65536 :
    0 < widePaddingStream.Packedbits - widePaddingStream.RateFactor *
        fixtureBitWidth widePaddingStream.Format widePaddingStream.Quantization ∧
      widePaddingStream.Alignment = StreamAlignment.Right ∧
      chunkPlan fixtureBitWidth 2 emptyFactory fixtureMd SampleStreamInfo.default
        widePaddingChunk = some [⟨8, 0, some "s0"⟩, ⟨8, 1, some "s0"⟩] := by
  decide

/-- C11, amended: for every stream with `RateFactor < 2^16` and
`0 ≤ Packedbits - RateFactor * BitWidth < 2^16`, every execution of the loop
body for the stream (any lump repetition, any state) is defined when the stream
has a band and appends to the plan `RateFactor` sample units of the stream,
preceded by one padding unit of width `Packedbits - RateFactor * BitWidth` when
that width is positive and `Alignment = Right`, followed by it when it is
positive and `Alignment = Left`, and nothing else when it is zero or the
alignment is `Undefined`. -/
theorem stream_contribution (BitWidth : SampleFormat → Nat → Nat) (md : Metadata)
    (info : SampleStreamInfo) (lump : Lump) (R lr per t : Nat) (b : ChunkBuild) (s : IonStream)
    (hrf : s.RateFactor < 2 ^ 16)
    (hle : s.RateFactor * BitWidth s.Format s.Quantization ≤ s.Packedbits)
    (hpad : s.Packedbits - s.RateFactor * BitWidth s.Format s.Quantization < 2 ^ 16) :
    (s.Bands ≠ [] → (streamBody BitWidth md info lump R lr per (t, b) s).isSome = true) ∧
      ∀ r, streamBody BitWidth md info lump R lr per (t, b) s = some r →
        ∃ samples : List SampleInterpreter, samples.length = s.RateFactor ∧
          (∀ u ∈ samples, u.isPadding = false ∧ u.sink = some s.toString ∧
            u.bitWidth = unitBitWidth BitWidth s) ∧
          r.2.chunkIntrp.mSampleInterpreters = b.chunkIntrp.mSampleInterpreters ++
            (if 0 < s.Packedbits - s.RateFactor * BitWidth s.Format s.Quantization ∧
                s.Alignment = StreamAlignment.Right then
              ⟨s.Packedbits - s.RateFactor * BitWidth s.Format s.Quantization, 0, none⟩ :: samples
            else if 0 < s.Packedbits - s.RateFactor * BitWidth s.Format s.Quantization ∧
                s.Alignment = StreamAlignment.Left then
              samples ++ [⟨s.Packedbits - s.RateFactor * BitWidth s.Format s.Quantization, 0, none⟩]
            else samples) := by
  refine ⟨fun hb => streamBody_isSome BitWidth md info lump R lr per (t, b) s hb, fun r hr => ?_⟩
  obtain ⟨-, hg, -⟩ := streamBody_eq_some hr
  have hn : numSmpInterp s = s.RateFactor := numSmpInterp_of_lt hrf
  have hp : numPaddingBits BitWidth s =
      s.Packedbits - s.RateFactor * BitWidth s.Format s.Quantization := by
    have e := numPaddingBits_eq_emod BitWidth s
    have hcast : ((s.RateFactor : Int) * (BitWidth s.Format s.Quantization : Int)) =
        ((s.RateFactor * BitWidth s.Format s.Quantization : Nat) : Int) := by push_cast; ring
    rw [hcast] at e
    generalize s.RateFactor * BitWidth s.Format s.Quantization = q at hle hpad e ⊢
    omega
  refine ⟨createSampleInterpreters BitWidth s (numSmpInterp s)
    (firstCallOrder lump R lr per t s), ?_, ?_, ?_⟩
  · rw [length_createSampleInterpreters, hn]
  · intro u hu
    refine ⟨isPadding_createSampleInterpreters BitWidth s _ _ u hu, ?_, ?_⟩
    · have := sink_createSampleInterpreters BitWidth s (numSmpInterp s)
        (firstCallOrder lump R lr per t s)
      have hm : u.sink ∈ (createSampleInterpreters BitWidth s (numSmpInterp s)
          (firstCallOrder lump R lr per t s)).map SampleInterpreter.sink :=
        List.mem_map_of_mem _ hu
      rw [this] at hm
      exact (List.mem_replicate.mp hm).2
    · clear hg hr
      generalize firstCallOrder lump R lr per t s = c at hu
      generalize numSmpInterp s = n at hu
      induction n generalizing c with
      | zero => simp [createSampleInterpreters] at hu
      | succ n ih =>
        rw [createSampleInterpreters] at hu
        rcases List.mem_cons.mp hu with h | h
        · subst h; rfl
        · exact ih _ h
  · rw [hg]
    simp only
    congr 1
    unfold streamSplIntrps
    simp only [hp]
    cases ha : s.Alignment <;> simp

/-- C11, witness of `stream_contribution` (Scenario C): `Packedbits = 20`,
`RateFactor = 2`, `BitWidth = 8`, `Alignment = Right` contributes
`[padding(4), sample, sample]`. -/
theorem stream_contribution_witness :
    (streamBody fixtureBitWidth fixtureMd SampleStreamInfo.default scenarioCLump 1 0 2
        (0, chunkBuildStart 4 emptyFactory (fixtureChunk 4 1 ChunkPadding.Tail scenarioCLump))
        scenarioCStream).map (fun r => r.2.chunkIntrp.mSampleInterpreters) =
        some [⟨4, 0, none⟩, ⟨8, 0, some "s0"⟩, ⟨8, 1, some "s0"⟩] ∧
      ((scenarioCStream.Bands ≠ [] →
        (streamBody fixtureBitWidth fixtureMd SampleStreamInfo.default scenarioCLump 1 0 2
          (0, chunkBuildStart 4 emptyFactory (fixtureChunk 4 1 ChunkPadding.Tail scenarioCLump))
          scenarioCStream).isSome = true) ∧
      ∀ r, streamBody fixtureBitWidth fixtureMd SampleStreamInfo.default scenarioCLump 1 0 2
          (0, chunkBuildStart 4 emptyFactory (fixtureChunk 4 1 ChunkPadding.Tail scenarioCLump))
          scenarioCStream = some r →
        ∃ samples : List SampleInterpreter, samples.length = scenarioCStream.RateFactor ∧
          (∀ u ∈ samples, u.isPadding = false ∧ u.sink = some scenarioCStream.toString ∧
            u.bitWidth = unitBitWidth fixtureBitWidth scenarioCStream) ∧
          r.2.chunkIntrp.mSampleInterpreters =
            (chunkBuildStart 4 emptyFactory
              (fixtureChunk 4 1 ChunkPadding.Tail scenarioCLump)).chunkIntrp.mSampleInterpreters ++
            (if 0 < scenarioCStream.Packedbits - scenarioCStream.RateFactor *
                  fixtureBitWidth scenarioCStream.Format scenarioCStream.Quantization ∧
                scenarioCStream.Alignment = StreamAlignment.Right then
              ⟨scenarioCStream.Packedbits - scenarioCStream.RateFactor *
                fixtureBitWidth scenarioCStream.Format scenarioCStream.Quantization, 0, none⟩ ::
                samples
            else if 0 < scenarioCStream.Packedbits - scenarioCStream.RateFactor *
                  fixtureBitWidth scenarioCStream.Format scenarioCStream.Quantization ∧
                scenarioCStream.Alignment = StreamAlignment.Left then
              samples ++ [⟨scenarioCStream.Packedbits - scenarioCStream.RateFactor *
                fixtureBitWidth scenarioCStream.Format scenarioCStream.Quantization, 0, none⟩]
            else samples)) :=
  ⟨by decide,
   stream_contribution fixtureBitWidth fixtureMd SampleStreamInfo.default scenarioCLump 1 0 2 0
    (chunkBuildStart 4 emptyFactory (fixtureChunk 4 1 ChunkPadding.Tail scenarioCLump))
    scenarioCStream (by decide) (by decide) (by decide)⟩

/-- C12, counterexample: a chunk of `2^26` 64-bit words without lumps and with
`Padding = Tail`.  No bit is occupied and the capacity is `2^32`, but the 32-bit
padding width of line 270 wraps to zero and the plan is empty: no padding unit
of `2^32` bits is added. -/
theorem chunk_padding_lost_at_2_pow_32 :
    chunkWordBytes hugePaddingChunk.SizeWord = some 8 ∧
      bitsConsumed hugePaddingChunk = 0 ∧ chunkBitCapacity hugePaddingChunk = 2 ^ 32 ∧
      hugePaddingChunk.Padding = ChunkPadding.Tail ∧
      chunkPlan fixtureBitWidth 8 emptyFactory fixtureMd SampleStreamInfo.default
        hugePaddingChunk = some [] := by
  decide

/-- C12, amended: for a chunk built with the word type of its `SizeWord`, with a
capacity below `2^32`, on which the loop over the lumps completes: the units in
the plan after that loop are the units of the lumps, and with
`bitsConsumed < capacity` the plan is these units followed by one padding unit
of width `capacity - bitsConsumed` when `Padding = Tail`, preceded by it when
`Padding = Head`; when `Padding = None` or `bitsConsumed` equals the capacity
the plan is the units of the lumps and nothing else. -/
theorem chunk_padding_placement (BitWidth : SampleFormat → Nat → Nat) (wordBytes : Nat)
    (factory : SampleSinkFactory) (md : Metadata) (info : SampleStreamInfo) (chunk : Chunk)
    (b : ChunkBuild)
    (hw : chunkWordBytes chunk.SizeWord = some wordBytes)
    (hfold : chunk.Lumps.foldlM (lumpBody BitWidth md info chunk)
      (chunkBuildStart wordBytes factory chunk) = some b)
    (hcap : chunkBitCapacity chunk < 2 ^ 32) :
    b.chunkIntrp.mSampleInterpreters = lumpsUnits BitWidth chunk ∧
      (bitsConsumed chunk < chunkBitCapacity chunk → chunk.Padding = ChunkPadding.Tail →
        chunkPlan BitWidth wordBytes factory md info chunk =
          some (b.chunkIntrp.mSampleInterpreters ++
            [⟨chunkBitCapacity chunk - bitsConsumed chunk, 0, none⟩])) ∧
      (bitsConsumed chunk < chunkBitCapacity chunk → chunk.Padding = ChunkPadding.Head →
        chunkPlan BitWidth wordBytes factory md info chunk =
          some (⟨chunkBitCapacity chunk - bitsConsumed chunk, 0, none⟩ ::
            b.chunkIntrp.mSampleInterpreters)) ∧
      (chunk.Padding = ChunkPadding.None ∨ bitsConsumed chunk = chunkBitCapacity chunk →
        chunkPlan BitWidth wordBytes factory md info chunk =
          some b.chunkIntrp.mSampleInterpreters) := by
  obtain ⟨hc, ht⟩ := fold_state hfold
  have hcreate := CreateChunkInterpreter_of_fold hfold
  have hpadc : numChunkPaddingBits wordBytes chunk b.totalOccupiedBitsInChunk =
      chunkPaddingBits wordBytes chunk := by rw [ht]; rfl
  rw [hpadc] at hcreate
  refine ⟨by rw [hc], ?_, ?_, ?_⟩
  · intro hlt htail
    have hp := chunkPaddingBits_eq hw hcap (le_of_lt hlt)
    have hpos : 0 < chunkPaddingBits wordBytes chunk := by omega
    have hval : chunkPaddingBits wordBytes chunk =
        chunkBitCapacity chunk - bitsConsumed chunk := by omega
    unfold chunkPlan
    rw [hcreate, if_pos ⟨hpos, by rw [htail]; simp⟩, hval]
    simp [ChunkInterpreter.AddSampleInterpreter, htail]
  · intro hlt hhead
    have hp := chunkPaddingBits_eq hw hcap (le_of_lt hlt)
    have hpos : 0 < chunkPaddingBits wordBytes chunk := by omega
    have hval : chunkPaddingBits wordBytes chunk =
        chunkBitCapacity chunk - bitsConsumed chunk := by omega
    unfold chunkPlan
    rw [hcreate, if_pos ⟨hpos, by rw [hhead]; simp⟩, hval]
    simp [ChunkInterpreter.AddSampleInterpreter, hhead]
  · intro hcase
    have hneg : ¬ (0 < chunkPaddingBits wordBytes chunk ∧ chunk.Padding ≠ ChunkPadding.None) := by
      rintro ⟨hpos, hne⟩
      rcases hcase with h | h
      · exact hne h
      · have hp := chunkPaddingBits_eq hw hcap (le_of_eq h)
        omega
    unfold chunkPlan
    rw [hcreate, if_neg hneg]
    rfl

/-- C12, witness of `chunk_padding_placement` (Scenario D): `SizeWord = 2`,
`CountWords = 1`, one lump of 10 `Packedbits`, `Padding = Tail` gives the sample
unit followed by one padding unit of 6 bits. -/
theorem chunk_padding_placement_witness :
    chunkPlan fixtureBitWidth 2 emptyFactory fixtureMd SampleStreamInfo.default
        (tenBitChunk ChunkPadding.Tail) = some [⟨10, 0, some "s0"⟩, ⟨6, 0, none⟩] ∧
      ∃ b, (tenBitChunk ChunkPadding.Tail).Lumps.foldlM
          (lumpBody fixtureBitWidth fixtureMd SampleStreamInfo.default
            (tenBitChunk ChunkPadding.Tail))
          (chunkBuildStart 2 emptyFactory (tenBitChunk ChunkPadding.Tail)) = some b ∧
        (b.chunkIntrp.mSampleInterpreters = lumpsUnits fixtureBitWidth
            (tenBitChunk ChunkPadding.Tail) ∧
          (bitsConsumed (tenBitChunk ChunkPadding.Tail) <
              chunkBitCapacity (tenBitChunk ChunkPadding.Tail) →
            (tenBitChunk ChunkPadding.Tail).Padding = ChunkPadding.Tail →
            chunkPlan fixtureBitWidth 2 emptyFactory fixtureMd SampleStreamInfo.default
                (tenBitChunk ChunkPadding.Tail) =
              some (b.chunkIntrp.mSampleInterpreters ++
                [⟨chunkBitCapacity (tenBitChunk ChunkPadding.Tail) -
                  bitsConsumed (tenBitChunk ChunkPadding.Tail), 0, none⟩])) ∧
          (bitsConsumed (tenBitChunk ChunkPadding.Tail) <
              chunkBitCapacity (tenBitChunk ChunkPadding.Tail) →
            (tenBitChunk ChunkPadding.Tail).Padding = ChunkPadding.Head →
            chunkPlan fixtureBitWidth 2 emptyFactory fixtureMd SampleStreamInfo.default
                (tenBitChunk ChunkPadding.Tail) =
              some (⟨chunkBitCapacity (tenBitChunk ChunkPadding.Tail) -
                bitsConsumed (tenBitChunk ChunkPadding.Tail), 0, none⟩ ::
                  b.chunkIntrp.mSampleInterpreters)) ∧
          (ChunkPadding.Tail = ChunkPadding.None ∨
              bitsConsumed (tenBitChunk ChunkPadding.Tail) =
                chunkBitCapacity (tenBitChunk ChunkPadding.Tail) →
            chunkPlan fixtureBitWidth 2 emptyFactory fixtureMd SampleStreamInfo.default
                (tenBitChunk ChunkPadding.Tail) = some b.chunkIntrp.mSampleInterpreters)) := by
  refine ⟨by decide, ?_⟩
  obtain ⟨b, hb⟩ := Option.isSome_iff_exists.mp
    (lumps_foldlM_isSome fixtureBitWidth fixtureMd SampleStreamInfo.default
      (tenBitChunk ChunkPadding.Tail) (tenBitChunk ChunkPadding.Tail).Lumps
      (chunkBuildStart 2 emptyFactory (tenBitChunk ChunkPadding.Tail)) (by decide))
  exact ⟨b, hb,
    chunk_padding_placement fixtureBitWidth 2 emptyFactory fixtureMd SampleStreamInfo.default
      (tenBitChunk ChunkPadding.Tail) b (by decide) hb (by decide)⟩

/-- C13, counterexample: a chunk of `65536` 8-bit words with one lump of 8
`Packedbits`.  The quotient is `65536`, which the 16-bit repeat count stores as
zero: the lump is not repeated at all and the plan is empty. -/
theorem repeat_count_wraps_at_65536 :
    0 < lumpPackedbits byteLump ∧
      chunkBitCapacity (byteChunk 65536) / lumpPackedbits byteLump = 65536 ∧
      lnLumpRepeat (byteChunk 65536) byteLump = 0 ∧
      chunkPlan fixtureBitWidth 1 emptyFactory fixtureMd SampleStreamInfo.default
        (byteChunk 65536) = some [] := by
  decide

/-- C13, amended: for every chunk and every lump whose `Packedbits` sum is
positive and below `2^16`, with a capacity below `2^64` and a quotient
`SizeWord * CountWords * 8 / sum` below `2^16`, the repeat count of line 183 is
that quotient and the loop over the lump repetitions runs its body for
`lr = 0, 1, ..., quotient - 1`. -/
theorem repeat_count_eq_quotient (BitWidth : SampleFormat → Nat → Nat) (md : Metadata)
    (info : SampleStreamInfo) (chunk : Chunk) (lump : Lump) (b : ChunkBuild)
    (hpos : 0 < lumpPackedbits lump) (hlt : lumpPackedbits lump < 2 ^ 16)
    (hcap : chunk.SizeWord * chunk.CountWords * 8 < 2 ^ 64)
    (hq : chunk.SizeWord * chunk.CountWords * 8 / lumpPackedbits lump < 2 ^ 16) :
    lnLumpRepeat chunk lump = chunk.SizeWord * chunk.CountWords * 8 / lumpPackedbits lump ∧
      lumpBody BitWidth md info chunk b lump =
        (List.range (chunk.SizeWord * chunk.CountWords * 8 / lumpPackedbits lump)).foldlM
          (lumpRepeatBody BitWidth md info chunk lump) b := by
  have hrep : lnLumpRepeat chunk lump =
      chunk.SizeWord * chunk.CountWords * 8 / lumpPackedbits lump :=
    lnLumpRepeat_eq_div hcap hlt hq
  refine ⟨hrep, ?_⟩
  unfold lumpBody
  have hnb : numBitsInLump lump ≠ 0 := by
    rw [numBitsInLump_eq, Nat.mod_eq_of_lt hlt]
    omega
  rw [if_neg hnb, hrep]

/-- C13, witness of `repeat_count_eq_quotient`: four 8-bit words hold four
repetitions of the one-byte lump. -/
theorem repeat_count_eq_quotient_witness :
    chunkPlan fixtureBitWidth 1 emptyFactory fixtureMd SampleStreamInfo.default (byteChunk 4) =
        some [⟨8, 0, some "s0"⟩, ⟨8, 1, some "s0"⟩, ⟨8, 2, some "s0"⟩, ⟨8, 3, some "s0"⟩] ∧
      lnLumpRepeat (byteChunk 4) byteLump =
        (byteChunk 4).SizeWord * (byteChunk 4).CountWords * 8 / lumpPackedbits byteLump ∧
      lumpBody fixtureBitWidth fixtureMd SampleStreamInfo.default (byteChunk 4)
          (chunkBuildStart 1 emptyFactory (byteChunk 4)) byteLump =
        (List.range ((byteChunk 4).SizeWord * (byteChunk 4).CountWords * 8 /
            lumpPackedbits byteLump)).foldlM
          (lumpRepeatBody fixtureBitWidth fixtureMd SampleStreamInfo.default (byteChunk 4)
            byteLump) (chunkBuildStart 1 emptyFactory (byteChunk 4)) :=
  ⟨by decide,
   repeat_count_eq_quotient fixtureBitWidth fixtureMd SampleStreamInfo.default (byteChunk 4)
    byteLump (chunkBuildStart 1 emptyFactory (byteChunk 4)) (by decide) (by decide) (by decide)
    (by decide)⟩

/-- C14, counterexample: a 16-bit stream in a chunk of one 8-bit word.  The lump
does not fit, it is repeated zero times, the build completes and the registry
holds no record for the stream. -/
theorem record_missing_without_repetition :
    lnLumpRepeat oversizedLumpChunk ⟨LumpShift.shiftLeft, [wordStream "s0" StreamShift.shiftLeft]⟩
        = 0 ∧
      (CreateChunkInterpreter fixtureBitWidth 1 emptyFactory fixtureMd fixtureInfo
        oversizedLumpChunk).map (fun r => (r.1, r.2.2.GetSampleStreamInfo "s0")) =
        some (true, none) := by
  decide

/-- C14, amended: `Open` on a closed converter reaches the chunk `chunk` of the
block `block` of the lane `lane` when no earlier lane fails, the lane has a file
and the chunks before `chunk` in the block have a supported `SizeWord`, as has
`chunk`.  For every stream of a lump of `chunk` that is repeated at least once,
whose identity no other stream of the chunk and no stream of a later chunk,
block or lane has, with the first system reference of the lane and the first
band reference of the stream found in the descriptor by id: `Open` returns or
throws when the lanes are defined, and in the state it leaves behind the record
looked up by the identity of the stream has the base frequency of that system,
the sample frequency `RateFactor * BaseFrequency`, the quantization of the
stream, the complex flag set exactly when the format is neither `IF` nor `IFn`,
and the center frequency, translated frequency and delay bias of that band. -/
theorem Open_stream_info_record (BitWidth : SampleFormat → Nat → Nat)
    (canOpen : String → Bool) (c : SampleConverter) (md : Metadata) ( path_prefix : String)
    (preL : List Lane) (lane : Lane) (postL : List Lane)
    (preB : List Block) (block : Block) (postB : List Block)
    (preC : List Chunk) (chunk : Chunk) (postC : List Chunk)
    (lump : Lump) (s : IonStream) (sysRef system : System) (bandRef band : Band)
    (hc : c.mIsOpen = false)
    (hlanes : md.Lanes = preL ++ lane :: postL)
    (hblocks : lane.Blocks = preB ++ block :: postB)
    (hchunks : block.Chunks = preC ++ chunk :: postC)
    (hpreL : ∀ l ∈ preL, ¬ LaneFails canOpen md path_prefix l)
    (hfile : ∃ file ∈ md.Files, file.Lane = lane.Id)
    (hpreC : ∀ ch ∈ preC, chunkWordBytes ch.SizeWord ≠ none)
    (hw : chunkWordBytes chunk.SizeWord ≠ none)
    (hl : lump ∈ chunk.Lumps) (hs : s ∈ lump.Streams) (hrep : lnLumpRepeat chunk lump ≠ 0)
    (huniq : ∀ l ∈ chunk.Lumps, ∀ x ∈ l.Streams, x.toString = s.toString → x = s)
    (hlaterC : ∀ ch ∈ postC, s.toString ∉ ch.streamNames)
    (hlaterB : ∀ b ∈ postB, s.toString ∉ b.streamNames)
    (hlaterL : ∀ l ∈ postL, s.toString ∉ l.streamNames)
    (hsys : lane.Systems.head? = some sysRef)
    (hsysfound : md.Systems.find? (fun x => x.Id == sysRef.Id) = some system)
    (hband : s.Bands.head? = some bandRef)
    (hbandfound : md.Bands.find? (fun b => b.Id == bandRef.Id) = some band) :
    ((∀ l ∈ md.Lanes, LaneDefined l) →
        ∃ c1, (Open BitWidth canOpen c md path_prefix).converter = some c1) ∧
      ∀ c1, (Open BitWidth canOpen c md path_prefix).converter = some c1 →
        c1.mSampleSinkFactory.GetSampleStreamInfo s.toString =
          some ⟨system.BaseFrequency, (s.RateFactor : ℚ) * system.BaseFrequency,
            s.Quantization,
            decide (s.Format ≠ SampleFormat.IF ∧ s.Format ≠ SampleFormat.IFn),
            band.CenterFrequency, band.TranslatedFrequency, band.DelayBias⟩ := by
  have hO : Open BitWidth canOpen c md path_prefix =
      openLanes BitWidth canOpen md path_prefix md.Lanes SampleStreamInfo.default c := by
    unfold Open
    rw [if_neg (by simp [hc])]
  rw [hO]
  refine ⟨?_, ?_⟩
  · intro hd
    by_cases hbad : ∃ l ∈ md.Lanes, LaneFails canOpen md path_prefix l
    · obtain ⟨what, c1, h⟩ := openLanes_threw BitWidth canOpen md path_prefix md.Lanes
        SampleStreamInfo.default c hd hbad
      exact ⟨c1, by rw [h]; rfl⟩
    · obtain ⟨c1, h, -⟩ := openLanes_returned BitWidth canOpen md path_prefix md.Lanes
        SampleStreamInfo.default c hd (fun l hl hf => hbad ⟨l, hl, hf⟩)
      exact ⟨c1, by rw [h]; rfl⟩
  · intro c1 h
    rw [hlanes] at h
    have hfound : (findFileForLane md lane.Id).1 = true := by
      cases hf : (findFileForLane md lane.Id).1 with
      | true => rfl
      | false =>
        obtain ⟨file, hfile1, hfile2⟩ := hfile
        exact absurd hfile2 ((findFileForLane_fst_eq_false_iff md lane.Id).mp hf file hfile1)
    have hsystem : (SearchSystem ⟨"", 0⟩ md sysRef.Id).BaseFrequency = system.BaseFrequency := by
      simp [SearchSystem, hsysfound]
    rcases openLanes_append_of_not_fails BitWidth canOpen md path_prefix preL (lane :: postL)
      SampleStreamInfo.default c hpreL with ⟨hu, -⟩ | ⟨info1, c0, he, -⟩
    · rw [hu] at h
      simp [OpenResult.converter] at h
    · rw [he] at h
      cases hr : lane.Blocks.foldlM (laneBlocks BitWidth md
          ⟨(SearchSystem ⟨"", 0⟩ md sysRef.Id).BaseFrequency, info1.mSampleFrequency,
            info1.mQuantization, info1.mIsComplexSamples, info1.mCenterFrequency,
            info1.mTranslatedFrequency, info1.mDelayBias⟩)
          (⟨(findFileForLane md lane.Id).2, []⟩, c0.mSampleSinkFactory) with
      | none =>
        rw [openLanes_cons_noblocks BitWidth canOpen md path_prefix lane postL info1 c0 sysRef
          hfound hsys hr] at h
        simp [OpenResult.converter] at h
      | some r =>
        have hrec : r.2.GetSampleStreamInfo s.toString =
            some ⟨system.BaseFrequency, (s.RateFactor : ℚ) * system.BaseFrequency,
              s.Quantization,
              decide (s.Format ≠ SampleFormat.IF ∧ s.Format ≠ SampleFormat.IFn),
              band.CenterFrequency, band.TranslatedFrequency, band.DelayBias⟩ := by
          have hr1 := hr
          rw [hblocks] at hr1
          have := laneBlocks_foldlM_record preB block postB preC chunk postC lump s bandRef band
            hr1 hchunks hpreC hw hl hs hrep huniq hlaterC hlaterB hband hbandfound
          simp only [hsystem] at this
          exact this
        cases hopen : canOpen ( path_prefix ++ r.1.FileURL) with
        | false =>
          rw [openLanes_cons_noopen BitWidth canOpen md path_prefix lane postL info1 c0 sysRef r
            hfound hsys hr hopen] at h
          simp only [OpenResult.converter, Option.some.injEq] at h
          rw [← h]; exact hrec
        | true =>
          rw [openLanes_cons_next BitWidth canOpen md path_prefix lane postL info1 c0 sysRef r
            hfound hsys hr hopen] at h
          exact openLanes_record_kept BitWidth canOpen md path_prefix s.toString _ postL _ _ c1 h
            hlaterL hrec

/-- C14, witness of `Open_stream_info_record`: `Open` on the closed converter and
the one-lane descriptor with the two-stream chunk; the lane cites the system
with base frequency 16368000, and the record of the second stream carries it. -/
theorem Open_stream_info_record_witness :
    ∃ c1, (Open fixtureBitWidth everyPathOpens closedConverter
          (laneMd [twoStreamChunk StreamShift.shiftLeft StreamShift.shiftLeft])
          "dir/").converter = some c1 ∧
      c1.mSampleSinkFactory.GetSampleStreamInfo "s1" =
        some ⟨16368000, ((1 : Nat) : ℚ) * 16368000, 16, false, 1575420000, 38400, 0⟩ := by
  have h := Open_stream_info_record fixtureBitWidth everyPathOpens closedConverter
    (laneMd [twoStreamChunk StreamShift.shiftLeft StreamShift.shiftLeft]) "dir/"
    [] ⟨"lane0", [fixtureSystem],
      [⟨1, 0, 0, [twoStreamChunk StreamShift.shiftLeft StreamShift.shiftLeft]⟩]⟩ []
    [] ⟨1, 0, 0, [twoStreamChunk StreamShift.shiftLeft StreamShift.shiftLeft]⟩ []
    [] (twoStreamChunk StreamShift.shiftLeft StreamShift.shiftLeft) []
    (twoStreamLump StreamShift.shiftLeft StreamShift.shiftLeft)
    (wordStream "s1" StreamShift.shiftLeft) fixtureSystem fixtureSystem fixtureBand fixtureBand
    rfl rfl rfl rfl
    (fun l hl => absurd hl (List.not_mem_nil l))
    (by decide)
    (fun ch hch => absurd hch (List.not_mem_nil ch))
    (by decide) (by decide) (by decide) (by decide)
    (by
      intro l hl x hx hxn
      simp only [twoStreamChunk, fixtureChunk, List.mem_singleton] at hl
      subst hl
      simp only [twoStreamLump, List.mem_cons, List.mem_singleton, List.not_mem_nil,
        or_false] at hx
      rcases hx with hx | hx
      · subst hx; exact absurd hxn (by decide)
      · exact hx)
    (fun ch hch => absurd hch (List.not_mem_nil ch))
    (fun b hb => absurd hb (List.not_mem_nil b))
    (fun l hl => absurd hl (List.not_mem_nil l))
    rfl rfl rfl rfl
  obtain ⟨c1, hc1⟩ := h.1 (by unfold LaneDefined BlockDefined ChunkDefined; decide)
  exact ⟨c1, hc1, h.2 c1 hc1⟩

/-- C15, counterexample: the stream `s0` has rate factor `65536`, so that the
unit index `0` lies in `[0, RateFactor)`, and its lump is repeated once, so that
the repetition index `0` lies in `[0, lumpRepeat)`.  The 16-bit unit count of the
stream is zero: the plan holds the unit of the other stream and no sample unit
of `s0` at all. -/
theorem no_unit_for_rate_factor_65536 :
    wideRateChunk.Lumps = [wideRateLump] ∧ wideRateStream ∈ wideRateLump.Streams ∧
      0 < lnLumpRepeat wideRateChunk wideRateLump ∧ 0 < wideRateStream.RateFactor ∧
      chunkPlan fixtureBitWidth 1 emptyFactory fixtureMd SampleStreamInfo.default wideRateChunk =
        some [⟨8, 0, some "s1"⟩] := by
  decide

/-- C15, amended: for every chunk, every lump of it, repetition index `lr` in
`[0, lumpRepeat)` and stream `s` of the lump, declared after the streams `pre`:
the plan is built when the build is defined, and in the plan that
`CreateChunkInterpreter` builds the sample units number `unitsBefore`,
`unitsBefore + 1`, ... are the units emitted for `s` in repetition `lr`, one for
each unit index `i` in `[0, RateFactor(s) mod 2^16)`; the `i`-th of them belongs
to `s` and has the call order `offset(lr) + T(s) + i` when `Stream.Shift = Left`
and `offset(lr) + T(s) + RateFactor(s) - i` when `Stream.Shift = Right`, modulo
`2^16`, with `T(s)`, `unitsPerLumpRepeat` and `offset(lr)` as in
`claimedCallOrder`.  Here `unitsBefore` counts the sample units of the lumps
before the lump, of the repetitions before `lr` and of the streams `pre`. -/
theorem callOrder_in_plan (BitWidth : SampleFormat → Nat → Nat) (wordBytes : Nat)
    (factory : SampleSinkFactory) (md : Metadata) (info : SampleStreamInfo) (chunk : Chunk)
    (preL : List Lump) (lump : Lump) (postL : List Lump) (pre : List IonStream) (s : IonStream)
    (post : List IonStream) (lr : Nat)
    (hlumps : chunk.Lumps = preL ++ lump :: postL) (hs : lump.Streams = pre ++ s :: post)
    (hlr : lr < lnLumpRepeat chunk lump) :
    (ChunkDefined chunk →
        ∃ plan, chunkPlan BitWidth wordBytes factory md info chunk = some plan) ∧
      ∀ plan, chunkPlan BitWidth wordBytes factory md info chunk = some plan →
        (∃ before after, sampleUnits plan =
            before ++ (List.range (s.RateFactor % 2 ^ 16)).map
              (claimedUnit BitWidth chunk lump pre s lr) ++ after ∧
          before.length = unitsBefore chunk preL lump pre lr) ∧
        ∀ i, i < s.RateFactor % 2 ^ 16 →
          ∃ u, (sampleUnits plan)[unitsBefore chunk preL lump pre lr + i]? = some u ∧
            u.sink = some s.toString ∧
            u.callOrder = claimedCallOrder chunk lump pre s lr i := by
  refine ⟨fun hd => ⟨_, chunkPlan_of_defined BitWidth wordBytes factory md info chunk hd⟩, ?_⟩
  intro plan hplan
  rw [chunkPlan_eq_some hplan, sampleUnits_planOf]
  obtain ⟨before, after, hsplit, hlen⟩ :=
    sampleUnits_lumpsUnits_split BitWidth chunk preL lump postL pre s post lr hlumps hs hlr
  refine ⟨⟨before, after, hsplit, hlen⟩, ?_⟩
  intro i hi
  refine ⟨claimedUnit BitWidth chunk lump pre s lr i, ?_, rfl, rfl⟩
  rw [hsplit, ← hlen, List.append_assoc, List.getElem?_append_right (Nat.le_add_right _ _),
    Nat.add_sub_cancel_left, List.getElem?_append_left (by simpa using hi), List.getElem?_map,
    List.getElem?_range hi]
  rfl

/-- C15, witness of `callOrder_in_plan` (Scenario B): the right-shifted second
stream, declared after one stream with rate factor 1, in repetition 0 of a
left-shifted lump.  Its unit is the sample unit number 1 of the plan and has the
call order `0 + 1 + 1 - 0 = 2`. -/
theorem callOrder_in_plan_witness :
    chunkPlan fixtureBitWidth 4 emptyFactory fixtureMd SampleStreamInfo.default
        (twoStreamChunk StreamShift.shiftLeft StreamShift.shiftRight) =
        some [⟨16, 0, some "s0"⟩, ⟨16, 2, some "s1"⟩] ∧
      unitsBefore (twoStreamChunk StreamShift.shiftLeft StreamShift.shiftRight) []
        (twoStreamLump StreamShift.shiftLeft StreamShift.shiftRight)
        [wordStream "s0" StreamShift.shiftLeft] 0 = 1 ∧
      claimedCallOrder (twoStreamChunk StreamShift.shiftLeft StreamShift.shiftRight)
        (twoStreamLump StreamShift.shiftLeft StreamShift.shiftRight)
        [wordStream "s0" StreamShift.shiftLeft] (wordStream "s1" StreamShift.shiftRight) 0 0 = 2 ∧
      ∀ i, i < (wordStream "s1" StreamShift.shiftRight).RateFactor % 2 ^ 16 →
        ∃ u, (sampleUnits [⟨16, 0, some "s0"⟩, ⟨16, 2, some "s1"⟩])[
            unitsBefore (twoStreamChunk StreamShift.shiftLeft StreamShift.shiftRight) []
              (twoStreamLump StreamShift.shiftLeft StreamShift.shiftRight)
              [wordStream "s0" StreamShift.shiftLeft] 0 + i]? = some u ∧
          u.sink = some (wordStream "s1" StreamShift.shiftRight).toString ∧
          u.callOrder =
            claimedCallOrder (twoStreamChunk StreamShift.shiftLeft StreamShift.shiftRight)
              (twoStreamLump StreamShift.shiftLeft StreamShift.shiftRight)
              [wordStream "s0" StreamShift.shiftLeft] (wordStream "s1" StreamShift.shiftRight)
              0 i :=
  ⟨by decide, by decide, by decide,
    ((callOrder_in_plan fixtureBitWidth 4 emptyFactory fixtureMd SampleStreamInfo.default
      (twoStreamChunk StreamShift.shiftLeft StreamShift.shiftRight) []
      (twoStreamLump StreamShift.shiftLeft StreamShift.shiftRight) []
      [wordStream "s0" StreamShift.shiftLeft] (wordStream "s1" StreamShift.shiftRight) [] 0
      rfl rfl (by decide)).2 _ (by decide)).2⟩

/-! ### C16 -/

/-- C16: the kind, bit width and sink of the units of a plan, position by
position, do not depend on the lump and stream shifts.  For any two chunk
descriptors that differ only in the `Lump.Shift` and `Stream.Shift` values, one
build has undefined behaviour exactly when the other has, and otherwise the two
plans have the same length and, at each position, units of the same kind
(sample or padding), bit width and target sink. -/
theorem plan_shape_independent_of_shifts (BitWidth : SampleFormat → Nat → Nat)
    (wordBytes : Nat) (factory : SampleSinkFactory) (md : Metadata) (info : SampleStreamInfo)
    (c1 c2 : Chunk) (hshift : c1.eraseShifts = c2.eraseShifts) :
    (chunkPlan BitWidth wordBytes factory md info c1).map (List.map unitShape) =
        (chunkPlan BitWidth wordBytes factory md info c2).map (List.map unitShape) ∧
      ∀ p1 p2 : List SampleInterpreter,
        chunkPlan BitWidth wordBytes factory md info c1 = some p1 →
        chunkPlan BitWidth wordBytes factory md info c2 = some p2 →
        p1.length = p2.length ∧
          ∀ (k : Nat) (u1 u2 : SampleInterpreter), p1[k]? = some u1 → p2[k]? = some u2 →
            u1.isPadding = u2.isPadding ∧ u1.bitWidth = u2.bitWidth ∧ u1.sink = u2.sink := by
  have hmap : (chunkPlan BitWidth wordBytes factory md info c1).map (List.map unitShape) =
      (chunkPlan BitWidth wordBytes factory md info c2).map (List.map unitShape) := by
    rw [← shape_chunkPlan_eraseShifts BitWidth wordBytes factory md info c1,
      ← shape_chunkPlan_eraseShifts BitWidth wordBytes factory md info c2, hshift]
  refine ⟨hmap, ?_⟩
  intro p1 p2 h1 h2
  rw [h1, h2] at hmap
  simp only [Option.map_some', Option.some.injEq] at hmap
  refine ⟨?_, ?_⟩
  · have := congrArg List.length hmap
    simpa using this
  · intro k u1 u2 hu1 hu2
    have hk := congrArg (fun l => l[k]?) hmap
    simp only [List.getElem?_map, hu1, hu2, Option.map_some', Option.some.injEq] at hk
    unfold unitShape at hk
    simp only [Prod.mk.injEq] at hk
    exact hk

/-- C16 at a lump of two 16-bit streams in one 32-bit word: the lump shifted
right with its first stream shifted right, against all shifts left.  The call
orders are `3, 3` against `0, 1`; kind, width and sink agree. -/
theorem plan_shape_independent_of_shifts_witness :
    mixedShiftChunk.eraseShifts =
        (twoStreamChunk StreamShift.shiftLeft StreamShift.shiftLeft).eraseShifts ∧
      chunkPlan fixtureBitWidth 4 emptyFactory fixtureMd fixtureInfo mixedShiftChunk =
        some [⟨16, 3, some "s0"⟩, ⟨16, 3, some "s1"⟩] ∧
      chunkPlan fixtureBitWidth 4 emptyFactory fixtureMd fixtureInfo
          (twoStreamChunk StreamShift.shiftLeft StreamShift.shiftLeft) =
        some [⟨16, 0, some "s0"⟩, ⟨16, 1, some "s1"⟩] ∧
      (chunkPlan fixtureBitWidth 4 emptyFactory fixtureMd fixtureInfo mixedShiftChunk).map
          (List.map unitShape) =
        (chunkPlan fixtureBitWidth 4 emptyFactory fixtureMd fixtureInfo
          (twoStreamChunk StreamShift.shiftLeft StreamShift.shiftLeft)).map
          (List.map unitShape) :=
  ⟨by decide, by decide, by decide,
    (plan_shape_independent_of_shifts fixtureBitWidth 4 emptyFactory fixtureMd fixtureInfo
      mixedShiftChunk (twoStreamChunk StreamShift.shiftLeft StreamShift.shiftLeft)
      (by decide)).1⟩

/-! ### C17 -/

/-- C17: bit conservation for a chunk with exactly one lump.  For a chunk built
with the word type of its `SizeWord` that has exactly one lump such that (i) the
total `Packedbits` of the lump is positive and it and the capacity
`SizeWord * CountWords * 8` divided by it are below `2^16`, (ii) every stream has
`Packedbits >= RateFactor * BitWidth` and either equality holds or `Alignment` is
not `Undefined`, and (iii) the total `Packedbits` of the lump divides the
capacity or `Chunk.Padding` is not `None`: the build returns a plan as soon as
every stream has a band, and the bit widths of the units of the plan that
`CreateChunkInterpreter` builds sum to `SizeWord * CountWords * 8`. -/
theorem single_lump_planBits_eq_capacity (BitWidth : SampleFormat → Nat → Nat)
    (wordBytes : Nat) (factory : SampleSinkFactory) (md : Metadata) (info : SampleStreamInfo)
    (chunk : Chunk) (lump : Lump)
    (hw : chunkWordBytes chunk.SizeWord = some wordBytes)
    (hlumps : chunk.Lumps = [lump])
    (hpos : 0 < lumpPackedbits lump)
    (hlt : lumpPackedbits lump < 2 ^ 16)
    (hq : chunk.SizeWord * chunk.CountWords * 8 / lumpPackedbits lump < 2 ^ 16)
    (hstreams : ∀ s ∈ lump.Streams,
      s.RateFactor * BitWidth s.Format s.Quantization ≤ s.Packedbits ∧
      (s.Packedbits = s.RateFactor * BitWidth s.Format s.Quantization ∨
        s.Alignment ≠ StreamAlignment.Undefined))
    (hdiv : lumpPackedbits lump ∣ chunk.SizeWord * chunk.CountWords * 8 ∨
      chunk.Padding ≠ ChunkPadding.None) :
    ((∀ s ∈ lump.Streams, s.Bands ≠ []) →
        ∃ plan, chunkPlan BitWidth wordBytes factory md info chunk = some plan) ∧
      ∀ plan, chunkPlan BitWidth wordBytes factory md info chunk = some plan →
        planBits plan = chunk.SizeWord * chunk.CountWords * 8 := by
  change chunkBitCapacity chunk / lumpPackedbits lump < 2 ^ 16 at hq
  change lumpPackedbits lump ∣ chunkBitCapacity chunk ∨ _ at hdiv
  have hdm := Nat.div_add_mod (chunkBitCapacity chunk) (lumpPackedbits lump)
  have hmod := Nat.mod_lt (chunkBitCapacity chunk) hpos
  have hmul : lumpPackedbits lump * (chunkBitCapacity chunk / lumpPackedbits lump) ≤
      lumpPackedbits lump * 65535 := Nat.mul_le_mul_left _ (by omega)
  have hcap : chunkBitCapacity chunk < 2 ^ 32 := by omega
  have hrep : lnLumpRepeat chunk lump = chunkBitCapacity chunk / lumpPackedbits lump :=
    lnLumpRepeat_eq_div (by omega) hlt hq
  have hnb : numBitsInLump lump = lumpPackedbits lump := by
    rw [numBitsInLump_eq]; exact Nat.mod_eq_of_lt hlt
  have hcons : bitsConsumed chunk =
      chunkBitCapacity chunk / lumpPackedbits lump * lumpPackedbits lump := by
    unfold bitsConsumed
    rw [hlumps, List.map_cons, List.map_nil, List.sum_cons, List.sum_nil, hrep, Nat.add_zero]
  have hfit : bitsConsumed chunk ≤ chunkBitCapacity chunk := by
    rw [hcons]; exact Nat.div_mul_le_self _ _
  refine ⟨?_, ?_⟩
  · intro hbands
    refine ⟨_, chunkPlan_of_defined BitWidth wordBytes factory md info chunk ?_⟩
    intro l hl
    rw [hlumps, List.mem_singleton] at hl
    subst hl
    exact ⟨by omega, hbands⟩
  · intro plan hplan
    rw [chunkPlan_eq_some hplan]
    have hl : planBits (lumpsUnits BitWidth chunk) = bitsConsumed chunk := by
      unfold lumpsUnits bitsConsumed
      rw [hlumps, List.flatMap_cons, List.flatMap_nil, List.append_nil, List.map_cons,
        List.map_nil, List.sum_cons, List.sum_nil, Nat.add_zero]
      exact planBits_lumpUnits_of_fit chunk lump hlt hstreams
    have hp := chunkPaddingBits_eq hw hcap hfit
    change _ = chunkBitCapacity chunk
    unfold planOf
    split
    · split
      · rw [planBits_cons, hl]; exact hp
      · rw [planBits_append, planBits_cons, planBits_nil, hl]; simp only; omega
    · rename_i hn
      rw [hl]
      rcases hdiv with hdiv | hdiv
      · rw [hcons]; exact Nat.div_mul_cancel hdiv
      · have : ¬ 0 < chunkPaddingBits wordBytes chunk := fun hpos => hn ⟨hpos, hdiv⟩
        omega

/-- C17 at the stream of Scenario C in one 32-bit word with tail padding: the
plan is `[padding(4), sample(8), sample(8), padding(12)]`, 32 bits. -/
theorem single_lump_planBits_eq_capacity_witness :
    chunkPlan fixtureBitWidth 4 emptyFactory fixtureMd fixtureInfo paddedChunk =
        some [⟨4, 0, none⟩, ⟨8, 0, some "s0"⟩, ⟨8, 1, some "s0"⟩, ⟨12, 0, none⟩] ∧
      planBits [⟨4, 0, none⟩, ⟨8, 0, some "s0"⟩, ⟨8, 1, some "s0"⟩, ⟨12, 0, none⟩] =
        paddedChunk.SizeWord * paddedChunk.CountWords * 8 :=
  ⟨by decide,
    (single_lump_planBits_eq_capacity fixtureBitWidth 4 emptyFactory fixtureMd fixtureInfo
      paddedChunk scenarioCLump (by decide) rfl (by decide) (by decide) (by decide) (by decide)
      (by decide)).2 _ (by decide)⟩

/-! ### C18 -/

/-- C18: `Open` binds a lane to the last file that references it.  On a closed
converter `Open` returns or throws when the lanes are defined, and in the state
it then leaves behind the lane interpreters `L` appended to `mLaneInterps`
cover every lane that has a file and is preceded only by lanes that do not
fail; the lane interpreter of the lane at position `k` carries the URL of the
last file of the descriptor, in descriptor order, whose lane id is the id of
that lane, and its byte source in `mLaneFiles` was opened at `path_prefix`
followed by that URL. -/
theorem Open_binds_last_file (BitWidth : SampleFormat → Nat → Nat) (canOpen : String → Bool)
    (c : SampleConverter) (md : Metadata) ( path_prefix : String) (hc : c.mIsOpen = false) :
    ((∀ lane ∈ md.Lanes, LaneDefined lane) →
        ∃ c1, (Open BitWidth canOpen c md path_prefix).converter = some c1) ∧
      ∀ c1, (Open BitWidth canOpen c md path_prefix).converter = some c1 →
        ∃ L, c1.mLaneInterps = c.mLaneInterps ++ L ∧
          (∀ (k : Nat) (lane : Lane), md.Lanes[k]? = some lane →
            (∀ l ∈ md.Lanes.take k, ¬ LaneFails canOpen md path_prefix l) →
            (∃ file ∈ md.Files, file.Lane = lane.Id) → k < L.length) ∧
          ∀ (k : Nat) (lane : Lane) (li : LaneInterpreter),
            md.Lanes[k]? = some lane → L[k]? = some li →
            ∃ file, lastFileFor md lane.Id = some file ∧ li.FileURL = file.Url ∧
              c1.mLaneFiles[c.mLaneFiles.length + k]? =
                some (c.mLaneInterps.length + k,
                  ⟨ path_prefix ++ file.Url, canOpen ( path_prefix ++ file.Url)⟩) := by
  have hO : Open BitWidth canOpen c md path_prefix =
      openLanes BitWidth canOpen md path_prefix md.Lanes SampleStreamInfo.default c := by
    unfold Open
    rw [if_neg (by simp [hc])]
  rw [hO]
  refine ⟨?_, ?_⟩
  · intro hd
    by_cases hbad : ∃ lane ∈ md.Lanes, LaneFails canOpen md path_prefix lane
    · obtain ⟨what, c1, h⟩ := openLanes_threw BitWidth canOpen md path_prefix md.Lanes
        SampleStreamInfo.default c hd hbad
      exact ⟨c1, by rw [h]; rfl⟩
    · obtain ⟨c1, h, -⟩ := openLanes_returned BitWidth canOpen md path_prefix md.Lanes
        SampleStreamInfo.default c hd (fun lane hl hf => hbad ⟨lane, hl, hf⟩)
      exact ⟨c1, by rw [h]; rfl⟩
  · intro c1 h
    obtain ⟨L, h1, h2, -, h4, h5⟩ := openLanes_outcome BitWidth canOpen md path_prefix md.Lanes
      SampleStreamInfo.default c c1 h
    refine ⟨L, h1, ?_, ?_⟩
    · intro k lane hk hpre ⟨file, hfile, hlane⟩
      apply h5 k lane hk hpre
      cases hf : (findFileForLane md lane.Id).1 with
      | true => rfl
      | false =>
        exact absurd hlane ((findFileForLane_fst_eq_false_iff md lane.Id).mp hf file hfile)
    · intro k lane li hk hli
      obtain ⟨hfound, hurl⟩ := h4 k lane li hk hli
      obtain ⟨file, hlast, hfu⟩ := lastFileFor_of_found hfound
      refine ⟨file, hlast, by rw [hurl, hfu], ?_⟩
      rw [h2, List.getElem?_append_right (Nat.le_add_right _ _), Nat.add_sub_cancel_left,
        laneFileEntries_getElem? canOpen path_prefix _ k L li hli, hurl, hfu]

/-- C18 at a descriptor whose files `a.dat` and `b.dat` both reference the only
lane: `Open` returns `true`, the lane is bound to `b.dat` and its byte source is
opened at `dir/b.dat`. -/
theorem Open_binds_last_file_witness :
    lastFileFor twoFileMd "lane0" = some ⟨"b.dat", "lane0"⟩ ∧
      Open fixtureBitWidth everyPathOpens closedConverter twoFileMd "dir/" =
        OpenResult.returned true
          ⟨true, [⟨"b.dat", []⟩], [(0, ⟨"dir/b.dat", true⟩)], emptyFactory⟩ ∧
      ∃ L, [(⟨"b.dat", []⟩ : LaneInterpreter)] = closedConverter.mLaneInterps ++ L ∧
        (∀ (k : Nat) (lane : Lane), twoFileMd.Lanes[k]? = some lane →
          (∀ l ∈ twoFileMd.Lanes.take k, ¬ LaneFails everyPathOpens twoFileMd "dir/" l) →
          (∃ file ∈ twoFileMd.Files, file.Lane = lane.Id) → k < L.length) ∧
        ∀ (k : Nat) (lane : Lane) (li : LaneInterpreter),
          twoFileMd.Lanes[k]? = some lane → L[k]? = some li →
          ∃ file, lastFileFor twoFileMd lane.Id = some file ∧ li.FileURL = file.Url ∧
            [((0 : Nat), (⟨"dir/b.dat", true⟩ : BinaryFileSource))][
                closedConverter.mLaneFiles.length + k]? =
              some (closedConverter.mLaneInterps.length + k,
                ⟨"dir/" ++ file.Url, everyPathOpens ("dir/" ++ file.Url)⟩) :=
  ⟨by decide, by decide,
    (Open_binds_last_file fixtureBitWidth everyPathOpens closedConverter twoFileMd "dir/" rfl).2
      ⟨true, [⟨"b.dat", []⟩], [(0, ⟨"dir/b.dat", true⟩)], emptyFactory⟩ (by decide)⟩

/-! ### C19 -/

/-- C19: `Open` is not atomic on failure.  On a closed converter and a
descriptor whose lane at position `k` has no file while none of the `k` lanes
before it fails (each has a file and an openable source): `Open` throws
`No file found for Lane` when those lanes are defined, and whenever it throws,
that is what it throws, `mIsOpen` is still `false`, and `mLaneInterps` and
`mLaneFiles` have each been extended by exactly `k` entries.  A later `Open` on
that converter is not rejected as already open: it runs the loop over the lanes
on the leftover state and appends its lane interpreters and byte sources to
it. -/
theorem Open_not_atomic_on_missing_file (BitWidth : SampleFormat → Nat → Nat)
    (canOpen : String → Bool) (c : SampleConverter) (md : Metadata) ( path_prefix : String)
    (pre : List Lane) (lane : Lane) (post : List Lane)
    (hc : c.mIsOpen = false) (hlanes : md.Lanes = pre ++ lane :: post)
    (hpre : ∀ l ∈ pre, ¬ LaneFails canOpen md path_prefix l)
    (hno : ∀ file ∈ md.Files, file.Lane ≠ lane.Id) :
    ((∀ l ∈ pre, LaneDefined l) →
        ∃ c1, Open BitWidth canOpen c md path_prefix =
          OpenResult.threw "SampleConverter: No file found for Lane" c1) ∧
      ∀ what c1, Open BitWidth canOpen c md path_prefix = OpenResult.threw what c1 →
        what = "SampleConverter: No file found for Lane" ∧ c1.mIsOpen = false ∧
        (∃ L, L.length = pre.length ∧ c1.mLaneInterps = c.mLaneInterps ++ L ∧
          c1.mLaneFiles =
            c.mLaneFiles ++ laneFileEntries canOpen path_prefix c.mLaneInterps.length L) ∧
        c1.mLaneInterps.length = c.mLaneInterps.length + pre.length ∧
        c1.mLaneFiles.length = c.mLaneFiles.length + pre.length ∧
        ∀ (canOpen2 : String → Bool) (md2 : Metadata) ( next_prefix : String),
          Open BitWidth canOpen2 c1 md2 next_prefix =
              openLanes BitWidth canOpen2 md2 next_prefix md2.Lanes SampleStreamInfo.default c1 ∧
            (∀ c2, Open BitWidth canOpen2 c1 md2 next_prefix ≠
              OpenResult.threw "Error: Already open" c2) ∧
            ∀ c2, (Open BitWidth canOpen2 c1 md2 next_prefix).converter = some c2 →
              ∃ L2, c2.mLaneInterps = c1.mLaneInterps ++ L2 ∧
                c2.mLaneFiles = c1.mLaneFiles ++
                  laneFileEntries canOpen2 next_prefix c1.mLaneInterps.length L2 := by
  have hO : Open BitWidth canOpen c md path_prefix =
      openLanes BitWidth canOpen md path_prefix (pre ++ lane :: post) SampleStreamInfo.default
        c := by
    unfold Open
    rw [if_neg (by simp [hc]), hlanes]
  have hfound : (findFileForLane md lane.Id).1 = false :=
    (findFileForLane_fst_eq_false_iff md lane.Id).mpr hno
  have hreach := openLanes_append_of_not_fails BitWidth canOpen md path_prefix pre
    (lane :: post) SampleStreamInfo.default c hpre
  rw [hO]
  refine ⟨?_, ?_⟩
  · intro hd
    rcases hreach with ⟨-, hnd⟩ | ⟨info1, c1, he, -⟩
    · exact absurd hd hnd
    · rw [he, openLanes_cons_nofile BitWidth canOpen md path_prefix lane post info1 c1 hfound]
      exact ⟨c1, rfl⟩
  · intro what c1 hthrew
    rcases hreach with ⟨hu, -⟩ | ⟨info1, c0, he, ho, L, hL, h1, h2⟩
    · rw [hu] at hthrew
      exact OpenResult.noConfusion hthrew
    · rw [he, openLanes_cons_nofile BitWidth canOpen md path_prefix lane post info1 c0 hfound]
        at hthrew
      injection hthrew with hw hcc
      subst hcc
      have hclosed : c0.mIsOpen = false := by rw [ho, hc]
      refine ⟨hw.symm, hclosed, ⟨L, hL, h1, h2⟩, ?_, ?_, ?_⟩
      · rw [h1, List.length_append, hL]
      · rw [h2, List.length_append, laneFileEntries_length, hL]
      · intro canOpen2 md2 next_prefix
        have hO2 : Open BitWidth canOpen2 c0 md2 next_prefix =
            openLanes BitWidth canOpen2 md2 next_prefix md2.Lanes SampleStreamInfo.default
              c0 := by
          unfold Open
          rw [if_neg (by simp [hclosed])]
        refine ⟨hO2, ?_, ?_⟩
        · intro c2 h
          rw [hO2] at h
          have hwhat := (openLanes_threw_what BitWidth canOpen2 md2 next_prefix md2.Lanes
            SampleStreamInfo.default c0 c2 _ h).1
          revert hwhat
          decide
        · intro c2 h
          rw [hO2] at h
          obtain ⟨L2, g1, g2, -⟩ := openLanes_outcome BitWidth canOpen2 md2 next_prefix
            md2.Lanes SampleStreamInfo.default c0 c2 h
          exact ⟨L2, g1, g2⟩

/-- C19 at a descriptor of two lanes with a file for the first lane only: `Open`
on the closed converter throws at the second lane and leaves the converter
closed with the first lane and its byte source registered; `Open` on that
converter with the two-file descriptor is not rejected, returns `true`, and the
converter then holds the stale lane in front of the new one. -/
theorem Open_not_atomic_on_missing_file_witness :
    Open fixtureBitWidth everyPathOpens closedConverter missingFileMd "dir/" =
        OpenResult.threw "SampleConverter: No file found for Lane" leftoverConverter ∧
      Open fixtureBitWidth everyPathOpens leftoverConverter twoFileMd "dir/" =
        OpenResult.returned true
          ⟨true, [⟨"l0.dat", []⟩, ⟨"b.dat", []⟩],
            [(0, ⟨"dir/l0.dat", true⟩), (1, ⟨"dir/b.dat", true⟩)], emptyFactory⟩ ∧
      leftoverConverter.mIsOpen = false ∧
      leftoverConverter.mLaneInterps.length = closedConverter.mLaneInterps.length + 1 ∧
      leftoverConverter.mLaneFiles.length = closedConverter.mLaneFiles.length + 1 :=
  have h := (Open_not_atomic_on_missing_file fixtureBitWidth everyPathOpens closedConverter
    missingFileMd "dir/" [⟨"lane0", [fixtureSystem], []⟩] ⟨"lane1", [fixtureSystem], []⟩ [] rfl
    rfl (by unfold LaneFails; decide) (by decide)).2
    "SampleConverter: No file found for Lane" leftoverConverter (by decide)
  ⟨by decide, by decide, h.2.1, h.2.2.2.1, h.2.2.2.2.1⟩
